import Mathlib

/-!
# The replay iterator of `db/replay_iterator.cc`

A shallow embedding of `ReplayState` and `ReplayIteratorImpl`: the cursor
operations `Valid`, `Next`, `HasValue`, `key`, `value`, `status`, the producer
operation `enqueue`, the teardown `cleanup`, and the private `ParseKey` and
`Prime`.

Conventions of the embedding.

* Pointers are `Option`s (`none` is `NULL`); dereferencing `NULL`, a failed
  `assert`, and a call that breaks a collaborator's `REQUIRES` clause are
  reported as a `Fault`.
* `db_->LastSequence()` is read once per stage transition.  `Prime` receives
  the list of the values these successive reads return; the list also bounds
  the number of transitions one call may perform.
* `MemTable::Ref()` / `MemTable::Unref()` act on objects outside the iterator;
  their calls are recorded, in order, in `refLog`.
-/

namespace leveldb

/-! ## Collaborators that live outside `db/replay_iterator.cc` -/

/-- A byte string. -/
abbrev Slice := List Nat

/-- A write-sequence number (`uint64_t` in the source; only compared, never
computed with). -/
abbrev SequenceNumber := Nat

/-- The kind tag of a composite key. -/
abbrev ValueType := Nat

/-- Modelled from the spec: the kind tag `Deletion` of a composite key
(`db/dbformat.h` is not part of the sources at hand). -/
def kTypeDeletion : ValueType := 0

/-- Modelled from the spec: the kind tag `Value` of a composite key
(`db/dbformat.h` is not part of the sources at hand). -/
def kTypeValue : ValueType := 1

/-- Modelled from the spec: "the maximum representable sequence value"
(`db/dbformat.h` is not part of the sources at hand; sequence numbers take 56
bits of the 64-bit trailer of a composite key). -/
def kMaxSequenceNumber : SequenceNumber := 2 ^ 56 - 1

/-- Modelled from the spec: the result type of `status()`; "Corruption" is the
error of a composite-key parse failure, the other codes are errors a raw
iterator may surface. -/
inductive Status where
  | OK
  | NotFound (msg : String)
  | Corruption (msg : String)
  | NotSupported (msg : String)
  | InvalidArgument (msg : String)
  | IOError (msg : String)
deriving DecidableEq, Repr

/-- The source's `Status::ok()`. -/
def Status.ok : Status → Bool
  | .OK => true
  | _ => false

/-- The source's `ParsedInternalKey`: the tuple a composite key decodes to. -/
structure ParsedInternalKey where
  user_key : Slice
  sequence : SequenceNumber
  type : ValueType
deriving DecidableEq, Repr

/-- Modelled from the spec: a raw composite key, "conceptually
`(user_key, sequence, kind)`", which the core parses "and fails with a
corruption error if parsing fails".  A raw key either decodes to a tuple or is
malformed. -/
inductive InternalKey where
  | wellFormed (ikey : ParsedInternalKey)
  | malformed (bytes : Slice)
deriving DecidableEq, Repr

/-- Modelled from the spec: `ParseInternalKey` of `db/dbformat.h`, the parser
of a composite key; `none` is the source's `false`. -/
def ParseInternalKey : InternalKey → Option ParsedInternalKey
  | .wellFormed ikey => some ikey
  | .malformed _ => none

/-- Modelled from the spec: `ExtractUserKey` of `db/dbformat.h`, the user-key
part of a composite key (all but the 8-byte trailer). -/
def ExtractUserKey : InternalKey → Slice
  | .wellFormed ikey => ikey.user_key
  | .malformed bytes => bytes.take (bytes.length - 8)

/-- One record of a raw iterator. -/
structure Entry where
  key : InternalKey
  value : Slice
deriving DecidableEq, Repr

/-- Modelled from the spec: the RawIterator collaborator (`valid`, `advance`,
`seek_to_first`, `seek_to_last`, `key`, `value`, `status`): a cursor `pos` over
the ordered records `entries`, positioned on a record iff
`pos < entries.length`. -/
structure Iterator where
  entries : List Entry
  pos : Nat
  status_ : Status
deriving DecidableEq, Repr

namespace Iterator

/-- The raw iterator is positioned on a record. -/
def Valid (it : Iterator) : Bool := decide (it.pos < it.entries.length)

/-- The record under the cursor, if any. -/
def current (it : Iterator) : Option Entry := it.entries[it.pos]?

/-- Moves one record forward (the caller must have checked `Valid`). -/
def Next (it : Iterator) : Iterator := { it with pos := it.pos + 1 }

/-- Positions the cursor on the first record. -/
def SeekToFirst (it : Iterator) : Iterator := { it with pos := 0 }

/-- Positions the cursor on the last record (nowhere if there is none). -/
def SeekToLast (it : Iterator) : Iterator := { it with pos := it.entries.length - 1 }

/-- The raw iterator's own status. -/
def status (it : Iterator) : Status := it.status_

end Iterator

/-- Modelled from the spec: the in-memory Buffer collaborator.  `id` stands
for the address of the object, `entries` for its records in iterator order. -/
structure MemTable where
  id : Nat
  entries : List Entry
deriving DecidableEq, Repr

/-- Modelled from the spec: `new_iterator()`, a "fresh ordered iterator over
its composite keys"; it is not positioned until it is sought. -/
def MemTable.NewIterator (m : MemTable) : Iterator :=
  { entries := m.entries, pos := m.entries.length, status_ := Status.OK }

/-- The Comparator collaborator: `Compare(a, b)`, zero iff the keys are equal
for the comparator. -/
abbrev Comparator := Slice → Slice → Int

/-- A call of `MemTable::Ref()` or `MemTable::Unref()`, with the `id` of the
buffer it was made on. -/
inductive RefEvent where
  | Ref (id : Nat)
  | Unref (id : Nat)
deriving DecidableEq, Repr

/-- What stops an operation short of returning. -/
inductive Fault where
  /-- The `assert(rs_.iter_)` of `Prime` fails, or `rs_.iter_` is `NULL` where
  it is dereferenced. -/
  | nullIterator
  /-- The `rs_.mem_->NewIterator()` of `Prime` dereferences `NULL`. -/
  | nullMemTable
  /-- The raw iterator's `Next()` is called while it is not positioned on a
  record. -/
  | rawNotValid
  /-- An `assert(valid_)` fails. -/
  | assertValid
  /-- The values supplied for `db_->LastSequence()` are used up. -/
  | noMoreReadings
deriving DecidableEq, Repr

/-! ## `ReplayState` and `ReplayIteratorImpl` -/

/-- The source's `ReplayState`. -/
structure ReplayState where
  mem_ : Option MemTable
  iter_ : Option Iterator
  seq_start_ : SequenceNumber
  seq_limit_ : SequenceNumber
deriving DecidableEq, Repr

/-- `ReplayState::ReplayState(Iterator* i, SequenceNumber s, SequenceNumber l)`. -/
def ReplayState.ofIterator (i : Option Iterator) (s l : SequenceNumber) : ReplayState :=
  { mem_ := none, iter_ := i, seq_start_ := s, seq_limit_ := l }

/-- `ReplayState::ReplayState(MemTable* m, SequenceNumber s)`. -/
def ReplayState.ofMemTable (m : Option MemTable) (s : SequenceNumber) : ReplayState :=
  { mem_ := m, iter_ := none, seq_start_ := s, seq_limit_ := 0 }

/-- The members of `ReplayIteratorImpl` (`db_` and `mutex_` are the host: see
the conventions above), and the record `refLog` of the reference-count calls
made so far. -/
structure ReplayIteratorImpl where
  user_comparator_ : Comparator
  start_at_ : SequenceNumber
  valid_ : Bool
  status_ : Status
  has_current_user_key_ : Bool
  current_user_key_ : Slice
  rs_ : ReplayState
  mems_ : List ReplayState
  refLog : List RefEvent

/-- The effect of `m->Ref()` on a possibly-null `m` (a null `m` is a fault at
the call sites that dereference unconditionally). -/
def refEvents (m : Option MemTable) : List RefEvent :=
  match m with
  | some b => [RefEvent.Ref b.id]
  | none => []

/-- The effect of `if (m) m->Unref()`. -/
def unrefEvents (m : Option MemTable) : List RefEvent :=
  match m with
  | some b => [RefEvent.Unref b.id]
  | none => []

namespace ReplayIteratorImpl

/-- The constructor `ReplayIteratorImpl(db, mutex, cmp, iter, m, s)`. -/
def new (cmp : Comparator) (iter : Option Iterator) (m : Option MemTable)
    (s : SequenceNumber) : Except Fault ReplayIteratorImpl :=
  match m with
  | none => .error Fault.nullMemTable
  | some b =>
    .ok { user_comparator_ := cmp
          start_at_ := s
          valid_ := false
          status_ := Status.OK
          has_current_user_key_ := false
          current_user_key_ := []
          rs_ := ReplayState.ofIterator iter s kMaxSequenceNumber
          mems_ := [ReplayState.ofMemTable (some b) s]
          refLog := [RefEvent.Ref b.id] }

/-- `ParseKey(const Slice& k, ParsedInternalKey* ikey)`: the parsed key, or
`none` with the Corruption recorded in `status_`. -/
def ParseKey (st : ReplayIteratorImpl) (k : InternalKey) :
    Option ParsedInternalKey × ReplayIteratorImpl :=
  match ParseInternalKey k with
  | none =>
    (none, { st with status_ := Status.Corruption "corrupted internal key in ReplayIteratorImpl" })
  | some ikey => (some ikey, st)

/-- The inner `while (rs_.iter_->Valid())` loop of `Prime`, run on the raw
iterator `it` (the target of `rs_.iter_`).  The result is the updated members,
the raw iterator, and whether `Prime` returned from inside the loop.  The first
argument bounds the number of rounds; `it.entries.length - it.pos` rounds
always suffice. -/
def scanLoop : Nat → ReplayIteratorImpl → Iterator → ReplayIteratorImpl × Iterator × Bool
  | 0, st, it => (st, it, false)
  | n + 1, st, it =>
    match it.current with
    | none => (st, it, false)
    | some e =>
      match ParseKey st e.key with
      | (none, st1) => (st1, it, true)
      | (some ikey, st1) =>
        if !st1.has_current_user_key_ ||
            st1.user_comparator_ ikey.user_key st1.current_user_key_ != 0 then
          let st2 := { st1 with current_user_key_ := ikey.user_key,
                                has_current_user_key_ := true }
          if decide (ikey.sequence ≥ st2.rs_.seq_start_) &&
              decide (ikey.sequence < st2.rs_.seq_limit_) &&
              (ikey.type == kTypeDeletion || ikey.type == kTypeValue) then
            ({ st2 with valid_ := true }, it, true)
          else
            scanLoop n st2 it.Next
        else
          scanLoop n st1 it.Next

/-- The block of `Prime` under `MutexLock l(mutex_)`: collapse the gap, or
release the current buffer and adopt the head of the queue. -/
def switchStage (st : ReplayIteratorImpl) : ReplayIteratorImpl :=
  match st.mems_ with
  | [] => { st with rs_ := { st.rs_ with seq_start_ := st.rs_.seq_limit_ } }
  | front :: rest =>
    if st.rs_.seq_start_ < front.seq_start_ then
      { st with rs_ := { st.rs_ with seq_start_ := st.rs_.seq_limit_ } }
    else
      { st with
        refLog := st.refLog ++ unrefEvents st.rs_.mem_
        rs_ := { st.rs_ with mem_ := front.mem_, seq_start_ := front.seq_start_ }
        mems_ := rest }

/-- The part of `Prime` from "we're done with rs_.iter_" to
`rs_.seq_limit_ = db_->LastSequence()`: forget the last-seen key, delete the
raw iterator, switch stage under the mutex, and take `last`, the value read
from the host, as the new limit. -/
def endStage (last : SequenceNumber) (st : ReplayIteratorImpl) : ReplayIteratorImpl :=
  let st2 := switchStage
    { st with has_current_user_key_ := false, rs_ := { st.rs_ with iter_ := none } }
  { st2 with rs_ := { st2.rs_ with seq_limit_ := last } }

/-- The `while (true)` loop of `Prime`.  `db` lists the values the successive
calls of `db_->LastSequence()` return. -/
def primeLoop : List SequenceNumber → ReplayIteratorImpl → Except Fault ReplayIteratorImpl
  | db, st =>
    match st.rs_.iter_ with
    | none => .error Fault.nullIterator
    | some it =>
      match scanLoop (it.entries.length - it.pos) st it with
      | (st1, it1, true) => .ok { st1 with rs_ := { st1.rs_ with iter_ := some it1 } }
      | (st1, it1, false) =>
        if !it1.status.ok then
          .ok { st1 with status_ := it1.status, valid_ := false,
                         rs_ := { st1.rs_ with iter_ := some it1 } }
        else
          match db with
          | [] => .error Fault.noMoreReadings
          | last :: db' =>
            let st3 := endStage last st1
            match st3.rs_.mem_ with
            | none => .error Fault.nullMemTable
            | some m =>
              let it2 := m.NewIterator.SeekToFirst
              if st3.rs_.seq_start_ ≥ st3.rs_.seq_limit_ then
                .ok { st3 with valid_ := false,
                               rs_ := { st3.rs_ with iter_ := some it2.SeekToLast } }
              else
                primeLoop db' { st3 with rs_ := { st3.rs_ with iter_ := some it2 } }

/-- `ReplayIteratorImpl::Prime()`. -/
def Prime (db : List SequenceNumber) (st : ReplayIteratorImpl) :
    Except Fault ReplayIteratorImpl :=
  let st0 := { st with valid_ := false }
  if !st0.status_.ok then .ok st0 else primeLoop db st0

/-- `ReplayIteratorImpl::Valid()`: the answer and the state left behind. -/
def Valid (db : List SequenceNumber) (st : ReplayIteratorImpl) :
    Except Fault (Bool × ReplayIteratorImpl) :=
  match Prime db st with
  | .error f => .error f
  | .ok st1 => .ok (st1.valid_, st1)

/-- `ReplayIteratorImpl::Next()`. -/
def Next (db : List SequenceNumber) (st : ReplayIteratorImpl) :
    Except Fault ReplayIteratorImpl :=
  match st.rs_.iter_ with
  | none => .error Fault.nullIterator
  | some it =>
    if it.Valid then
      Prime db { st with rs_ := { st.rs_ with iter_ := some it.Next } }
    else .error Fault.rawNotValid

/-- `ReplayIteratorImpl::HasValue()`: the answer and the state left behind
(`ParseKey` records a Corruption when the key under the cursor does not
parse). -/
def HasValue (st : ReplayIteratorImpl) : Except Fault (Bool × ReplayIteratorImpl) :=
  match st.rs_.iter_ with
  | none => .error Fault.nullIterator
  | some it =>
    match it.current with
    | none => .error Fault.rawNotValid
    | some e =>
      match ParseKey st e.key with
      | (none, st1) => .ok (false, st1)
      | (some ikey, st1) => .ok (ikey.type == kTypeValue, st1)

/-- `ReplayIteratorImpl::key()`. -/
def key (st : ReplayIteratorImpl) : Except Fault Slice :=
  if st.valid_ then
    match st.rs_.iter_ with
    | none => .error Fault.nullIterator
    | some it =>
      match it.current with
      | none => .error Fault.rawNotValid
      | some e => .ok (ExtractUserKey e.key)
  else .error Fault.assertValid

/-- `ReplayIteratorImpl::value()`. -/
def value (st : ReplayIteratorImpl) : Except Fault Slice :=
  if st.valid_ then
    match st.rs_.iter_ with
    | none => .error Fault.nullIterator
    | some it =>
      match it.current with
      | none => .error Fault.rawNotValid
      | some e => .ok e.value
  else .error Fault.assertValid

/-- `ReplayIteratorImpl::status()`. -/
def status (st : ReplayIteratorImpl) : Except Fault Status :=
  if !st.status_.ok then .ok st.status_
  else
    match st.rs_.iter_ with
    | none => .error Fault.nullIterator
    | some it => .ok it.status

/-- `ReplayIteratorImpl::enqueue(MemTable* m, SequenceNumber s)`. -/
def enqueue (m : Option MemTable) (s : SequenceNumber) (st : ReplayIteratorImpl) :
    Except Fault ReplayIteratorImpl :=
  match m with
  | none => .error Fault.nullMemTable
  | some b =>
    .ok { st with refLog := st.refLog ++ [RefEvent.Ref b.id]
                  mems_ := st.mems_ ++ [ReplayState.ofMemTable (some b) s] }

/-- `ReplayIteratorImpl::cleanup()`: the members as they stand when
`delete this` is reached. -/
def cleanup (st : ReplayIteratorImpl) : ReplayIteratorImpl :=
  { st with
    refLog := st.refLog ++ unrefEvents st.rs_.mem_ ++
      (st.mems_.map (fun r => unrefEvents r.mem_)).flatten
    rs_ := { st.rs_ with mem_ := none, iter_ := none }
    mems_ := [] }

end ReplayIteratorImpl

/-! ## Notions used to state the properties -/

/-- What the cursor `it` and window `rs` look like where the scan stops on a record. -/
def OnVisible (rs : ReplayState) (it : Iterator) : Prop :=
  ∃ e ikey, it.current = some e ∧ ParseInternalKey e.key = some ikey ∧
    (ikey.type = kTypeDeletion ∨ ikey.type = kTypeValue) ∧
    rs.seq_start_ ≤ ikey.sequence ∧ ikey.sequence < rs.seq_limit_

/-- The test of `Prime` that a parsed key opens a new user key. -/
def ReplayIteratorImpl.isNewKey (st : ReplayIteratorImpl) (ikey : ParsedInternalKey) : Bool :=
  !st.has_current_user_key_ || st.user_comparator_ ikey.user_key st.current_user_key_ != 0

/-- The test of `Prime` that a parsed key is in the window and of a known kind. -/
def ReplayState.shows (rs : ReplayState) (ikey : ParsedInternalKey) : Bool :=
  decide (ikey.sequence ≥ rs.seq_start_) && decide (ikey.sequence < rs.seq_limit_) &&
    (ikey.type == kTypeDeletion || ikey.type == kTypeValue)

/-- The members after `Prime` has taken a parsed key as the last-seen user key. -/
def ReplayIteratorImpl.sees (st : ReplayIteratorImpl) (ikey : ParsedInternalKey) :
    ReplayIteratorImpl :=
  { st with current_user_key_ := ikey.user_key, has_current_user_key_ := true }

/-- The cursor is on a record that parses, is of kind Value or Deletion, and
lies in the current window. -/
def ReplayIteratorImpl.Positioned (st : ReplayIteratorImpl) : Prop :=
  ∃ it, st.rs_.iter_ = some it ∧ OnVisible st.rs_ it

/-- The full scan of the raw iterator `it`, as `primeLoop` runs it. -/
def ReplayIteratorImpl.scanAll (st : ReplayIteratorImpl) (it : Iterator) : ReplayIteratorImpl × Iterator × Bool :=
  ReplayIteratorImpl.scanLoop (it.entries.length - it.pos) st it

/-- The members with `rs_.iter_` pointing at `it`. -/
def ReplayIteratorImpl.withIter (st : ReplayIteratorImpl) (it : Iterator) : ReplayIteratorImpl :=
  { st with rs_ := { st.rs_ with iter_ := some it } }

/-! ## Data of the worked scenarios -/

/-- The bytewise comparator on user keys. -/
def BytewiseCompare : Comparator
  | [], [] => 0
  | [], _ :: _ => -1
  | _ :: _, [] => 1
  | a :: as, b :: bs =>
    if a < b then -1 else if b < a then 1 else BytewiseCompare as bs

/-- A record of kind Value. -/
def putRecord (k : Slice) (s : SequenceNumber) (v : Slice) : Entry :=
  { key := InternalKey.wellFormed { user_key := k, sequence := s, type := kTypeValue },
    value := v }

/-- A record of kind Deletion. -/
def delRecord (k : Slice) (s : SequenceNumber) : Entry :=
  { key := InternalKey.wellFormed { user_key := k, sequence := s, type := kTypeDeletion },
    value := [] }

/-- A raw iterator over no record at all. -/
def noRecords : Iterator := { entries := [], pos := 0, status_ := Status.OK }

/-- A buffer with one version of each of the user keys `"a"` and `"b"`. -/
def bufferAB : MemTable :=
  { id := 1, entries := [putRecord [97] 1 [1], putRecord [98] 2 [2]] }

/-- The iterator built by the constructor from `noRecords`, `bufferAB` and
`start_at = 0`. -/
def startAB : ReplayIteratorImpl :=
  { user_comparator_ := BytewiseCompare
    start_at_ := 0
    valid_ := false
    status_ := Status.OK
    has_current_user_key_ := false
    current_user_key_ := []
    rs_ := { mem_ := none, iter_ := some noRecords, seq_start_ := 0,
             seq_limit_ := kMaxSequenceNumber }
    mems_ := [{ mem_ := some bufferAB, iter_ := none, seq_start_ := 0, seq_limit_ := 0 }]
    refLog := [RefEvent.Ref 1] }

/-- The iterator `startAB` after a first `Valid()` under host max sequence 5:
on the record of `"a"`, window `[0, 5)`. -/
def onA : ReplayIteratorImpl :=
  { user_comparator_ := BytewiseCompare
    start_at_ := 0
    valid_ := true
    status_ := Status.OK
    has_current_user_key_ := true
    current_user_key_ := [97]
    rs_ := { mem_ := some bufferAB
             iter_ := some { entries := bufferAB.entries, pos := 0, status_ := Status.OK }
             seq_start_ := 0, seq_limit_ := 5 }
    mems_ := []
    refLog := [RefEvent.Ref 1] }

/-! ## Driving one stage -/

/-- The record under the cursor: what `key()` and `value()` read. -/
def ReplayIteratorImpl.cursor (st : ReplayIteratorImpl) : Option Entry :=
  match st.rs_.iter_ with
  | some it => it.current
  | none => none

/-- The records handed out by up to `n` calls of `Next()`, each made while the
iterator is valid.  No host reading is supplied, so that a call which has used
up the raw iterator of the stage ends the drive instead of switching stage, as
does a call that returns not valid. -/
def ReplayIteratorImpl.driveNext : Nat → ReplayIteratorImpl → List Entry
  | 0, _ => []
  | n + 1, st =>
    match ReplayIteratorImpl.Next [] st with
    | .ok st1 => if st1.valid_ then st1.cursor.toList ++ driveNext n st1 else []
    | .error _ => []

/-- The records handed out within one stage by an initial `Valid()` followed by
up to `n` calls of `Next()`. -/
def ReplayIteratorImpl.driveStage (n : Nat) (st : ReplayIteratorImpl) : List Entry :=
  match ReplayIteratorImpl.Valid [] st with
  | .ok (true, st1) => st1.cursor.toList ++ st1.driveNext n
  | _ => []

/-- The last-seen user key, if there is one. -/
def ReplayIteratorImpl.lastSeen (st : ReplayIteratorImpl) : Option Slice :=
  if st.has_current_user_key_ then some st.current_user_key_ else none

/-- The user key `k` differs from the last-seen user key `last`, or no key has
been seen yet. -/
def opensKey (cmp : Comparator) (last : Option Slice) (k : Slice) : Bool :=
  match last with
  | none => true
  | some c => cmp k c != 0

/-- First-seen-wins selection over a list of records, in the spec's words: a
record whose user key differs from the last-seen user key becomes the last-seen
one and is selected if it lies in the window with kind Value or Deletion; every
other record is skipped; a record that does not parse ends the selection. -/
def firstSeen (cmp : Comparator) (rs : ReplayState) : Option Slice → List Entry → List Entry
  | _, [] => []
  | last, e :: es =>
    match ParseInternalKey e.key with
    | none => []
    | some ikey =>
      if opensKey cmp last ikey.user_key then
        if rs.shows ikey then e :: firstSeen cmp rs (some ikey.user_key) es
        else firstSeen cmp rs (some ikey.user_key) es
      else firstSeen cmp rs last es

/-- The record parses and has user key `k`. -/
def Entry.hasUserKey (k : Slice) (e : Entry) : Bool :=
  match ParseInternalKey e.key with
  | some ikey => ikey.user_key == k
  | none => false

/-- The record parses, lies in the window of `rs` and is of kind Value or
Deletion. -/
def Entry.shownIn (rs : ReplayState) (e : Entry) : Bool :=
  match ParseInternalKey e.key with
  | some ikey => rs.shows ikey
  | none => false

/-- The order of composite keys: by user key for the comparator, then by
descending sequence number. -/
def InternalKeyOrder (cmp : Comparator) (e1 e2 : Entry) : Prop :=
  ∃ k1 k2, ParseInternalKey e1.key = some k1 ∧ ParseInternalKey e2.key = some k2 ∧
    (cmp k1.user_key k2.user_key < 0 ∨
      (cmp k1.user_key k2.user_key = 0 ∧ k2.sequence < k1.sequence))

/-- The sequence number of a record that parses (0 otherwise). -/
def Entry.sequence (e : Entry) : SequenceNumber :=
  match ParseInternalKey e.key with
  | some ikey => ikey.sequence
  | none => 0

/-- A buffer with two versions of the user key `"k"`, written at sequence 5
and at sequence 3. -/
def bufferK : MemTable :=
  { id := 2, entries := [putRecord [107] 5 [120], putRecord [107] 3 [121]] }

/-- The iterator built by the constructor from `noRecords`, `bufferK` and
`start_at = 0`. -/
def startK : ReplayIteratorImpl :=
  { user_comparator_ := BytewiseCompare
    start_at_ := 0
    valid_ := false
    status_ := Status.OK
    has_current_user_key_ := false
    current_user_key_ := []
    rs_ := { mem_ := none, iter_ := some noRecords, seq_start_ := 0,
             seq_limit_ := kMaxSequenceNumber }
    mems_ := [{ mem_ := some bufferK, iter_ := none, seq_start_ := 0, seq_limit_ := 0 }]
    refLog := [RefEvent.Ref 2] }

/-- The iterator `startK` at the head of the stage of `bufferK`, adopted under
host max sequence 5: window `[0, 5)`, cursor on the first record. -/
def stageK : ReplayIteratorImpl :=
  { user_comparator_ := BytewiseCompare
    start_at_ := 0
    valid_ := false
    status_ := Status.OK
    has_current_user_key_ := false
    current_user_key_ := []
    rs_ := { mem_ := some bufferK
             iter_ := some { entries := bufferK.entries, pos := 0, status_ := Status.OK }
             seq_start_ := 0, seq_limit_ := 5 }
    mems_ := []
    refLog := [RefEvent.Ref 2] }

/-- A buffer with two versions of the user key `"b"`: `(b, 4, Value, "x")` and
`(b, 2, Value, "y")`. -/
def bufferB : MemTable :=
  { id := 3, entries := [putRecord [98] 4 [120], putRecord [98] 2 [121]] }

/-- An iterator at the head of the stage of `bufferB`, window `[0, 5)`. -/
def stageB : ReplayIteratorImpl :=
  { user_comparator_ := BytewiseCompare
    start_at_ := 0
    valid_ := false
    status_ := Status.OK
    has_current_user_key_ := false
    current_user_key_ := []
    rs_ := { mem_ := some bufferB
             iter_ := some { entries := bufferB.entries, pos := 0, status_ := Status.OK }
             seq_start_ := 0, seq_limit_ := 5 }
    mems_ := []
    refLog := [RefEvent.Ref 3] }

/-! ## Windows and stage transitions -/

/-- The test of `Prime` under the mutex: the pending queue is empty, or its
head starts strictly after the current window's start (the gap-collapse branch
is taken; otherwise the head of the queue is adopted). -/
def ReplayIteratorImpl.seesGap (st : ReplayIteratorImpl) : Bool :=
  match st.mems_ with
  | [] => true
  | front :: _ => decide (st.rs_.seq_start_ < front.seq_start_)

/-- The start of the head of the pending queue (0 when the queue is empty). -/
def ReplayIteratorImpl.frontStart (st : ReplayIteratorImpl) : SequenceNumber :=
  match st.mems_ with
  | [] => 0
  | front :: _ => front.seq_start_

/-- A buffer with one version of the user key `"c"`, written at sequence 4. -/
def bufferC : MemTable :=
  { id := 4, entries := [putRecord [99] 4 [7]] }

/-- The iterator built by the constructor from `noRecords`, `bufferAB` and
`start_at = 10`. -/
def startLate : ReplayIteratorImpl :=
  { user_comparator_ := BytewiseCompare
    start_at_ := 10
    valid_ := false
    status_ := Status.OK
    has_current_user_key_ := false
    current_user_key_ := []
    rs_ := { mem_ := none, iter_ := some noRecords, seq_start_ := 10,
             seq_limit_ := kMaxSequenceNumber }
    mems_ := [{ mem_ := some bufferAB, iter_ := none, seq_start_ := 10, seq_limit_ := 0 }]
    refLog := [RefEvent.Ref 1] }

/-- The iterator `onA` after two calls of `Next()` under host max sequence 5:
the buffer `bufferAB` is used up, the window is collapsed to `[5, 5)`, the raw
iterator is parked on the last record. -/
def caughtUpAB : ReplayIteratorImpl :=
  { user_comparator_ := BytewiseCompare
    start_at_ := 0
    valid_ := false
    status_ := Status.OK
    has_current_user_key_ := false
    current_user_key_ := [98]
    rs_ := { mem_ := some bufferAB
             iter_ := some { entries := bufferAB.entries, pos := 1, status_ := Status.OK }
             seq_start_ := 5, seq_limit_ := 5 }
    mems_ := []
    refLog := [RefEvent.Ref 1] }

/-- The iterator `onA` after a call of `Next()`: on the record of `"b"`. -/
def onB : ReplayIteratorImpl :=
  { onA with
    current_user_key_ := [98]
    rs_ := { onA.rs_ with
             iter_ := some { entries := bufferAB.entries, pos := 1, status_ := Status.OK } } }

/-- The iterator `caughtUpAB` after `enqueue(bufferC, 3)`. -/
def queuedC : ReplayIteratorImpl :=
  { caughtUpAB with
    mems_ := [{ mem_ := some bufferC, iter_ := none, seq_start_ := 3, seq_limit_ := 0 }]
    refLog := [RefEvent.Ref 1, RefEvent.Ref 4] }

/-- The iterator `queuedC` after a `Valid()` under host max sequence 7:
`bufferC` is adopted with the window `[3, 7)`, the cursor is on its record. -/
def onC : ReplayIteratorImpl :=
  { user_comparator_ := BytewiseCompare
    start_at_ := 0
    valid_ := true
    status_ := Status.OK
    has_current_user_key_ := true
    current_user_key_ := [99]
    rs_ := { mem_ := some bufferC
             iter_ := some { entries := bufferC.entries, pos := 0, status_ := Status.OK }
             seq_start_ := 3, seq_limit_ := 7 }
    mems_ := []
    refLog := [RefEvent.Ref 1, RefEvent.Ref 4, RefEvent.Unref 1] }

/-- The iterator `startLate` after a first `Valid()` under host max sequence 5:
`bufferAB` is adopted with the window `[10, 5)`, the raw iterator is parked. -/
def lateParked : ReplayIteratorImpl :=
  { startLate with
    rs_ := { mem_ := some bufferAB
             iter_ := some { entries := bufferAB.entries, pos := 1, status_ := Status.OK }
             seq_start_ := 10, seq_limit_ := 5 }
    mems_ := [] }

/-- The iterator `lateParked` after a second `Valid()` under host max sequence
5: the window is collapsed to `[5, 5)`. -/
def lateCollapsed : ReplayIteratorImpl :=
  { lateParked with
    current_user_key_ := [98]
    rs_ := { lateParked.rs_ with seq_start_ := 5 } }

/-! ## Runs of calls -/

/-- A call made on the iterator: `Valid()` and `Next()` by the consumer, each
with the values the host returns for `db_->LastSequence()` during the call, and
`enqueue(m, s)` by a producer. -/
inductive Call where
  | Valid (db : List SequenceNumber)
  | Next (db : List SequenceNumber)
  | enqueue (m : Option MemTable) (s : SequenceNumber)
deriving DecidableEq, Repr

/-- The state a call leaves behind. -/
def ReplayIteratorImpl.call (c : Call) (st : ReplayIteratorImpl) :
    Except Fault ReplayIteratorImpl :=
  match c with
  | Call.Valid db =>
    match ReplayIteratorImpl.Valid db st with
    | .ok (_, st1) => .ok st1
    | .error f => .error f
  | Call.Next db => ReplayIteratorImpl.Next db st
  | Call.enqueue m s => ReplayIteratorImpl.enqueue m s st

/-- The state a sequence of calls leaves behind. -/
def ReplayIteratorImpl.calls : List Call → ReplayIteratorImpl → Except Fault ReplayIteratorImpl
  | [], st => .ok st
  | c :: cs, st =>
    match st.call c with
    | .ok st1 => calls cs st1
    | .error f => .error f

/-- The number of `Ref()` calls recorded for the buffer `id`. -/
def refCalls (id : Nat) (log : List RefEvent) : Nat := log.count (RefEvent.Ref id)

/-- The number of `Unref()` calls recorded for the buffer `id`. -/
def unrefCalls (id : Nat) (log : List RefEvent) : Nat := log.count (RefEvent.Unref id)

/-- 1 if the stage holds the buffer `id`, 0 otherwise. -/
def ReplayState.holds (id : Nat) (r : ReplayState) : Nat :=
  match r.mem_ with
  | some b => if b.id = id then 1 else 0
  | none => 0

/-- The number of occurrences of the buffer `id` as the current stage's buffer
and in the pending queue. -/
def ReplayIteratorImpl.held (id : Nat) (st : ReplayIteratorImpl) : Nat :=
  st.rs_.holds id + (st.mems_.map (ReplayState.holds id)).sum

/-- A buffer whose only record has a composite key that does not parse. -/
def bufferBad : MemTable :=
  { id := 5, entries := [{ key := InternalKey.malformed [1, 2, 3], value := [] }] }

/-- The iterator built by the constructor from `noRecords`, `bufferBad` and
`start_at = 0`. -/
def startBad : ReplayIteratorImpl :=
  { user_comparator_ := BytewiseCompare
    start_at_ := 0
    valid_ := false
    status_ := Status.OK
    has_current_user_key_ := false
    current_user_key_ := []
    rs_ := { mem_ := none, iter_ := some noRecords, seq_start_ := 0,
             seq_limit_ := kMaxSequenceNumber }
    mems_ := [{ mem_ := some bufferBad, iter_ := none, seq_start_ := 0, seq_limit_ := 0 }]
    refLog := [RefEvent.Ref 5] }

/-- The iterator `startBad` after a first `Valid()` under host max sequence 5:
failed on the malformed record of `bufferBad`. -/
def failedBad : ReplayIteratorImpl :=
  { user_comparator_ := BytewiseCompare
    start_at_ := 0
    valid_ := false
    status_ := Status.Corruption "corrupted internal key in ReplayIteratorImpl"
    has_current_user_key_ := false
    current_user_key_ := []
    rs_ := { mem_ := some bufferBad
             iter_ := some { entries := bufferBad.entries, pos := 0, status_ := Status.OK }
             seq_start_ := 0, seq_limit_ := 5 }
    mems_ := []
    refLog := [RefEvent.Ref 5] }

/-- The iterator `failedBad` with the raw cursor moved off its only record. -/
def failedBadOff : ReplayIteratorImpl :=
  { failedBad with
    rs_ := { failedBad.rs_ with
             iter_ := some { entries := bufferBad.entries, pos := 1, status_ := Status.OK } } }

/-- The reference balance: the `Ref()` calls made on each buffer are its
`Unref()` calls plus the references the iterator still holds on it. -/
def ReplayIteratorImpl.Balanced (st : ReplayIteratorImpl) : Prop :=
  ∀ id, refCalls id st.refLog = unrefCalls id st.refLog + st.held id

/-- Every record of the buffer has a composite key that parses. -/
def MemTable.parses (m : MemTable) : Prop :=
  ∀ x ∈ m.entries, ParseInternalKey x.key ≠ none

/-- Every record of the current buffer and of the buffers in the pending queue
has a composite key that parses. -/
def ReplayIteratorImpl.buffersParse (st : ReplayIteratorImpl) : Prop :=
  (∀ m, st.rs_.mem_ = some m → m.parses) ∧
  ∀ r ∈ st.mems_, ∀ m, r.mem_ = some m → m.parses

/-- A buffer with a record of `"a"` at sequence 9 followed by a record whose
composite key does not parse. -/
def bufferHiddenBad : MemTable :=
  { id := 8, entries := [putRecord [97] 9 [1],
                         { key := InternalKey.malformed [1, 2, 3], value := [] }] }

/-- An iterator at the head of a stage over the records of `bufferHiddenBad`,
window `[0, 5)`, whose raw iterator reports an error of its own. -/
def stageHiddenBad : ReplayIteratorImpl :=
  { user_comparator_ := BytewiseCompare
    start_at_ := 0
    valid_ := false
    status_ := Status.OK
    has_current_user_key_ := false
    current_user_key_ := []
    rs_ := { mem_ := some bufferHiddenBad
             iter_ := some { entries := bufferHiddenBad.entries, pos := 0,
                             status_ := Status.IOError "read failed" }
             seq_start_ := 0, seq_limit_ := 5 }
    mems_ := []
    refLog := [RefEvent.Ref 8] }

/-- A buffer without records. -/
def bufferEmpty : MemTable := { id := 6, entries := [] }

/-- The iterator built by the constructor from `noRecords`, `bufferEmpty` and
`start_at = 0`. -/
def startEmpty : ReplayIteratorImpl :=
  { user_comparator_ := BytewiseCompare
    start_at_ := 0
    valid_ := false
    status_ := Status.OK
    has_current_user_key_ := false
    current_user_key_ := []
    rs_ := { mem_ := none, iter_ := some noRecords, seq_start_ := 0,
             seq_limit_ := kMaxSequenceNumber }
    mems_ := [{ mem_ := some bufferEmpty, iter_ := none, seq_start_ := 0, seq_limit_ := 0 }]
    refLog := [RefEvent.Ref 6] }

/-- The iterator `startEmpty` after a first `Valid()` under host max sequence
5: caught up, window `[5, 5)`, the raw iterator parked over no record. -/
def parkedEmpty : ReplayIteratorImpl :=
  { startEmpty with
    rs_ := { mem_ := some bufferEmpty
             iter_ := some { entries := [], pos := 0, status_ := Status.OK }
             seq_start_ := 5, seq_limit_ := 5 }
    mems_ := [] }

/-- The buffer B1 of the spec's first scenario: `(a, 3, Deletion)` then
`(a, 1, Value, "v1")`. -/
def bufferA1 : MemTable :=
  { id := 7, entries := [delRecord [97] 3, putRecord [97] 1 [118, 49]] }

/-- The iterator built by the constructor from `noRecords`, `bufferA1` and
`start_at = 0`. -/
def startA1 : ReplayIteratorImpl :=
  { user_comparator_ := BytewiseCompare
    start_at_ := 0
    valid_ := false
    status_ := Status.OK
    has_current_user_key_ := false
    current_user_key_ := []
    rs_ := { mem_ := none, iter_ := some noRecords, seq_start_ := 0,
             seq_limit_ := kMaxSequenceNumber }
    mems_ := [{ mem_ := some bufferA1, iter_ := none, seq_start_ := 0, seq_limit_ := 0 }]
    refLog := [RefEvent.Ref 7] }

/-- The iterator `startA1` after a first `Valid()` under host max sequence 5:
on the deletion of `"a"`, window `[0, 5)`. -/
def onDeletedA : ReplayIteratorImpl :=
  { user_comparator_ := BytewiseCompare
    start_at_ := 0
    valid_ := true
    status_ := Status.OK
    has_current_user_key_ := true
    current_user_key_ := [97]
    rs_ := { mem_ := some bufferA1
             iter_ := some { entries := bufferA1.entries, pos := 0, status_ := Status.OK }
             seq_start_ := 0, seq_limit_ := 5 }
    mems_ := []
    refLog := [RefEvent.Ref 7] }

/-- The iterator `onDeletedA` after a `Next()` under host max sequence 5:
caught up, window `[5, 5)`, the raw iterator parked on the last record. -/
def caughtUpA1 : ReplayIteratorImpl :=
  { onDeletedA with
    valid_ := false
    has_current_user_key_ := false
    rs_ := { onDeletedA.rs_ with
             iter_ := some { entries := bufferA1.entries, pos := 1, status_ := Status.OK }
             seq_start_ := 5, seq_limit_ := 5 } }

/-- The caught-up iterator `caughtUpA1` with its raw iterator run off the last
record and a buffer B2 (`bufferC`) pending with start 5: the state in which
`Prime` reaches the stage transition of the spec's second scenario. -/
def exhaustedA1 : ReplayIteratorImpl :=
  { caughtUpA1 with
    rs_ := { caughtUpA1.rs_ with
             iter_ := some { entries := bufferA1.entries, pos := 2, status_ := Status.OK } }
    mems_ := [{ mem_ := some bufferC, iter_ := none, seq_start_ := 5, seq_limit_ := 0 }]
    refLog := [RefEvent.Ref 7, RefEvent.Ref 4] }

/-! ## Counting stage transitions -/

/-- The number of stage transitions the `while (true)` loop of `Prime` goes
through: the loop of `primeLoop`, counting one for each passage through
`endStage`. -/
def ReplayIteratorImpl.primeLoopTransitions : List SequenceNumber → ReplayIteratorImpl → Nat
  | db, st =>
    match st.rs_.iter_ with
    | none => 0
    | some it =>
      match ReplayIteratorImpl.scanLoop (it.entries.length - it.pos) st it with
      | (_, _, true) => 0
      | (st1, it1, false) =>
        if !it1.status.ok then 0
        else
          match db with
          | [] => 0
          | last :: db' =>
            let st3 := ReplayIteratorImpl.endStage last st1
            match st3.rs_.mem_ with
            | none => 1
            | some m =>
              let it2 := m.NewIterator.SeekToFirst
              if st3.rs_.seq_start_ ≥ st3.rs_.seq_limit_ then 1
              else
                1 + primeLoopTransitions db'
                  { st3 with rs_ := { st3.rs_ with iter_ := some it2 } }

/-- The number of stage transitions one call of `Prime` goes through. -/
def ReplayIteratorImpl.transitions (db : List SequenceNumber) (st : ReplayIteratorImpl) : Nat :=
  if !st.status_.ok then 0
  else ReplayIteratorImpl.primeLoopTransitions db { st with valid_ := false }

/-- The iterator `startAB` after a first `Valid()` under host max sequence 3:
on the record of `"a"`, window `[0, 3)`. -/
def onA3 : ReplayIteratorImpl :=
  { onA with rs_ := { onA.rs_ with seq_limit_ := 3 } }

/-- The iterator `onA3` after a `Next()`: on the record of `"b"`. -/
def onB3 : ReplayIteratorImpl :=
  { onB with rs_ := { onB.rs_ with seq_limit_ := 3 } }

/-- The iterator `onB3` after `enqueue(bufferEmpty, 2)`. -/
def onB3Queued : ReplayIteratorImpl :=
  { onB3 with
    mems_ := [{ mem_ := some bufferEmpty, iter_ := none, seq_start_ := 2, seq_limit_ := 0 }]
    refLog := [RefEvent.Ref 1, RefEvent.Ref 6] }

/-- The iterator `onB3Queued` with its raw iterator moved off the last record,
as `Next()` hands it to `Prime`. -/
def offB3Queued : ReplayIteratorImpl :=
  { onB3Queued with
    rs_ := { onB3Queued.rs_ with
             iter_ := some { entries := bufferAB.entries, pos := 2, status_ := Status.OK } } }

/-- The iterator `onB3Queued` after a `Next()` under host max sequence 5:
caught up over `bufferEmpty`, window `[5, 5)`. -/
def caughtUpEmpty : ReplayIteratorImpl :=
  { user_comparator_ := BytewiseCompare
    start_at_ := 0
    valid_ := false
    status_ := Status.OK
    has_current_user_key_ := false
    current_user_key_ := [98]
    rs_ := { mem_ := some bufferEmpty
             iter_ := some { entries := [], pos := 0, status_ := Status.OK }
             seq_start_ := 5, seq_limit_ := 5 }
    mems_ := []
    refLog := [RefEvent.Ref 1, RefEvent.Ref 6, RefEvent.Unref 1] }

/-- The buffers are where `Prime` will look for them: no stage of the pending
queue has a null buffer, and either the current stage has a buffer, or the
iterator is still in its initial stage, with the start `s` it was built with
and the constructor's buffer `m`, queued with that same start, at the head of
the queue. -/
def ReplayIteratorImpl.BuffersAtHand (m : MemTable) (s : SequenceNumber)
    (st : ReplayIteratorImpl) : Prop :=
  (∀ r ∈ st.mems_, r.mem_ ≠ none) ∧
  (st.rs_.mem_ ≠ none ∨
    (st.rs_.seq_start_ = s ∧ ∃ rest, st.mems_ = ReplayState.ofMemTable (some m) s :: rest))

/-! ## The records a stage is to hand out -/

/-- The record parses and is the first record of its user key in `recs`. -/
def firstOfItsKey (recs : List Entry) (e : Entry) : Bool :=
  match ParseInternalKey e.key with
  | some ikey => recs.find? (Entry.hasUserKey ikey.user_key) == some e
  | none => false

/-- The first record of each distinct user key of `recs` whose sequence number
lies in the window of `rs` (and whose kind is Value or Deletion), in the order
of `recs`. -/
def firstRecordsInWindow (rs : ReplayState) (recs : List Entry) : List Entry :=
  recs.filter (fun e => firstOfItsKey recs e && e.shownIn rs)

/-- A buffer with two versions of `"a"`, one of `"k"` and two of `"z"`, in the
order of composite keys. -/
def bufferAKZ : MemTable :=
  { id := 9, entries := [putRecord [97] 5 [1], putRecord [97] 3 [2], putRecord [107] 4 [3],
                         delRecord [122] 2, putRecord [122] 1 [4]] }

/-- An iterator at the head of the stage of `bufferAKZ`, window `[0, 5)`. -/
def stageAKZ : ReplayIteratorImpl :=
  { user_comparator_ := BytewiseCompare
    start_at_ := 0
    valid_ := false
    status_ := Status.OK
    has_current_user_key_ := false
    current_user_key_ := []
    rs_ := { mem_ := some bufferAKZ
             iter_ := some { entries := bufferAKZ.entries, pos := 0, status_ := Status.OK }
             seq_start_ := 0, seq_limit_ := 5 }
    mems_ := []
    refLog := [RefEvent.Ref 9] }

/-- The order of composite keys, as a test. -/
def internalKeyOrdered (cmp : Comparator) (e1 e2 : Entry) : Bool :=
  match ParseInternalKey e1.key, ParseInternalKey e2.key with
  | some k1, some k2 =>
    decide (cmp k1.user_key k2.user_key < 0) ||
      (cmp k1.user_key k2.user_key == 0 && decide (k2.sequence < k1.sequence))
  | _, _ => false

/-- The records handed out within one stage by a sequence of calls, `true`
standing for `Next()` and `false` for `Valid()`: the record under the cursor
after each call that returns valid. The calls are made with no host reading at
hand, so that the drive ends with the call that would leave the stage. -/
def ReplayIteratorImpl.driveMixed : List Bool → ReplayIteratorImpl → List Entry
  | [], _ => []
  | next :: ops, st =>
    match (if next then ReplayIteratorImpl.Next [] st
           else ReplayIteratorImpl.Prime [] st) with
    | .ok st1 => (if st1.valid_ then st1.cursor.toList else []) ++ driveMixed ops st1
    | .error _ => []

/-- A freshly constructed iterator whose initial raw iterator holds the two
versions of `"b"` and stands on the first; the constructor's buffer is
`bufferEmpty`, and `start_at` is 0. -/
def freshB : ReplayIteratorImpl :=
  { user_comparator_ := BytewiseCompare
    start_at_ := 0
    valid_ := false
    status_ := Status.OK
    has_current_user_key_ := false
    current_user_key_ := []
    rs_ := { mem_ := none
             iter_ := some { entries := bufferB.entries, pos := 0, status_ := Status.OK }
             seq_start_ := 0, seq_limit_ := kMaxSequenceNumber }
    mems_ := [ReplayState.ofMemTable (some bufferEmpty) 0]
    refLog := [RefEvent.Ref 6] }

/-- The state `freshB` after a first call `Next()`: valid, on `(b, 2, "y")`. -/
def freshBNext : ReplayIteratorImpl :=
  { user_comparator_ := BytewiseCompare
    start_at_ := 0
    valid_ := true
    status_ := Status.OK
    has_current_user_key_ := true
    current_user_key_ := [98]
    rs_ := { mem_ := none
             iter_ := some { entries := bufferB.entries, pos := 1, status_ := Status.OK }
             seq_start_ := 0, seq_limit_ := kMaxSequenceNumber }
    mems_ := [ReplayState.ofMemTable (some bufferEmpty) 0]
    refLog := [RefEvent.Ref 6] }

/-- The cursor is on a record that parses and whose user key is the last-seen
user key: where `Prime` leaves the iterator when it returns valid. -/
def ReplayIteratorImpl.OnLastSeen (st : ReplayIteratorImpl) (it : Iterator) : Prop :=
  st.rs_.iter_ = some it ∧
  ∃ e ikey, it.current = some e ∧ ParseInternalKey e.key = some ikey ∧
    st.lastSeen = some ikey.user_key

/-- 1 if the call is an `enqueue` of the buffer `id`, 0 otherwise. -/
def Call.enters (id : Nat) : Call → Nat
  | Call.enqueue (some b) _ => if b.id = id then 1 else 0
  | _ => 0

/-- The number of times the buffer `id` enters the iterator: as the buffer `m`
given to the constructor, and through the `enqueue` calls among `cs`. -/
def entered (id : Nat) (m : Option MemTable) (cs : List Call) : Nat :=
  (match m with
    | some b => if b.id = id then 1 else 0
    | none => 0) + (cs.map (Call.enters id)).sum

/-- A buffer with a record of `"a"` at sequence 1 followed by a record whose
composite key does not parse. -/
def bufferVisibleBad : MemTable :=
  { id := 10, entries := [putRecord [97] 1 [1],
                          { key := InternalKey.malformed [1, 2, 3], value := [] }] }

/-- An iterator at the head of the stage of `bufferVisibleBad`, window
`[0, 5)`. -/
def stageVisibleBad : ReplayIteratorImpl :=
  { user_comparator_ := BytewiseCompare
    start_at_ := 0
    valid_ := false
    status_ := Status.OK
    has_current_user_key_ := false
    current_user_key_ := []
    rs_ := { mem_ := some bufferVisibleBad
             iter_ := some { entries := bufferVisibleBad.entries, pos := 0, status_ := Status.OK }
             seq_start_ := 0, seq_limit_ := 5 }
    mems_ := []
    refLog := [RefEvent.Ref 10] }

/-- The number of `Next()` calls in a sequence of calls. -/
def nextCalls : List Call → Nat
  | [] => 0
  | Call.Next _ :: cs => nextCalls cs + 1
  | _ :: cs => nextCalls cs

/-- A raw iterator that has no record to give and reports a read error. -/
def brokenRecords : Iterator :=
  { entries := [], pos := 0, status_ := Status.IOError "read failed" }

/-- The iterator built by the constructor from `brokenRecords`, `bufferAB` and
`start_at = 0`. -/
def startBroken : ReplayIteratorImpl :=
  { user_comparator_ := BytewiseCompare
    start_at_ := 0
    valid_ := false
    status_ := Status.OK
    has_current_user_key_ := false
    current_user_key_ := []
    rs_ := { mem_ := none, iter_ := some brokenRecords, seq_start_ := 0,
             seq_limit_ := kMaxSequenceNumber }
    mems_ := [{ mem_ := some bufferAB, iter_ := none, seq_start_ := 0, seq_limit_ := 0 }]
    refLog := [RefEvent.Ref 1] }

/-- The iterator `startBroken` after a first `Valid()`: failed with the error
copied from the raw iterator. -/
def failedBroken : ReplayIteratorImpl :=
  { startBroken with status_ := Status.IOError "read failed" }

/-- The caught-up iterator `caughtUpA1`, window `[5, 5)`, with the buffer
`bufferC` pending with start 6, above the current start. -/
def aheadA1 : ReplayIteratorImpl :=
  { caughtUpA1 with
    mems_ := [{ mem_ := some bufferC, iter_ := none, seq_start_ := 6, seq_limit_ := 0 }]
    refLog := [RefEvent.Ref 7, RefEvent.Ref 4] }

/-! ## The scan loop -/

namespace ReplayIteratorImpl

theorem scanLoop_zero (st : ReplayIteratorImpl) (it : Iterator) :
    scanLoop 0 st it = (st, it, false) := rfl

theorem scanLoop_atEnd (n : Nat) (st : ReplayIteratorImpl) (it : Iterator)
    (he : it.current = none) : scanLoop n st it = (st, it, false) := by
  cases n with
  | zero => rfl
  | succ n => simp [scanLoop, he]

theorem scanLoop_corrupt (n : Nat) (st : ReplayIteratorImpl) (it : Iterator) (e : Entry)
    (he : it.current = some e) (hk : ParseInternalKey e.key = none) :
    scanLoop (n + 1) st it =
      ({ st with status_ := Status.Corruption "corrupted internal key in ReplayIteratorImpl" },
        it, true) := by
  simp [scanLoop, he, ParseKey, hk]

theorem scanLoop_emit (n : Nat) (st : ReplayIteratorImpl) (it : Iterator) (e : Entry)
    (ikey : ParsedInternalKey)
    (he : it.current = some e) (hk : ParseInternalKey e.key = some ikey)
    (hnew : st.isNewKey ikey = true) (hshow : st.rs_.shows ikey = true) :
    scanLoop (n + 1) st it = ({ st.sees ikey with valid_ := true }, it, true) := by
  unfold isNewKey at hnew
  unfold ReplayState.shows at hshow
  simp only [scanLoop, he, ParseKey, hk, hnew, hshow, if_true, sees]

theorem scanLoop_hide (n : Nat) (st : ReplayIteratorImpl) (it : Iterator) (e : Entry)
    (ikey : ParsedInternalKey)
    (he : it.current = some e) (hk : ParseInternalKey e.key = some ikey)
    (hnew : st.isNewKey ikey = true) (hshow : st.rs_.shows ikey = false) :
    scanLoop (n + 1) st it = scanLoop n (st.sees ikey) it.Next := by
  unfold isNewKey at hnew
  unfold ReplayState.shows at hshow
  simp only [scanLoop, he, ParseKey, hk, hnew, hshow, if_true, sees]
  simp

theorem scanLoop_shadow (n : Nat) (st : ReplayIteratorImpl) (it : Iterator) (e : Entry)
    (ikey : ParsedInternalKey)
    (he : it.current = some e) (hk : ParseInternalKey e.key = some ikey)
    (hnew : st.isNewKey ikey = false) :
    scanLoop (n + 1) st it = scanLoop n st it.Next := by
  unfold isNewKey at hnew
  simp only [scanLoop, he, ParseKey, hk, hnew]
  simp

/-- Case analysis of one round of the scan. -/
theorem scanLoop_cases (n : Nat) (st : ReplayIteratorImpl) (it : Iterator) :
    (it.current = none ∧ scanLoop (n + 1) st it = (st, it, false)) ∨
    (∃ e, it.current = some e ∧ ParseInternalKey e.key = none ∧
      scanLoop (n + 1) st it =
        ({ st with status_ := Status.Corruption "corrupted internal key in ReplayIteratorImpl" },
          it, true)) ∨
    (∃ e ikey, it.current = some e ∧ ParseInternalKey e.key = some ikey ∧
      st.isNewKey ikey = true ∧ st.rs_.shows ikey = true ∧
      scanLoop (n + 1) st it = ({ st.sees ikey with valid_ := true }, it, true)) ∨
    (∃ e ikey, it.current = some e ∧ ParseInternalKey e.key = some ikey ∧
      st.isNewKey ikey = true ∧ st.rs_.shows ikey = false ∧
      scanLoop (n + 1) st it = scanLoop n (st.sees ikey) it.Next) ∨
    (∃ e ikey, it.current = some e ∧ ParseInternalKey e.key = some ikey ∧
      st.isNewKey ikey = false ∧
      scanLoop (n + 1) st it = scanLoop n st it.Next) := by
  cases he : it.current with
  | none => exact Or.inl ⟨rfl, scanLoop_atEnd _ _ _ he⟩
  | some e =>
    cases hk : ParseInternalKey e.key with
    | none => exact Or.inr (Or.inl ⟨e, rfl, hk, scanLoop_corrupt _ _ _ _ he hk⟩)
    | some ikey =>
      cases hnew : st.isNewKey ikey with
      | false =>
        exact Or.inr (Or.inr (Or.inr (Or.inr ⟨e, ikey, rfl, hk, hnew,
          scanLoop_shadow _ _ _ _ _ he hk hnew⟩)))
      | true =>
        cases hshow : st.rs_.shows ikey with
        | false =>
          exact Or.inr (Or.inr (Or.inr (Or.inl ⟨e, ikey, rfl, hk, hnew, hshow,
            scanLoop_hide _ _ _ _ _ he hk hnew hshow⟩)))
        | true =>
          exact Or.inr (Or.inr (Or.inl ⟨e, ikey, rfl, hk, hnew, hshow,
            scanLoop_emit _ _ _ _ _ he hk hnew hshow⟩))

theorem shows_iff (rs : ReplayState) (ikey : ParsedInternalKey) :
    rs.shows ikey = true ↔
      (ikey.type = kTypeDeletion ∨ ikey.type = kTypeValue) ∧
      rs.seq_start_ ≤ ikey.sequence ∧ ikey.sequence < rs.seq_limit_ := by
  simp only [ReplayState.shows, Bool.and_eq_true, decide_eq_true_eq, Bool.or_eq_true,
    beq_iff_eq, ge_iff_le]
  tauto

/-- The scan touches only `valid_`, `status_` and the last-seen key, and only
moves the cursor forward. -/
theorem scanLoop_frame (n : Nat) (st : ReplayIteratorImpl) (it : Iterator) :
    (scanLoop n st it).1.rs_ = st.rs_ ∧ (scanLoop n st it).1.mems_ = st.mems_ ∧
    (scanLoop n st it).1.refLog = st.refLog ∧
    (scanLoop n st it).1.user_comparator_ = st.user_comparator_ ∧
    (scanLoop n st it).1.start_at_ = st.start_at_ ∧
    (scanLoop n st it).2.1.entries = it.entries ∧
    (scanLoop n st it).2.1.status_ = it.status_ ∧
    it.pos ≤ (scanLoop n st it).2.1.pos := by
  induction n generalizing st it with
  | zero => simp [scanLoop]
  | succ n ih =>
    rcases scanLoop_cases n st it with ⟨_, h⟩ | ⟨e, _, _, h⟩ | ⟨e, ikey, _, _, _, _, h⟩ |
      ⟨e, ikey, _, _, _, _, h⟩ | ⟨e, ikey, _, _, _, h⟩
    · simp [h]
    · simp [h]
    · simp [h, sees]
    · rw [h]
      have := ih (st.sees ikey) it.Next
      simp only [Iterator.Next, sees] at this ⊢
      refine ⟨this.1, this.2.1, this.2.2.1, this.2.2.2.1, this.2.2.2.2.1, this.2.2.2.2.2.1,
        this.2.2.2.2.2.2.1, ?_⟩
      have := this.2.2.2.2.2.2.2
      omega
    · rw [h]
      have := ih st it.Next
      simp only [Iterator.Next] at this ⊢
      refine ⟨this.1, this.2.1, this.2.2.1, this.2.2.2.1, this.2.2.2.2.1, this.2.2.2.2.2.1,
        this.2.2.2.2.2.2.1, ?_⟩
      have := this.2.2.2.2.2.2.2
      omega

/-- Where the scan makes `Prime` return: on a visible record with `valid_` set,
or on an unparsable one with the Corruption recorded and `valid_` as it was. -/
theorem scanLoop_returned (n : Nat) (st : ReplayIteratorImpl) (it : Iterator)
    (h : (scanLoop n st it).2.2 = true) :
    ((scanLoop n st it).1.valid_ = true ∧ (scanLoop n st it).1.status_ = st.status_ ∧
        OnVisible st.rs_ (scanLoop n st it).2.1) ∨
    ((scanLoop n st it).1.valid_ = st.valid_ ∧
      (scanLoop n st it).1.status_ =
        Status.Corruption "corrupted internal key in ReplayIteratorImpl" ∧
      ∃ e, (scanLoop n st it).2.1.current = some e ∧ ParseInternalKey e.key = none) := by
  induction n generalizing st it with
  | zero => simp [scanLoop] at h
  | succ n ih =>
    rcases scanLoop_cases n st it with ⟨_, h'⟩ | ⟨e, he, hk, h'⟩ | ⟨e, ikey, he, hk, _, hs, h'⟩ |
      ⟨e, ikey, _, _, _, _, h'⟩ | ⟨e, ikey, _, _, _, h'⟩
    · rw [h'] at h; simp at h
    · rw [h']
      exact Or.inr ⟨rfl, rfl, e, he, hk⟩
    · rw [h']
      have hs' := (shows_iff _ _).1 hs
      exact Or.inl ⟨rfl, rfl, e, ikey, he, hk, hs'.1, hs'.2.1, hs'.2.2⟩
    · rw [h'] at h ⊢
      exact ih _ _ h
    · rw [h'] at h ⊢
      exact ih _ _ h

/-- Where the scan falls out of the loop: nothing but the last-seen key has
changed, and the raw iterator has run off its records. -/
theorem scanLoop_fellThrough (n : Nat) (st : ReplayIteratorImpl) (it : Iterator)
    (h : (scanLoop n st it).2.2 = false) :
    (scanLoop n st it).1.valid_ = st.valid_ ∧ (scanLoop n st it).1.status_ = st.status_ ∧
    (it.entries.length - it.pos ≤ n → (scanLoop n st it).2.1.current = none) := by
  induction n generalizing st it with
  | zero =>
    simp only [scanLoop, true_and]
    intro hn
    simp only [Iterator.current]
    apply List.getElem?_eq_none
    omega
  | succ n ih =>
    rcases scanLoop_cases n st it with ⟨he, h'⟩ | ⟨e, he, hk, h'⟩ | ⟨e, ikey, he, hk, _, hs, h'⟩ |
      ⟨e, ikey, _, _, _, _, h'⟩ | ⟨e, ikey, _, _, _, h'⟩
    · rw [h']
      exact ⟨rfl, rfl, fun _ => he⟩
    · rw [h'] at h; simp at h
    · rw [h'] at h; simp at h
    · rw [h'] at h ⊢
      have := ih _ _ h
      refine ⟨this.1, this.2.1, fun hn => this.2.2 ?_⟩
      simp only [Iterator.Next]
      omega
    · rw [h'] at h ⊢
      have := ih _ _ h
      refine ⟨this.1, this.2.1, fun hn => this.2.2 ?_⟩
      simp only [Iterator.Next]
      omega

/-! ## The loop of `Prime` -/

theorem primeLoop_null (db : List SequenceNumber) (st : ReplayIteratorImpl)
    (hi : st.rs_.iter_ = none) : primeLoop db st = .error Fault.nullIterator := by
  cases db <;> simp [primeLoop, hi]

theorem primeLoop_returned (db : List SequenceNumber) (st : ReplayIteratorImpl) (it : Iterator)
    (hi : st.rs_.iter_ = some it) (hr : (scanAll st it).2.2 = true) :
    primeLoop db st = .ok ((scanAll st it).1.withIter (scanAll st it).2.1) := by
  unfold scanAll at hr ⊢
  rcases hs : scanLoop (it.entries.length - it.pos) st it with ⟨st1, it1, r⟩
  rw [hs] at hr
  simp only at hr
  subst hr
  cases db <;> simp [primeLoop, hi, hs, withIter]

theorem primeLoop_rawError (db : List SequenceNumber) (st : ReplayIteratorImpl) (it : Iterator)
    (hi : st.rs_.iter_ = some it) (hr : (scanAll st it).2.2 = false)
    (he : (scanAll st it).2.1.status.ok = false) :
    primeLoop db st =
      .ok { (scanAll st it).1.withIter (scanAll st it).2.1 with
            status_ := (scanAll st it).2.1.status, valid_ := false } := by
  unfold scanAll at hr he ⊢
  rcases hs : scanLoop (it.entries.length - it.pos) st it with ⟨st1, it1, r⟩
  rw [hs] at hr he
  simp only at hr he
  subst hr
  cases db <;> simp [primeLoop, hi, hs, withIter, he]

theorem primeLoop_noReading (st : ReplayIteratorImpl) (it : Iterator)
    (hi : st.rs_.iter_ = some it) (hr : (scanAll st it).2.2 = false)
    (he : (scanAll st it).2.1.status.ok = true) :
    primeLoop [] st = .error Fault.noMoreReadings := by
  unfold scanAll at hr he
  rcases hs : scanLoop (it.entries.length - it.pos) st it with ⟨st1, it1, r⟩
  rw [hs] at hr he
  simp only at hr he
  subst hr
  simp [primeLoop, hi, hs, he]

theorem primeLoop_nullMem (last : SequenceNumber) (db : List SequenceNumber)
    (st : ReplayIteratorImpl) (it : Iterator)
    (hi : st.rs_.iter_ = some it) (hr : (scanAll st it).2.2 = false)
    (he : (scanAll st it).2.1.status.ok = true)
    (hm : (endStage last (scanAll st it).1).rs_.mem_ = none) :
    primeLoop (last :: db) st = .error Fault.nullMemTable := by
  unfold scanAll at hr he hm
  rcases hs : scanLoop (it.entries.length - it.pos) st it with ⟨st1, it1, r⟩
  rw [hs] at hr he hm
  simp only at hr he hm
  subst hr
  simp [primeLoop, hi, hs, he, hm]

theorem primeLoop_parked (last : SequenceNumber) (db : List SequenceNumber)
    (st : ReplayIteratorImpl) (it : Iterator) (m : MemTable)
    (hi : st.rs_.iter_ = some it) (hr : (scanAll st it).2.2 = false)
    (he : (scanAll st it).2.1.status.ok = true)
    (hm : (endStage last (scanAll st it).1).rs_.mem_ = some m)
    (hw : (endStage last (scanAll st it).1).rs_.seq_limit_ ≤
      (endStage last (scanAll st it).1).rs_.seq_start_) :
    primeLoop (last :: db) st =
      .ok { (endStage last (scanAll st it).1).withIter m.NewIterator.SeekToFirst.SeekToLast with
            valid_ := false } := by
  unfold scanAll at hr he hm hw ⊢
  rcases hs : scanLoop (it.entries.length - it.pos) st it with ⟨st1, it1, r⟩
  rw [hs] at hr he hm hw
  simp only at hr he hm hw ⊢
  subst hr
  simp [primeLoop, hi, hs, he, hm, hw, withIter]

theorem primeLoop_again (last : SequenceNumber) (db : List SequenceNumber)
    (st : ReplayIteratorImpl) (it : Iterator) (m : MemTable)
    (hi : st.rs_.iter_ = some it) (hr : (scanAll st it).2.2 = false)
    (he : (scanAll st it).2.1.status.ok = true)
    (hm : (endStage last (scanAll st it).1).rs_.mem_ = some m)
    (hw : (endStage last (scanAll st it).1).rs_.seq_start_ <
      (endStage last (scanAll st it).1).rs_.seq_limit_) :
    primeLoop (last :: db) st =
      primeLoop db ((endStage last (scanAll st it).1).withIter m.NewIterator.SeekToFirst) := by
  unfold scanAll at hr he hm hw ⊢
  rcases hs : scanLoop (it.entries.length - it.pos) st it with ⟨st1, it1, r⟩
  rw [hs] at hr he hm hw
  simp only at hr he hm hw ⊢
  subst hr
  have hw' : ¬ (endStage last st1).rs_.seq_limit_ ≤ (endStage last st1).rs_.seq_start_ := Nat.not_le.mpr hw
  rw [primeLoop]
  simp [hi, hs, he, hm, hw', withIter]


/-- Case analysis of one round of the `while (true)` loop of `Prime`. -/
theorem primeLoop_cases (db : List SequenceNumber) (st : ReplayIteratorImpl) :
    (st.rs_.iter_ = none ∧ primeLoop db st = .error Fault.nullIterator) ∨
    (∃ it, st.rs_.iter_ = some it ∧ (scanAll st it).2.2 = true ∧
      primeLoop db st = .ok ((scanAll st it).1.withIter (scanAll st it).2.1)) ∨
    (∃ it, st.rs_.iter_ = some it ∧ (scanAll st it).2.2 = false ∧
      (scanAll st it).2.1.status.ok = false ∧
      primeLoop db st =
        .ok { (scanAll st it).1.withIter (scanAll st it).2.1 with
              status_ := (scanAll st it).2.1.status, valid_ := false }) ∨
    (∃ it, st.rs_.iter_ = some it ∧ (scanAll st it).2.2 = false ∧
      (scanAll st it).2.1.status.ok = true ∧ db = [] ∧
      primeLoop db st = .error Fault.noMoreReadings) ∨
    (∃ it last db', st.rs_.iter_ = some it ∧ (scanAll st it).2.2 = false ∧
      (scanAll st it).2.1.status.ok = true ∧ db = last :: db' ∧
      (endStage last (scanAll st it).1).rs_.mem_ = none ∧
      primeLoop db st = .error Fault.nullMemTable) ∨
    (∃ it last db' m, st.rs_.iter_ = some it ∧ (scanAll st it).2.2 = false ∧
      (scanAll st it).2.1.status.ok = true ∧ db = last :: db' ∧
      (endStage last (scanAll st it).1).rs_.mem_ = some m ∧
      (endStage last (scanAll st it).1).rs_.seq_limit_ ≤
        (endStage last (scanAll st it).1).rs_.seq_start_ ∧
      primeLoop db st =
        .ok { (endStage last (scanAll st it).1).withIter
                m.NewIterator.SeekToFirst.SeekToLast with valid_ := false }) ∨
    (∃ it last db' m, st.rs_.iter_ = some it ∧ (scanAll st it).2.2 = false ∧
      (scanAll st it).2.1.status.ok = true ∧ db = last :: db' ∧
      (endStage last (scanAll st it).1).rs_.mem_ = some m ∧
      (endStage last (scanAll st it).1).rs_.seq_start_ <
        (endStage last (scanAll st it).1).rs_.seq_limit_ ∧
      primeLoop db st =
        primeLoop db' ((endStage last (scanAll st it).1).withIter m.NewIterator.SeekToFirst)) := by
  cases hi : st.rs_.iter_ with
  | none => exact Or.inl ⟨rfl, primeLoop_null db st hi⟩
  | some it =>
    cases hr : (scanAll st it).2.2 with
    | true => exact Or.inr (Or.inl ⟨it, rfl, hr, primeLoop_returned db st it hi hr⟩)
    | false =>
      cases he : (scanAll st it).2.1.status.ok with
      | false => exact Or.inr (Or.inr (Or.inl ⟨it, rfl, hr, he, primeLoop_rawError db st it hi hr he⟩))
      | true =>
        cases db with
        | nil =>
          exact Or.inr (Or.inr (Or.inr (Or.inl ⟨it, rfl, hr, he, rfl,
            primeLoop_noReading st it hi hr he⟩)))
        | cons last db' =>
          cases hm : (endStage last (scanAll st it).1).rs_.mem_ with
          | none =>
            exact Or.inr (Or.inr (Or.inr (Or.inr (Or.inl ⟨it, last, db', rfl, hr, he, rfl, hm,
              primeLoop_nullMem last db' st it hi hr he hm⟩))))
          | some m =>
            rcases Nat.lt_or_ge (endStage last (scanAll st it).1).rs_.seq_start_
              (endStage last (scanAll st it).1).rs_.seq_limit_ with hw | hw
            · exact Or.inr (Or.inr (Or.inr (Or.inr (Or.inr (Or.inr ⟨it, last, db', m, rfl, hr, he,
                rfl, hm, hw, primeLoop_again last db' st it m hi hr he hm hw⟩)))))
            · exact Or.inr (Or.inr (Or.inr (Or.inr (Or.inr (Or.inl ⟨it, last, db', m, rfl, hr, he,
                rfl, hm, hw, primeLoop_parked last db' st it m hi hr he hm hw⟩)))))

theorem scanAll_frame (st : ReplayIteratorImpl) (it : Iterator) :
    (scanAll st it).1.rs_ = st.rs_ ∧ (scanAll st it).1.mems_ = st.mems_ ∧
    (scanAll st it).1.refLog = st.refLog ∧
    (scanAll st it).1.user_comparator_ = st.user_comparator_ ∧
    (scanAll st it).1.start_at_ = st.start_at_ ∧
    (scanAll st it).2.1.entries = it.entries ∧
    (scanAll st it).2.1.status_ = it.status_ ∧
    it.pos ≤ (scanAll st it).2.1.pos :=
  scanLoop_frame _ st it

theorem endStage_valid (last : SequenceNumber) (st : ReplayIteratorImpl) :
    (endStage last st).valid_ = st.valid_ ∧ (endStage last st).status_ = st.status_ := by
  unfold endStage switchStage
  dsimp only
  split
  · exact ⟨rfl, rfl⟩
  · split <;> exact ⟨rfl, rfl⟩

/-- While `valid_` is false on entry, the loop of `Prime` can only return with
`valid_` set from a record that parses, is of a known kind and lies in the
window. -/
theorem primeLoop_valid_positioned (db : List SequenceNumber) (st st' : ReplayIteratorImpl)
    (hv : st.valid_ = false) (h : primeLoop db st = .ok st') (hv' : st'.valid_ = true) :
    Positioned st' := by
  induction db generalizing st with
  | nil =>
    rcases primeLoop_cases [] st with ⟨_, e⟩ | ⟨it, hi, hr, e⟩ | ⟨it, hi, hr, he, e⟩ |
      ⟨it, hi, hr, he, _, e⟩ | ⟨it, last, db', hi, hr, he, hd, _, e⟩ |
      ⟨it, last, db', m, hi, hr, he, hd, _, _, e⟩ | ⟨it, last, db', m, hi, hr, he, hd, _, _, e⟩
    · rw [e] at h; cases h
    · rw [e] at h
      injection h with h
      subst h
      rcases scanLoop_returned _ st it hr with ⟨_, _, hvis⟩ | ⟨hval, _⟩
      · refine ⟨(scanAll st it).2.1, rfl, ?_⟩
        simp only [withIter]
        rw [(scanAll_frame st it).1]
        exact hvis
      · simp only [withIter] at hv'
        rw [scanAll, hval, hv] at hv'
        cases hv'
    · rw [e] at h
      injection h with h
      subst h
      cases hv'
    · rw [e] at h; cases h
    · cases hd
    · cases hd
    · cases hd
  | cons l db ih =>
    rcases primeLoop_cases (l :: db) st with ⟨_, e⟩ | ⟨it, hi, hr, e⟩ | ⟨it, hi, hr, he, e⟩ |
      ⟨it, hi, hr, he, hd, e⟩ | ⟨it, last, db', hi, hr, he, hd, _, e⟩ |
      ⟨it, last, db', m, hi, hr, he, hd, _, _, e⟩ | ⟨it, last, db', m, hi, hr, he, hd, _, _, e⟩
    · rw [e] at h; cases h
    · rw [e] at h
      injection h with h
      subst h
      rcases scanLoop_returned _ st it hr with ⟨_, _, hvis⟩ | ⟨hval, _⟩
      · refine ⟨(scanAll st it).2.1, rfl, ?_⟩
        simp only [withIter]
        rw [(scanAll_frame st it).1]
        exact hvis
      · simp only [withIter] at hv'
        rw [scanAll, hval, hv] at hv'
        cases hv'
    · rw [e] at h
      injection h with h
      subst h
      cases hv'
    · cases hd
    · rw [e] at h; cases h
    · rw [e] at h
      injection h with h
      subst h
      cases hv'
    · rw [e] at h
      injection hd with h1 h2
      subst h1 h2
      refine ih _ ?_ h
      simp only [withIter]
      rw [(endStage_valid _ _).1, scanAll, (scanLoop_fellThrough _ st it hr).1, hv]

/-! ## One stage, read as a first-seen-wins selection -/

theorem drop_of_current {it : Iterator} {e : Entry} (h : it.current = some e) :
    it.entries.drop it.pos = e :: it.entries.drop (it.pos + 1) := by
  unfold Iterator.current at h
  obtain ⟨hlt, he⟩ := List.getElem?_eq_some.1 h
  rw [List.drop_eq_getElem_cons hlt, he]

theorem drop_of_atEnd {it : Iterator} (h : it.current = none) :
    it.entries.drop it.pos = [] := by
  unfold Iterator.current at h
  exact List.drop_eq_nil_of_le (List.getElem?_eq_none_iff.1 h)

theorem lastSeen_sees (st : ReplayIteratorImpl) (ikey : ParsedInternalKey) :
    (st.sees ikey).lastSeen = some ikey.user_key := by
  simp [lastSeen, sees]

theorem isNewKey_eq (st : ReplayIteratorImpl) (ikey : ParsedInternalKey) :
    st.isNewKey ikey =
      opensKey st.user_comparator_ st.lastSeen ikey.user_key := by
  unfold isNewKey lastSeen opensKey
  cases st.has_current_user_key_ <;> simp

/-- The scan, read on the list of the records from the cursor on: it stops on
the first record the first-seen-wins selection picks. -/
theorem scanLoop_firstSeen (n : Nat) (st : ReplayIteratorImpl) (it : Iterator)
    (hv : st.valid_ = false) (hn : it.entries.length - it.pos ≤ n) :
    firstSeen st.user_comparator_ st.rs_ st.lastSeen (it.entries.drop it.pos) =
      if (scanLoop n st it).1.valid_ then
        (scanLoop n st it).2.1.current.toList ++
          firstSeen st.user_comparator_ st.rs_ (scanLoop n st it).1.lastSeen
            (it.entries.drop ((scanLoop n st it).2.1.pos + 1))
      else [] := by
  induction n generalizing st it with
  | zero =>
    have : it.entries.drop it.pos = [] := List.drop_eq_nil_of_le (by omega)
    simp [scanLoop, hv, this, firstSeen]
  | succ n ih =>
    rcases scanLoop_cases n st it with ⟨he, h⟩ | ⟨e, he, hk, h⟩ | ⟨e, ikey, he, hk, hnew, hs, h⟩ |
      ⟨e, ikey, he, hk, hnew, hs, h⟩ | ⟨e, ikey, he, hk, hnew, h⟩
    · rw [h]
      simp [hv, drop_of_atEnd he, firstSeen]
    · rw [h]
      simp [hv, drop_of_current he, firstSeen, hk]
    · rw [h]
      rw [isNewKey_eq] at hnew
      simp only [drop_of_current he, firstSeen, hk, hnew, hs, if_true, he, Option.toList,
        List.singleton_append]
      simp [lastSeen, sees]
    · rw [h]
      rw [isNewKey_eq] at hnew
      have := ih (st.sees ikey) it.Next (by simp [sees, hv]) (by simp only [Iterator.Next]; omega)
      simp only [Iterator.Next, lastSeen_sees] at this
      simp only [drop_of_current he, firstSeen, hk, hnew, hs, if_true]
      simpa [sees, Iterator.Next] using this
    · rw [h]
      rw [isNewKey_eq] at hnew
      have := ih st it.Next hv (by simp only [Iterator.Next]; omega)
      simp only [Iterator.Next] at this
      simp only [drop_of_current he, firstSeen, hk, hnew]
      simpa [Iterator.Next] using this


theorem shows_congr {rs rs' : ReplayState} (h1 : rs.seq_start_ = rs'.seq_start_)
    (h2 : rs.seq_limit_ = rs'.seq_limit_) (ikey : ParsedInternalKey) :
    rs.shows ikey = rs'.shows ikey := by
  simp [ReplayState.shows, h1, h2]

theorem firstSeen_congr (cmp : Comparator) (rs rs' : ReplayState)
    (h1 : rs.seq_start_ = rs'.seq_start_) (h2 : rs.seq_limit_ = rs'.seq_limit_)
    (last : Option Slice) (es : List Entry) :
    firstSeen cmp rs last es = firstSeen cmp rs' last es := by
  induction es generalizing last with
  | nil => rfl
  | cons e es ih =>
    simp only [firstSeen]
    cases ParseInternalKey e.key with
    | none => rfl
    | some ikey => simp only [shows_congr h1 h2 ikey, ih]

theorem scanLoop_status_of_valid (n : Nat) (st : ReplayIteratorImpl) (it : Iterator)
    (hv : st.valid_ = false) (hv' : (scanLoop n st it).1.valid_ = true) :
    (scanLoop n st it).1.status_ = st.status_ := by
  cases hr : (scanLoop n st it).2.2 with
  | false => exact (scanLoop_fellThrough n st it hr).2.1
  | true =>
    rcases scanLoop_returned n st it hr with ⟨_, h, _⟩ | ⟨h, _⟩
    · exact h
    · rw [h, hv] at hv'; cases hv'

theorem scanLoop_returned_of_valid (n : Nat) (st : ReplayIteratorImpl) (it : Iterator)
    (hv : st.valid_ = false) (hv' : (scanLoop n st it).1.valid_ = true) :
    (scanLoop n st it).2.2 = true := by
  cases hr : (scanLoop n st it).2.2 with
  | false =>
    rw [(scanLoop_fellThrough n st it hr).1, hv] at hv'
    cases hv'
  | true => rfl

/-- The members on entry to the loop of `Prime`. -/
theorem Prime_eq_primeLoop (db : List SequenceNumber) (st : ReplayIteratorImpl)
    (hs : st.status_.ok = true) :
    Prime db st = primeLoop db { st with valid_ := false } := by
  simp [Prime, hs]

/-- With no host reading at hand, `Prime` on a healthy iterator either stops on
the first record the first-seen-wins selection picks among the records from the
cursor on, or does not return valid, and then the selection picks none. -/
theorem Prime_nil_firstSeen (st : ReplayIteratorImpl) (it : Iterator)
    (hs : st.status_.ok = true) (hi : st.rs_.iter_ = some it) :
    (∃ st1 it1, Prime [] st = .ok st1 ∧ st1.valid_ = true ∧ st1.status_ = st.status_ ∧
      st1.user_comparator_ = st.user_comparator_ ∧ st1.rs_.iter_ = some it1 ∧
      st1.rs_.seq_start_ = st.rs_.seq_start_ ∧ st1.rs_.seq_limit_ = st.rs_.seq_limit_ ∧
      it1.entries = it.entries ∧ it.pos ≤ it1.pos ∧
      firstSeen st.user_comparator_ st.rs_ st.lastSeen (it.entries.drop it.pos) =
        it1.current.toList ++
          firstSeen st.user_comparator_ st.rs_ st1.lastSeen (it.entries.drop (it1.pos + 1))) ∨
    ((∀ st1, Prime [] st = .ok st1 → st1.valid_ = false) ∧
      firstSeen st.user_comparator_ st.rs_ st.lastSeen (it.entries.drop it.pos) = []) := by
  rw [Prime_eq_primeLoop [] st hs]
  have hF : firstSeen st.user_comparator_ st.rs_ st.lastSeen (it.entries.drop it.pos) =
      if (scanAll { st with valid_ := false } it).1.valid_ then
        (scanAll { st with valid_ := false } it).2.1.current.toList ++
          firstSeen st.user_comparator_ st.rs_ (scanAll { st with valid_ := false } it).1.lastSeen
            (it.entries.drop ((scanAll { st with valid_ := false } it).2.1.pos + 1))
      else [] := scanLoop_firstSeen _ { st with valid_ := false } it rfl (le_refl _)
  have hfr := scanAll_frame { st with valid_ := false } it
  have hi' : ({ st with valid_ := false } : ReplayIteratorImpl).rs_.iter_ = some it := hi
  by_cases hv : (scanAll { st with valid_ := false } it).1.valid_ = true
  · left
    have hr := scanLoop_returned_of_valid _ { st with valid_ := false } it rfl hv
    refine ⟨_, _, primeLoop_returned [] _ it hi' hr, hv, ?_, hfr.2.2.2.1, rfl, ?_, ?_,
      hfr.2.2.2.2.2.1, hfr.2.2.2.2.2.2.2, ?_⟩
    · exact scanLoop_status_of_valid _ { st with valid_ := false } it rfl hv
    · show (scanAll { st with valid_ := false } it).1.rs_.seq_start_ = st.rs_.seq_start_
      rw [hfr.1]
    · show (scanAll { st with valid_ := false } it).1.rs_.seq_limit_ = st.rs_.seq_limit_
      rw [hfr.1]
    · rw [hF, if_pos hv]
      rfl
  · right
    constructor
    · intro st1 h1
      rcases primeLoop_cases [] { st with valid_ := false } with ⟨hn, _⟩ | ⟨it', hi2, hr, e⟩ |
        ⟨it', hi2, hr, he, e⟩ | ⟨it', hi2, hr, he, _, e⟩ | ⟨it', last, db', hi2, hr, he, hd, _, e⟩ |
        ⟨it', last, db', m, hi2, hr, he, hd, _, _, e⟩ |
        ⟨it', last, db', m, hi2, hr, he, hd, _, _, e⟩
      · rw [hi'] at hn; cases hn
      · have : it' = it := by rw [hi'] at hi2; injection hi2 with h; exact h.symm
        subst this
        rw [e] at h1
        injection h1 with h1
        subst h1
        simpa [withIter] using hv
      · rw [e] at h1
        injection h1 with h1
        subst h1
        rfl
      · rw [e] at h1; cases h1
      · cases hd
      · cases hd
      · cases hd
    · rw [hF, if_neg hv]

theorem cursor_of_iter {st : ReplayIteratorImpl} {it : Iterator} (hi : st.rs_.iter_ = some it) :
    st.cursor = it.current := by
  simp [cursor, hi]

/-- The records `n` calls of `Next()` hand out within the stage are those the
first-seen-wins selection picks among the records after the cursor. -/
theorem driveNext_eq_firstSeen (n : Nat) (st : ReplayIteratorImpl) (it : Iterator)
    (hs : st.status_.ok = true) (hi : st.rs_.iter_ = some it)
    (hn : it.entries.length - (it.pos + 1) ≤ n) :
    st.driveNext n =
      firstSeen st.user_comparator_ st.rs_ st.lastSeen (it.entries.drop (it.pos + 1)) := by
  induction n generalizing st it with
  | zero =>
    have : it.entries.drop (it.pos + 1) = [] := List.drop_eq_nil_of_le (by omega)
    simp [driveNext, this, firstSeen]
  | succ n ih =>
    unfold driveNext
    by_cases hval : it.Valid = true
    · have hN : Next [] st = Prime [] (st.withIter it.Next) := by
        simp [Next, hi, hval, withIter]
      rw [hN]
      have hcong : ∀ last es, firstSeen st.user_comparator_ (st.withIter it.Next).rs_ last es =
          firstSeen st.user_comparator_ st.rs_ last es :=
        fun last es => firstSeen_congr st.user_comparator_ (st.withIter it.Next).rs_
          st.rs_ rfl rfl last es
      rcases Prime_nil_firstSeen (st.withIter it.Next) it.Next hs rfl with
        ⟨st1, it1, hP, hv1, hs1, hc1, hi1, hw1, hw2, he1, hp1, hF⟩ | ⟨hnv, hF⟩
      · rw [hP]
        simp only [hv1, if_true]
        have hF' : firstSeen st.user_comparator_ st.rs_ st.lastSeen
            (it.entries.drop (it.pos + 1)) = it1.current.toList ++
              firstSeen st.user_comparator_ st.rs_ st1.lastSeen (it.entries.drop (it1.pos + 1)) := by
          rw [← hcong, ← hcong]
          exact hF
        rw [hF', cursor_of_iter hi1]
        congr 1
        have hpos : it.pos + 1 ≤ it1.pos := hp1
        have hent : it1.entries = it.entries := he1
        rw [ih st1 it1 (by rw [hs1]; exact hs) hi1 (by rw [hent]; omega), hc1, hent]
        exact firstSeen_congr st.user_comparator_ st1.rs_ st.rs_ hw1 hw2 _ _
      · have hF' : firstSeen st.user_comparator_ st.rs_ st.lastSeen
            (it.entries.drop (it.pos + 1)) = [] := by
          rw [← hcong]
          exact hF
        rw [hF']
        cases hr : Prime [] (st.withIter it.Next) with
        | error f => rfl
        | ok st1 => simp [hnv st1 hr]
    · have hN : Next [] st = .error Fault.rawNotValid := by
        simp [Next, hi, hval]
      rw [hN]
      have : it.entries.drop (it.pos + 1) = [] := by
        apply List.drop_eq_nil_of_le
        simp only [Iterator.Valid, decide_eq_true_eq] at hval
        omega
      simp [this, firstSeen]

/-- The records an initial `Valid()` and `n` calls of `Next()` hand out within
the stage are those the first-seen-wins selection picks among the records from
the cursor on. -/
theorem driveStage_eq_firstSeen (n : Nat) (st : ReplayIteratorImpl) (it : Iterator)
    (hs : st.status_.ok = true) (hi : st.rs_.iter_ = some it)
    (hn : it.entries.length - it.pos ≤ n) :
    st.driveStage n =
      firstSeen st.user_comparator_ st.rs_ st.lastSeen (it.entries.drop it.pos) := by
  unfold driveStage Valid
  rcases Prime_nil_firstSeen st it hs hi with
    ⟨st1, it1, hP, hv1, hs1, hc1, hi1, hw1, hw2, he1, hp1, hF⟩ | ⟨hnv, hF⟩
  · rw [hP]
    simp only [hv1]
    rw [hF, cursor_of_iter hi1]
    congr 1
    rw [driveNext_eq_firstSeen n st1 it1 (by rw [hs1]; exact hs) hi1 (by rw [he1]; omega), hc1, he1]
    exact firstSeen_congr _ _ _ hw1 hw2 _ _
  · rw [hF]
    cases hr : Prime [] st with
    | error f => rfl
    | ok st1 => simp [hnv st1 hr]

/-! ## The selection on a sorted run -/

theorem hasUserKey_iff {k : Slice} {e : Entry} :
    e.hasUserKey k = true ↔ ∃ ikey, ParseInternalKey e.key = some ikey ∧ ikey.user_key = k := by
  unfold Entry.hasUserKey
  cases ParseInternalKey e.key with
  | none => simp
  | some ikey => simp

/-- The selection picks no record of a user key that no record has. -/
theorem firstSeen_filter_nil (cmp : Comparator) (rs : ReplayState) (k : Slice)
    (last : Option Slice) (es : List Entry) (h : ∀ e ∈ es, e.hasUserKey k = false) :
    (firstSeen cmp rs last es).filter (Entry.hasUserKey k) = [] := by
  induction es generalizing last with
  | nil => rfl
  | cons e es ih =>
    have he : e.hasUserKey k = false := h e (List.mem_cons_self _ _)
    have hes : ∀ e' ∈ es, e'.hasUserKey k = false := fun e' h' => h e' (List.mem_cons_of_mem _ h')
    simp only [firstSeen]
    cases ParseInternalKey e.key with
    | none => rfl
    | some ikey =>
      dsimp only
      split
      · split
        · rw [List.filter_cons_of_neg (by simp [he])]
          exact ih _ hes
        · exact ih _ hes
      · exact ih _ hes

/-- In a sorted run, once a record of user key `k` has been seen, the selection
picks no further record of `k`. -/
theorem firstSeen_shadowed (cmp : Comparator) (rs : ReplayState) (k : Slice)
    (hzero : ∀ a b, cmp a b = 0 ↔ a = b) (hasym : ∀ a b, cmp a b < 0 → ¬ cmp b a < 0)
    (e : Entry) (es : List Entry) (he : e.hasUserKey k = true)
    (hsorted : (e :: es).Pairwise (InternalKeyOrder cmp)) :
    (firstSeen cmp rs (some k) es).filter (Entry.hasUserKey k) = [] := by
  induction es with
  | nil => rfl
  | cons e' es' ih =>
    obtain ⟨ik, hik, hk⟩ := hasUserKey_iff.1 he
    have hall := List.pairwise_cons.1 hsorted
    have htail := List.pairwise_cons.1 hall.2
    obtain ⟨k1, k2, hk1, hk2, hord⟩ := hall.1 e' (List.mem_cons_self _ _)
    rw [hik] at hk1
    injection hk1 with hk1
    subst hk1
    by_cases hsame : k2.user_key = k
    · have hs' : (e :: es').Pairwise (InternalKeyOrder cmp) :=
        List.pairwise_cons.2 ⟨fun x hx => hall.1 x (List.mem_cons_of_mem _ hx), htail.2⟩
      have hnot : opensKey cmp (some k) k2.user_key = false := by
        simp [opensKey, hsame, (hzero k k).2 rfl]
      simp only [firstSeen, hk2, hnot]
      exact ih hs'
    · apply firstSeen_filter_nil
      intro x hx
      by_contra hc
      have hxk : x.hasUserKey k = true := by simpa using hc
      obtain ⟨ikx, hikx, hkx⟩ := hasUserKey_iff.1 hxk
      rcases List.mem_cons.1 hx with rfl | hx'
      · rw [hk2] at hikx
        injection hikx with hikx
        subst hikx
        exact hsame hkx
      · obtain ⟨a, b, ha, hb, hab⟩ := htail.1 x hx'
        rw [hk2] at ha
        injection ha with ha
        subst ha
        rw [hikx] at hb
        injection hb with hb
        subst hb
        rw [hkx] at hab
        rw [hk] at hord
        have h1 : cmp k k2.user_key < 0 := by
          rcases hord with h | ⟨h, _⟩
          · exact h
          · exact absurd ((hzero _ _).1 h).symm hsame
        have h2 : cmp k2.user_key k < 0 := by
          rcases hab with h | ⟨h, _⟩
          · exact h
          · exact absurd ((hzero _ _).1 h) hsame
        exact hasym _ _ h1 h2

/-- In a sorted run the selection picks, of the records of user key `k`, the
first one if it is shown in the window, and no other. -/
theorem firstSeen_filter (cmp : Comparator) (rs : ReplayState) (k : Slice)
    (hzero : ∀ a b, cmp a b = 0 ↔ a = b) (hasym : ∀ a b, cmp a b < 0 → ¬ cmp b a < 0)
    (last : Option Slice) (hlast : last ≠ some k) (es : List Entry)
    (hsorted : es.Pairwise (InternalKeyOrder cmp)) :
    (firstSeen cmp rs last es).filter (Entry.hasUserKey k) =
      match es.filter (Entry.hasUserKey k) with
      | [] => []
      | e :: _ => if e.shownIn rs then [e] else [] := by
  induction es generalizing last with
  | nil => rfl
  | cons e es ih =>
    have hall := List.pairwise_cons.1 hsorted
    cases hp : ParseInternalKey e.key with
    | none =>
      have he : e.hasUserKey k = false := by simp [Entry.hasUserKey, hp]
      cases es with
      | nil => simp [firstSeen, hp, he]
      | cons e' es' =>
        obtain ⟨a, b, ha, _⟩ := hall.1 e' (List.mem_cons_self _ _)
        rw [hp] at ha
        cases ha
    | some ikey =>
      by_cases hsame : ikey.user_key = k
      · have he : e.hasUserKey k = true := hasUserKey_iff.2 ⟨ikey, hp, hsame⟩
        have hopen : opensKey cmp last ikey.user_key = true := by
          cases last with
          | none => rfl
          | some c =>
            have hc : c ≠ k := fun h => hlast (by rw [h])
            have : cmp k c ≠ 0 := fun h => hc ((hzero _ _).1 h).symm
            simp [opensKey, hsame, this]
        have hsh := firstSeen_shadowed cmp rs k hzero hasym e es he hsorted
        rw [List.filter_cons_of_pos (by simpa using he)]
        rw [hsame] at hopen
        simp only [firstSeen, hp, hopen, if_true, Entry.shownIn, hsame]
        cases hshow : rs.shows ikey with
        | true =>
          simp only [if_true]
          rw [List.filter_cons_of_pos (by simpa using he), hsh]
        | false =>
          simp only [Bool.false_eq_true, if_false]
          exact hsh
      · have he : e.hasUserKey k = false := by
          simp [Entry.hasUserKey, hp, hsame]
        rw [List.filter_cons_of_neg (by simp [he])]
        simp only [firstSeen, hp]
        have hnew : some ikey.user_key ≠ some k := fun h => hsame (by injection h)
        split
        · split
          · rw [List.filter_cons_of_neg (by simp [he])]
            exact ih _ hnew hall.2
          · exact ih _ hnew hall.2
        · exact ih _ hlast hall.2

/-- In a sorted run the first record of a user key carries the highest
sequence number of the key. -/
theorem first_of_key_is_newest (cmp : Comparator) (k : Slice)
    (hzero : ∀ a b, cmp a b = 0 ↔ a = b)
    (es : List Entry) (hsorted : es.Pairwise (InternalKeyOrder cmp)) (e : Entry)
    (rest : List Entry) (hk : es.filter (Entry.hasUserKey k) = e :: rest) :
    ∀ e' ∈ rest, e'.sequence < e.sequence := by
  have hsub : (e :: rest).Pairwise (InternalKeyOrder cmp) := by
    rw [← hk]
    exact hsorted.sublist (List.filter_sublist _)
  have hmem : ∀ x ∈ e :: rest, x.hasUserKey k = true := by
    intro x hx
    rw [← hk] at hx
    exact (List.mem_filter.1 hx).2
  intro e' he'
  obtain ⟨a, b, ha, hb, hab⟩ := (List.pairwise_cons.1 hsub).1 e' he'
  obtain ⟨a', ha', hak⟩ := hasUserKey_iff.1 (hmem e (List.mem_cons_self _ _))
  obtain ⟨b', hb', hbk⟩ := hasUserKey_iff.1 (hmem e' (List.mem_cons_of_mem _ he'))
  rw [ha] at ha'
  injection ha' with ha'
  subst ha'
  rw [hb] at hb'
  injection hb' with hb'
  subst hb'
  have h0 : cmp a.user_key b.user_key = 0 := (hzero _ _).2 (by rw [hak, hbk])
  rcases hab with h | ⟨_, h⟩
  · rw [h0] at h
    exact absurd h (by decide)
  · simpa [Entry.sequence, ha, hb] using h


theorem BytewiseCompare_zero (a b : Slice) : BytewiseCompare a b = 0 ↔ a = b := by
  induction a generalizing b with
  | nil => cases b <;> simp [BytewiseCompare]
  | cons x xs ih =>
    cases b with
    | nil => simp [BytewiseCompare]
    | cons y ys =>
      simp only [BytewiseCompare]
      split
      · have : x ≠ y := by omega
        simp [this]
      · split
        · have : x ≠ y := by omega
          simp [this]
        · have : x = y := by omega
          simp [this, ih]

theorem BytewiseCompare_asymm (a b : Slice) :
    BytewiseCompare a b < 0 → ¬ BytewiseCompare b a < 0 := by
  induction a generalizing b with
  | nil => cases b <;> simp [BytewiseCompare]
  | cons x xs ih =>
    cases b with
    | nil => simp [BytewiseCompare]
    | cons y ys =>
      simp only [BytewiseCompare]
      split
      · rename_i h1
        have h2 : ¬ y < x := by omega
        simp [h2, h1]
      · rename_i h1
        split
        · simp
        · rename_i h2
          exact ih ys

/-! ## Stage transitions -/

theorem endStage_gap (last : SequenceNumber) (st : ReplayIteratorImpl)
    (hg : st.seesGap = true) :
    endStage last st =
      { st with has_current_user_key_ := false,
                rs_ := { st.rs_ with iter_ := none, seq_start_ := st.rs_.seq_limit_,
                                     seq_limit_ := last } } := by
  unfold seesGap at hg
  unfold endStage switchStage
  dsimp only
  split
  · rfl
  · rename_i front rest hm
    rw [hm] at hg
    simp only [decide_eq_true_eq] at hg
    simp [hg]

theorem endStage_adopt (last : SequenceNumber) (st : ReplayIteratorImpl)
    (front : ReplayState) (rest : List ReplayState) (hm : st.mems_ = front :: rest)
    (hg : st.seesGap = false) :
    endStage last st =
      { st with has_current_user_key_ := false,
                refLog := st.refLog ++ unrefEvents st.rs_.mem_,
                rs_ := { st.rs_ with iter_ := none, mem_ := front.mem_,
                                     seq_start_ := front.seq_start_, seq_limit_ := last },
                mems_ := rest } := by
  unfold seesGap at hg
  rw [hm] at hg
  simp only [decide_eq_false_iff_not] at hg
  unfold endStage switchStage
  dsimp only
  split
  · rename_i h; rw [hm] at h; cases h
  · rename_i front' rest' h
    rw [hm] at h
    injection h with h1 h2
    subst h1 h2
    simp [hg]

theorem seesGap_false (st : ReplayIteratorImpl) (hg : st.seesGap = false) :
    ∃ front rest, st.mems_ = front :: rest ∧ front.seq_start_ ≤ st.rs_.seq_start_ := by
  unfold seesGap at hg
  split at hg
  · cases hg
  · rename_i front rest hm
    simp only [decide_eq_false_iff_not, not_lt] at hg
    exact ⟨front, rest, hm, hg⟩

/-! ## Failure -/

theorem Prime_failed (db : List SequenceNumber) (st : ReplayIteratorImpl)
    (hs : st.status_.ok = false) : Prime db st = .ok { st with valid_ := false } := by
  simp [Prime, hs]

theorem call_failed (c : Call) (st st' : ReplayIteratorImpl) (hs : st.status_.ok = false)
    (h : st.call c = .ok st') : st'.status_ = st.status_ := by
  cases c with
  | Valid db =>
    simp only [call, Valid, Prime_failed db st hs] at h
    injection h with h
    subst h
    rfl
  | Next db =>
    simp only [call, Next] at h
    split at h
    · cases h
    · split at h
      · rw [Prime_failed db _ (by exact hs)] at h
        injection h with h
        subst h
        rfl
      · cases h
  | enqueue m s =>
    simp only [call, enqueue] at h
    split at h
    · cases h
    · injection h with h
      subst h
      rfl

/-! ## Invariants of `Prime` -/

/-- A property of the buffers, the queue and the reference log that every stage
transition keeps is kept by the loop of `Prime`. -/
theorem primeLoop_preserves (P : ReplayIteratorImpl → Prop)
    (hframe : ∀ st st' : ReplayIteratorImpl, st'.rs_.mem_ = st.rs_.mem_ →
      st'.rs_.seq_start_ = st.rs_.seq_start_ → st'.rs_.seq_limit_ = st.rs_.seq_limit_ →
      st'.mems_ = st.mems_ → st'.refLog = st.refLog → P st → P st')
    (hend : ∀ last st, P st → P (endStage last st))
    (db : List SequenceNumber) (st st' : ReplayIteratorImpl)
    (h : primeLoop db st = .ok st') (hP : P st) : P st' := by
  induction db generalizing st with
  | nil =>
    rcases primeLoop_cases [] st with ⟨_, e⟩ | ⟨it, hi, hr, e⟩ | ⟨it, hi, hr, he, e⟩ |
      ⟨it, hi, hr, he, _, e⟩ | ⟨it, last, db', hi, hr, he, hd, _, e⟩ |
      ⟨it, last, db', m, hi, hr, he, hd, _, _, e⟩ | ⟨it, last, db', m, hi, hr, he, hd, _, _, e⟩
    · rw [e] at h; cases h
    · rw [e] at h
      injection h with h
      subst h
      have hfr := scanAll_frame st it
      exact hframe st _ (by simp [withIter, hfr.1]) (by simp [withIter, hfr.1])
        (by simp [withIter, hfr.1]) hfr.2.1 hfr.2.2.1 hP
    · rw [e] at h
      injection h with h
      subst h
      have hfr := scanAll_frame st it
      exact hframe st _ (by simp [withIter, hfr.1]) (by simp [withIter, hfr.1])
        (by simp [withIter, hfr.1]) hfr.2.1 hfr.2.2.1 hP
    · rw [e] at h; cases h
    · cases hd
    · cases hd
    · cases hd
  | cons l db ih =>
    rcases primeLoop_cases (l :: db) st with ⟨_, e⟩ | ⟨it, hi, hr, e⟩ | ⟨it, hi, hr, he, e⟩ |
      ⟨it, hi, hr, he, hd, e⟩ | ⟨it, last, db', hi, hr, he, hd, _, e⟩ |
      ⟨it, last, db', m, hi, hr, he, hd, _, _, e⟩ | ⟨it, last, db', m, hi, hr, he, hd, _, _, e⟩
    · rw [e] at h; cases h
    · rw [e] at h
      injection h with h
      subst h
      have hfr := scanAll_frame st it
      exact hframe st _ (by simp [withIter, hfr.1]) (by simp [withIter, hfr.1])
        (by simp [withIter, hfr.1]) hfr.2.1 hfr.2.2.1 hP
    · rw [e] at h
      injection h with h
      subst h
      have hfr := scanAll_frame st it
      exact hframe st _ (by simp [withIter, hfr.1]) (by simp [withIter, hfr.1])
        (by simp [withIter, hfr.1]) hfr.2.1 hfr.2.2.1 hP
    · cases hd
    · rw [e] at h; cases h
    · rw [e] at h
      injection h with h
      subst h
      have hfr := scanAll_frame st it
      have h1 : P (scanAll st it).1 :=
        hframe st _ (by rw [hfr.1]) (by rw [hfr.1]) (by rw [hfr.1]) hfr.2.1 hfr.2.2.1 hP
      exact hframe (endStage last (scanAll st it).1) _ rfl rfl rfl rfl rfl (hend last _ h1)
    · rw [e] at h
      injection hd with h1 h2
      subst h1 h2
      have hfr := scanAll_frame st it
      have h1 : P (scanAll st it).1 :=
        hframe st _ (by rw [hfr.1]) (by rw [hfr.1]) (by rw [hfr.1]) hfr.2.1 hfr.2.2.1 hP
      exact ih _ h (hframe (endStage l (scanAll st it).1) _ rfl rfl rfl rfl rfl (hend l _ h1))

/-- The same for a call of `Prime`. -/
theorem Prime_preserves (P : ReplayIteratorImpl → Prop)
    (hframe : ∀ st st' : ReplayIteratorImpl, st'.rs_.mem_ = st.rs_.mem_ →
      st'.rs_.seq_start_ = st.rs_.seq_start_ → st'.rs_.seq_limit_ = st.rs_.seq_limit_ →
      st'.mems_ = st.mems_ → st'.refLog = st.refLog → P st → P st')
    (hend : ∀ last st, P st → P (endStage last st))
    (db : List SequenceNumber) (st st' : ReplayIteratorImpl)
    (h : Prime db st = .ok st') (hP : P st) : P st' := by
  unfold Prime at h
  dsimp only at h
  split at h
  · injection h with h
    subst h
    exact hframe st _ rfl rfl rfl rfl rfl hP
  · exact primeLoop_preserves P hframe hend db _ st' h (hframe st _ rfl rfl rfl rfl rfl hP)

/-- The same for any call whose own effect on the queue keeps the property. -/
theorem call_preserves (P : ReplayIteratorImpl → Prop)
    (hframe : ∀ st st' : ReplayIteratorImpl, st'.rs_.mem_ = st.rs_.mem_ →
      st'.rs_.seq_start_ = st.rs_.seq_start_ → st'.rs_.seq_limit_ = st.rs_.seq_limit_ →
      st'.mems_ = st.mems_ → st'.refLog = st.refLog → P st → P st')
    (hend : ∀ last st, P st → P (endStage last st))
    (henq : ∀ m s st st', enqueue m s st = .ok st' → P st → P st')
    (c : Call) (st st' : ReplayIteratorImpl) (h : st.call c = .ok st') (hP : P st) : P st' := by
  cases c with
  | Valid db =>
    simp only [call, Valid] at h
    cases hp : Prime db st with
    | error f => rw [hp] at h; cases h
    | ok st1 =>
      rw [hp] at h
      injection h with h
      subst h
      exact Prime_preserves P hframe hend db st _ hp hP
  | Next db =>
    simp only [call, Next] at h
    split at h
    · cases h
    · split at h
      · exact Prime_preserves P hframe hend db _ st' h (hframe st _ rfl rfl rfl rfl rfl hP)
      · cases h
  | enqueue m s => exact henq m s st st' h hP

/-- The same for a sequence of calls. -/
theorem calls_preserves (P : ReplayIteratorImpl → Prop)
    (hframe : ∀ st st' : ReplayIteratorImpl, st'.rs_.mem_ = st.rs_.mem_ →
      st'.rs_.seq_start_ = st.rs_.seq_start_ → st'.rs_.seq_limit_ = st.rs_.seq_limit_ →
      st'.mems_ = st.mems_ → st'.refLog = st.refLog → P st → P st')
    (hend : ∀ last st, P st → P (endStage last st))
    (henq : ∀ m s st st', enqueue m s st = .ok st' → P st → P st')
    (cs : List Call) (st st' : ReplayIteratorImpl) (h : st.calls cs = .ok st') (hP : P st) :
    P st' := by
  induction cs generalizing st with
  | nil =>
    simp only [calls] at h
    injection h with h
    subst h
    exact hP
  | cons c cs ih =>
    simp only [calls] at h
    cases hc : st.call c with
    | error f => rw [hc] at h; cases h
    | ok st1 =>
      rw [hc] at h
      exact ih st1 h (call_preserves P hframe hend henq c st st1 hc hP)

/-! ## Reference counting -/

theorem refCalls_append (id : Nat) (l1 l2 : List RefEvent) :
    refCalls id (l1 ++ l2) = refCalls id l1 + refCalls id l2 := by
  simp [refCalls, List.count_append]

theorem unrefCalls_append (id : Nat) (l1 l2 : List RefEvent) :
    unrefCalls id (l1 ++ l2) = unrefCalls id l1 + unrefCalls id l2 := by
  simp [unrefCalls, List.count_append]

theorem refCalls_unrefEvents (id : Nat) (m : Option MemTable) :
    refCalls id (unrefEvents m) = 0 := by
  cases m <;> simp [refCalls, unrefEvents]

theorem unrefCalls_unrefEvents (id : Nat) (r : ReplayState) :
    unrefCalls id (unrefEvents r.mem_) = r.holds id := by
  unfold ReplayState.holds unrefEvents unrefCalls
  cases r.mem_ with
  | none => simp
  | some b =>
    by_cases h : b.id = id
    · simp [h]
    · simp [h, List.count_singleton]

theorem Balanced_frame (st st' : ReplayIteratorImpl) (h1 : st'.rs_.mem_ = st.rs_.mem_)
    (h4 : st'.mems_ = st.mems_) (h5 : st'.refLog = st.refLog) (hB : st.Balanced) :
    st'.Balanced := by
  intro id
  have := hB id
  simp only [held, ReplayState.holds] at this ⊢
  rw [h1, h4, h5]
  exact this

theorem Balanced_endStage (last : SequenceNumber) (st : ReplayIteratorImpl)
    (hB : st.Balanced) : (endStage last st).Balanced := by
  cases hg : st.seesGap with
  | true =>
    rw [endStage_gap last st hg]
    exact Balanced_frame st _ rfl rfl rfl hB
  | false =>
    obtain ⟨front, rest, hm, _⟩ := seesGap_false st hg
    rw [endStage_adopt last st front rest hm hg]
    intro id
    have := hB id
    simp only [held, hm, List.map_cons, List.sum_cons] at this ⊢
    rw [unrefCalls_append, refCalls_append, refCalls_unrefEvents, unrefCalls_unrefEvents]
    have e : ({ mem_ := front.mem_, iter_ := none, seq_start_ := front.seq_start_,
                seq_limit_ := last } : ReplayState).holds id = front.holds id := rfl
    rw [e]
    omega

theorem Balanced_enqueue (m : Option MemTable) (s : SequenceNumber)
    (st st' : ReplayIteratorImpl) (h : enqueue m s st = .ok st') (hB : st.Balanced) :
    st'.Balanced := by
  unfold enqueue at h
  cases m with
  | none => cases h
  | some b =>
    injection h with h
    subst h
    intro id
    have := hB id
    simp only [held, List.map_append, List.sum_append, List.map_cons, List.map_nil,
      List.sum_cons, List.sum_nil] at this ⊢
    rw [refCalls_append, unrefCalls_append]
    by_cases hb : b.id = id
    · simp [refCalls, unrefCalls, ReplayState.holds, ReplayState.ofMemTable, hb] at this ⊢
      omega
    · simp [refCalls, unrefCalls, ReplayState.holds, ReplayState.ofMemTable, hb,
        List.count_singleton] at this ⊢
      omega

theorem Balanced_new (cmp : Comparator) (iter : Option Iterator) (m : Option MemTable)
    (s : SequenceNumber) (st : ReplayIteratorImpl)
    (h : ReplayIteratorImpl.new cmp iter m s = .ok st) : st.Balanced := by
  unfold ReplayIteratorImpl.new at h
  cases m with
  | none => cases h
  | some b =>
    injection h with h
    subst h
    intro id
    by_cases hb : b.id = id
    · simp [refCalls, unrefCalls, held, ReplayState.holds, ReplayState.ofMemTable,
        ReplayState.ofIterator, hb]
    · simp [refCalls, unrefCalls, held, ReplayState.holds, ReplayState.ofMemTable,
        ReplayState.ofIterator, hb, List.count_singleton]

theorem unrefCalls_drain (id : Nat) (q : List ReplayState) :
    unrefCalls id (q.map (fun r => unrefEvents r.mem_)).flatten =
      (q.map (ReplayState.holds id)).sum := by
  induction q with
  | nil => rfl
  | cons r q ih =>
    simp only [List.map_cons, List.flatten_cons, List.sum_cons]
    rw [unrefCalls_append, unrefCalls_unrefEvents, ih]

theorem refCalls_drain (id : Nat) (q : List ReplayState) :
    refCalls id (q.map (fun r => unrefEvents r.mem_)).flatten = 0 := by
  induction q with
  | nil => rfl
  | cons r q ih =>
    simp only [List.map_cons, List.flatten_cons]
    rw [refCalls_append, refCalls_unrefEvents, ih]

theorem calls_cons_of_ok (c : Call) (cs : List Call) (st st1 : ReplayIteratorImpl)
    (h : st.call c = .ok st1) : st.calls (c :: cs) = st1.calls cs := by
  simp [calls, h]

/-! ## Parse failures -/

theorem current_of_drop {it : Iterator} {x : Entry} {tl : List Entry}
    (h : it.entries.drop it.pos = x :: tl) :
    it.current = some x ∧ it.entries.drop (it.pos + 1) = tl := by
  constructor
  · have := List.head?_drop it.entries it.pos
    rw [h] at this
    simpa [Iterator.current] using this.symm
  · have := List.tail_drop it.entries it.pos
    rw [h] at this
    simpa using this.symm

/-- The scan stops with a Corruption on a record that does not parse when the
selection picks none of the records before it. -/
theorem scanLoop_corrupt_after (n : Nat) (st : ReplayIteratorImpl) (it : Iterator)
    (skipped : List Entry) (e : Entry) (rest : List Entry)
    (hdrop : it.entries.drop it.pos = skipped ++ e :: rest)
    (hparse : ∀ x ∈ skipped, ParseInternalKey x.key ≠ none)
    (hnone : firstSeen st.user_comparator_ st.rs_ st.lastSeen skipped = [])
    (he : ParseInternalKey e.key = none) (hn : skipped.length + 1 ≤ n) :
    (scanLoop n st it).2.2 = true ∧
    (scanLoop n st it).1.status_ =
      Status.Corruption "corrupted internal key in ReplayIteratorImpl" ∧
    (scanLoop n st it).1.valid_ = st.valid_ := by
  induction skipped generalizing n st it with
  | nil =>
    obtain ⟨hc, _⟩ := current_of_drop (by simpa using hdrop)
    obtain ⟨n', rfl⟩ : ∃ n', n = n' + 1 := ⟨n - 1, by simp at hn; omega⟩
    rw [scanLoop_corrupt n' st it e hc he]
    exact ⟨rfl, rfl, rfl⟩
  | cons x xs ih =>
    obtain ⟨hc, hd⟩ := current_of_drop (by simpa using hdrop)
    obtain ⟨n', rfl⟩ : ∃ n', n = n' + 1 := ⟨n - 1, by simp at hn; omega⟩
    have hn' : xs.length + 1 ≤ n' := by simp at hn; omega
    have hxs : ∀ y ∈ xs, ParseInternalKey y.key ≠ none :=
      fun y hy => hparse y (List.mem_cons_of_mem _ hy)
    have hd' : it.Next.entries.drop it.Next.pos = xs ++ e :: rest := hd
    rcases scanLoop_cases n' st it with ⟨h0, _⟩ | ⟨e0, h0, hk, _⟩ |
      ⟨e0, ikey, h0, hk, hnew, hs, h⟩ | ⟨e0, ikey, h0, hk, hnew, hs, h⟩ |
      ⟨e0, ikey, h0, hk, hnew, h⟩
    · rw [hc] at h0; cases h0
    · rw [hc] at h0
      injection h0 with h0
      subst h0
      exact absurd hk (hparse _ (List.mem_cons_self _ _))
    · rw [hc] at h0
      injection h0 with h0
      subst h0
      rw [isNewKey_eq] at hnew
      simp [firstSeen, hk, hnew, hs] at hnone
    · rw [hc] at h0
      injection h0 with h0
      subst h0
      rw [isNewKey_eq] at hnew
      simp only [firstSeen, hk, hnew, hs, if_true, Bool.false_eq_true, if_false] at hnone
      rw [h]
      have := ih n' (st.sees ikey) it.Next hd' hxs (by rw [lastSeen_sees]; exact hnone) hn'
      exact this
    · rw [hc] at h0
      injection h0 with h0
      subst h0
      rw [isNewKey_eq] at hnew
      simp only [firstSeen, hk, hnew, Bool.false_eq_true, if_false] at hnone
      rw [h]
      exact ih n' st it.Next hd' hxs hnone hn'

theorem buffersParse_endStage (last : SequenceNumber) (st : ReplayIteratorImpl)
    (h : st.buffersParse) : (endStage last st).buffersParse := by
  cases hg : st.seesGap with
  | true =>
    rw [endStage_gap last st hg]
    exact h
  | false =>
    obtain ⟨front, rest, hm, _⟩ := seesGap_false st hg
    rw [endStage_adopt last st front rest hm hg]
    constructor
    · intro m hmm
      exact h.2 front (by rw [hm]; exact List.mem_cons_self _ _) m hmm
    · intro r hr m hmm
      exact h.2 r (by rw [hm]; exact List.mem_cons_of_mem _ hr) m hmm

/-- With records that all parse and raw iterators without error, the loop of
`Prime` leaves the local status as it found it. -/
theorem primeLoop_status_ok (db : List SequenceNumber) (st st' : ReplayIteratorImpl)
    (it : Iterator) (hi : st.rs_.iter_ = some it)
    (hit : ∀ x ∈ it.entries, ParseInternalKey x.key ≠ none) (hist : it.status_.ok = true)
    (hb : st.buffersParse) (h : primeLoop db st = .ok st') : st'.status_ = st.status_ := by
  induction db generalizing st it with
  | nil =>
    rcases primeLoop_cases [] st with ⟨_, e⟩ | ⟨it', hi', hr, e⟩ | ⟨it', hi', hr, he, e⟩ |
      ⟨it', hi', hr, he, _, e⟩ | ⟨it', last, db', hi', hr, he, hd, _, e⟩ |
      ⟨it', last, db', m, hi', hr, he, hd, _, _, e⟩ |
      ⟨it', last, db', m, hi', hr, he, hd, _, _, e⟩
    · rw [e] at h; cases h
    · have : it' = it := by rw [hi] at hi'; injection hi' with h'; exact h'.symm
      subst this
      rw [e] at h
      injection h with h
      subst h
      rcases scanLoop_returned _ st it' hr with ⟨_, hst, _⟩ | ⟨_, _, x, hx, hxk⟩
      · exact hst
      · have hmem : x ∈ it'.entries := by
          rw [← (scanLoop_frame _ st it').2.2.2.2.2.1]
          exact List.getElem?_mem hx
        exact absurd hxk (hit x hmem)
    · have : it' = it := by rw [hi] at hi'; injection hi' with h'; exact h'.symm
      subst this
      have hs := (scanAll_frame st it').2.2.2.2.2.2.1
      simp only [Iterator.status] at he
      rw [hs, hist] at he
      cases he
    · rw [e] at h; cases h
    · cases hd
    · cases hd
    · cases hd
  | cons l db ih =>
    rcases primeLoop_cases (l :: db) st with ⟨_, e⟩ | ⟨it', hi', hr, e⟩ | ⟨it', hi', hr, he, e⟩ |
      ⟨it', hi', hr, he, hd, e⟩ | ⟨it', last, db', hi', hr, he, hd, _, e⟩ |
      ⟨it', last, db', m, hi', hr, he, hd, hm, _, e⟩ |
      ⟨it', last, db', m, hi', hr, he, hd, hm, _, e⟩
    · rw [e] at h; cases h
    · have : it' = it := by rw [hi] at hi'; injection hi' with h'; exact h'.symm
      subst this
      rw [e] at h
      injection h with h
      subst h
      rcases scanLoop_returned _ st it' hr with ⟨_, hst, _⟩ | ⟨_, _, x, hx, hxk⟩
      · exact hst
      · have hmem : x ∈ it'.entries := by
          rw [← (scanLoop_frame _ st it').2.2.2.2.2.1]
          exact List.getElem?_mem hx
        exact absurd hxk (hit x hmem)
    · have : it' = it := by rw [hi] at hi'; injection hi' with h'; exact h'.symm
      subst this
      have hs := (scanAll_frame st it').2.2.2.2.2.2.1
      simp only [Iterator.status] at he
      rw [hs, hist] at he
      cases he
    · cases hd
    · rw [e] at h; cases h
    · rw [e] at h
      injection h with h
      subst h
      show (endStage last (scanAll st it').1).status_ = st.status_
      rw [(endStage_valid _ _).2]
      exact (scanLoop_fellThrough _ st it' hr).2.1
    · rw [e] at h
      injection hd with h1 h2
      subst h1 h2
      have hfr := scanAll_frame st it'
      have hb1 : (scanAll st it').1.buffersParse := by
        unfold buffersParse
        rw [hfr.1, hfr.2.1]
        exact hb
      have hb2 := buffersParse_endStage l _ hb1
      have := ih ((endStage l (scanAll st it').1).withIter m.NewIterator.SeekToFirst)
        m.NewIterator.SeekToFirst rfl (hb2.1 m hm) rfl hb2 h
      rw [this]
      show (endStage l (scanAll st it').1).status_ = st.status_
      rw [(endStage_valid _ _).2]
      exact (scanLoop_fellThrough _ st it' hr).2.1

/-! ## Polling when caught up -/

/-- In a window `[L, L)` with an empty queue, a `Valid()` under host max `L`
returns false and keeps the buffer, the queue and the window. -/
theorem Valid_caughtUp (L : SequenceNumber) (db : List SequenceNumber) (m : MemTable)
    (st : ReplayIteratorImpl) (it : Iterator)
    (hq : st.mems_ = []) (hm : st.rs_.mem_ = some m) (hi : st.rs_.iter_ = some it)
    (hstart : st.rs_.seq_start_ = L) (hlimit : st.rs_.seq_limit_ = L) :
    ∃ st' it', Valid (L :: db) st = .ok (false, st') ∧ st'.mems_ = [] ∧
      st'.rs_.mem_ = some m ∧ st'.rs_.iter_ = some it' ∧
      st'.rs_.seq_start_ = L ∧ st'.rs_.seq_limit_ = L := by
  have hV : ∀ st', Prime (L :: db) st = .ok st' → st'.valid_ = false →
      Valid (L :: db) st = .ok (false, st') := by
    intro st' h hv
    simp [Valid, h, hv]
  cases hs : st.status_.ok with
  | false =>
    exact ⟨_, it, hV _ (Prime_failed _ st hs) rfl, hq, hm, hi, hstart, hlimit⟩
  | true =>
    have hP := Prime_eq_primeLoop (L :: db) st hs
    have hfr := scanAll_frame { st with valid_ := false } it
    have hrs : (scanAll { st with valid_ := false } it).1.rs_ = st.rs_ := hfr.1
    have hms : (scanAll { st with valid_ := false } it).1.mems_ = [] := hfr.2.1.trans hq
    have hgap : (scanAll { st with valid_ := false } it).1.seesGap = true := by
      simp [seesGap, hms]
    have hend := endStage_gap L _ hgap
    rcases primeLoop_cases (L :: db) { st with valid_ := false } with ⟨hn, _⟩ |
      ⟨it', hi', hr, e⟩ | ⟨it', hi', hr, he, e⟩ | ⟨it', hi', hr, he, hd, e⟩ |
      ⟨it', last, db', hi', hr, he, hd, hmm, e⟩ |
      ⟨it', last, db', m', hi', hr, he, hd, hmm, hw, e⟩ |
      ⟨it', last, db', m', hi', hr, he, hd, hmm, hw, e⟩
    · exact absurd (hi.symm.trans hn) (by simp)
    · have : it' = it := by
        have := hi.symm.trans hi'
        injection this with h'
        exact h'.symm
      subst this
      rcases scanLoop_returned _ { st with valid_ := false } it' hr with
        ⟨_, _, x, ikey, _, _, _, h1, h2⟩ | ⟨hv, _, _⟩
      · have h1' : L ≤ ikey.sequence := by rw [← hstart]; exact h1
        have h2' : ikey.sequence < L := by rw [← hlimit]; exact h2
        exact absurd h2' (Nat.not_lt.mpr h1')
      · refine ⟨_, _, hV _ (hP.trans e) hv, hms, ?_, rfl, ?_, ?_⟩
        · show (scanAll { st with valid_ := false } it').1.rs_.mem_ = some m
          rw [hrs]; exact hm
        · show (scanAll { st with valid_ := false } it').1.rs_.seq_start_ = L
          rw [hrs]; exact hstart
        · show (scanAll { st with valid_ := false } it').1.rs_.seq_limit_ = L
          rw [hrs]; exact hlimit
    · have : it' = it := by
        have := hi.symm.trans hi'
        injection this with h'
        exact h'.symm
      subst this
      refine ⟨_, _, hV _ (hP.trans e) rfl, hms, ?_, rfl, ?_, ?_⟩
      · show (scanAll { st with valid_ := false } it').1.rs_.mem_ = some m
        rw [hrs]; exact hm
      · show (scanAll { st with valid_ := false } it').1.rs_.seq_start_ = L
        rw [hrs]; exact hstart
      · show (scanAll { st with valid_ := false } it').1.rs_.seq_limit_ = L
        rw [hrs]; exact hlimit
    · cases hd
    · have : it' = it := by
        have := hi.symm.trans hi'
        injection this with h'
        exact h'.symm
      subst this
      injection hd with h1 h2
      subst h1 h2
      rw [hend] at hmm
      have : (scanAll { st with valid_ := false } it').1.rs_.mem_ = none := hmm
      rw [hrs, hm] at this
      cases this
    · have : it' = it := by
        have := hi.symm.trans hi'
        injection this with h'
        exact h'.symm
      subst this
      injection hd with h1 h2
      subst h1 h2
      rw [hend] at hmm e
      have hm' : (scanAll { st with valid_ := false } it').1.rs_.mem_ = some m' := hmm
      rw [hrs, hm] at hm'
      injection hm' with hm'
      subst hm'
      refine ⟨_, _, hV _ (hP.trans e) rfl, hms, hm.symm ▸ ?_, rfl, ?_, rfl⟩
      · show (scanAll { st with valid_ := false } it').1.rs_.mem_ = st.rs_.mem_
        rw [hrs]
      · show (scanAll { st with valid_ := false } it').1.rs_.seq_limit_ = L
        rw [hrs]; exact hlimit
    · have : it' = it := by
        have := hi.symm.trans hi'
        injection this with h'
        exact h'.symm
      subst this
      injection hd with h1 h2
      subst h1 h2
      rw [hend] at hw
      have hw' : (scanAll { st with valid_ := false } it').1.rs_.seq_limit_ < L := hw
      rw [hrs, hlimit] at hw'
      exact absurd hw' (Nat.lt_irrefl _)

/-! ## What `Prime` returns -/

theorem endStage_unsetValid (last : SequenceNumber) (st : ReplayIteratorImpl) :
    endStage last { st with valid_ := false } = { endStage last st with valid_ := false } := by
  cases hg : st.seesGap with
  | true =>
    have hg' : ({ st with valid_ := false } : ReplayIteratorImpl).seesGap = true := hg
    rw [endStage_gap last _ hg', endStage_gap last _ hg]
  | false =>
    have hg' : ({ st with valid_ := false } : ReplayIteratorImpl).seesGap = false := hg
    obtain ⟨front, rest, hm, _⟩ := seesGap_false _ hg
    have hm' : ({ st with valid_ := false } : ReplayIteratorImpl).mems_ = front :: rest := hm
    rw [endStage_adopt last _ front rest hm' hg', endStage_adopt last _ front rest hm hg]

theorem ParseInternalKey_some {k : InternalKey} {ikey : ParsedInternalKey}
    (h : ParseInternalKey k = some ikey) : k = InternalKey.wellFormed ikey := by
  cases k with
  | wellFormed i =>
    simp only [ParseInternalKey, Option.some.injEq] at h
    rw [h]
  | malformed b => simp [ParseInternalKey] at h

theorem Valid_ok {db : List SequenceNumber} {st st' : ReplayIteratorImpl} {b : Bool}
    (h : Valid db st = .ok (b, st')) : Prime db st = .ok st' ∧ st'.valid_ = b := by
  unfold Valid at h
  split at h
  · cases h
  · rename_i st1 h1
    injection h with h
    injection h with h2 h3
    subst h3
    exact ⟨h1, h2⟩

/-- The outcomes of the loop of `Prime`, entered with `valid_` false and an ok
status: on a visible record, failed, or exhausted with an empty window. -/
theorem primeLoop_outcome (db : List SequenceNumber) (st st' : ReplayIteratorImpl)
    (hv : st.valid_ = false) (hs : st.status_.ok = true) (h : primeLoop db st = .ok st') :
    (st'.valid_ = true ∧ st'.status_.ok = true ∧ st'.Positioned) ∨
    (st'.valid_ = false ∧ st'.status_.ok = false) ∨
    (st'.valid_ = false ∧ st'.status_.ok = true ∧ st'.rs_.seq_limit_ ≤ st'.rs_.seq_start_) := by
  induction db generalizing st with
  | nil =>
    rcases primeLoop_cases [] st with ⟨_, e⟩ | ⟨it, hi, hr, e⟩ | ⟨it, hi, hr, he, e⟩ |
      ⟨it, hi, hr, he, _, e⟩ | ⟨it, last, db', hi, hr, he, hd, _, e⟩ |
      ⟨it, last, db', m, hi, hr, he, hd, _, _, e⟩ | ⟨it, last, db', m, hi, hr, he, hd, _, _, e⟩
    · rw [e] at h; cases h
    · rw [e] at h
      injection h with h
      subst h
      rcases scanLoop_returned _ st it hr with ⟨h1, h2, hvis⟩ | ⟨h1, h2, _⟩
      · refine Or.inl ⟨h1, ?_, (scanAll st it).2.1, rfl, ?_⟩
        · show (scanAll st it).1.status_.ok = true
          rw [scanAll, h2]; exact hs
        · simp only [withIter]
          rw [(scanAll_frame st it).1]
          exact hvis
      · refine Or.inr (Or.inl ⟨?_, ?_⟩)
        · show (scanAll st it).1.valid_ = false
          rw [scanAll, h1]; exact hv
        · show (scanAll st it).1.status_.ok = false
          rw [scanAll, h2]; rfl
    · rw [e] at h
      injection h with h
      subst h
      exact Or.inr (Or.inl ⟨rfl, he⟩)
    · rw [e] at h; cases h
    · cases hd
    · cases hd
    · cases hd
  | cons l db ih =>
    rcases primeLoop_cases (l :: db) st with ⟨_, e⟩ | ⟨it, hi, hr, e⟩ | ⟨it, hi, hr, he, e⟩ |
      ⟨it, hi, hr, he, hd, e⟩ | ⟨it, last, db', hi, hr, he, hd, _, e⟩ |
      ⟨it, last, db', m, hi, hr, he, hd, _, hw, e⟩ |
      ⟨it, last, db', m, hi, hr, he, hd, _, hw, e⟩
    · rw [e] at h; cases h
    · rw [e] at h
      injection h with h
      subst h
      rcases scanLoop_returned _ st it hr with ⟨h1, h2, hvis⟩ | ⟨h1, h2, _⟩
      · refine Or.inl ⟨h1, ?_, (scanAll st it).2.1, rfl, ?_⟩
        · show (scanAll st it).1.status_.ok = true
          rw [scanAll, h2]; exact hs
        · simp only [withIter]
          rw [(scanAll_frame st it).1]
          exact hvis
      · refine Or.inr (Or.inl ⟨?_, ?_⟩)
        · show (scanAll st it).1.valid_ = false
          rw [scanAll, h1]; exact hv
        · show (scanAll st it).1.status_.ok = false
          rw [scanAll, h2]; rfl
    · rw [e] at h
      injection h with h
      subst h
      exact Or.inr (Or.inl ⟨rfl, he⟩)
    · cases hd
    · rw [e] at h; cases h
    · rw [e] at h
      injection h with h
      subst h
      refine Or.inr (Or.inr ⟨rfl, ?_, hw⟩)
      show (endStage last (scanAll st it).1).status_.ok = true
      rw [(endStage_valid _ _).2, scanAll, (scanLoop_fellThrough _ st it hr).2.1]
      exact hs
    · rw [e] at h
      injection hd with h1 h2
      subst h1 h2
      refine ih _ ?_ ?_ h
      · show (endStage l (scanAll st it).1).valid_ = false
        rw [(endStage_valid _ _).1, scanAll, (scanLoop_fellThrough _ st it hr).1]
        exact hv
      · show (endStage l (scanAll st it).1).status_.ok = true
        rw [(endStage_valid _ _).2, scanAll, (scanLoop_fellThrough _ st it hr).2.1]
        exact hs

/-- The outcomes of `Prime`. -/
theorem Prime_outcome (db : List SequenceNumber) (st st' : ReplayIteratorImpl)
    (h : Prime db st = .ok st') :
    (st'.valid_ = true ∧ st'.status_.ok = true ∧ st'.Positioned) ∨
    (st'.valid_ = false ∧ st'.status_.ok = false) ∨
    (st'.valid_ = false ∧ st'.status_.ok = true ∧ st'.rs_.seq_limit_ ≤ st'.rs_.seq_start_) := by
  cases hs : st.status_.ok with
  | false =>
    rw [Prime_failed db st hs] at h
    injection h with h
    subst h
    exact Or.inr (Or.inl ⟨rfl, hs⟩)
  | true =>
    rw [Prime_eq_primeLoop db st hs] at h
    exact primeLoop_outcome db { st with valid_ := false } st' rfl hs h

/-! ## Termination of `Prime` -/

/-- Rounds beyond the number of records left change nothing in the scan. -/
theorem scanLoop_succ_fuel (n : Nat) (st : ReplayIteratorImpl) (it : Iterator)
    (hn : it.entries.length - it.pos ≤ n) : scanLoop (n + 1) st it = scanLoop n st it := by
  induction n generalizing st it with
  | zero =>
    have he : it.current = none := by
      simp only [Iterator.current]
      apply List.getElem?_eq_none
      omega
    rw [scanLoop_atEnd 1 st it he, scanLoop_atEnd 0 st it he]
  | succ n ih =>
    rcases scanLoop_cases n st it with ⟨he, h⟩ | ⟨e, he, hk, h⟩ | ⟨e, ikey, he, hk, hnew, hs, h⟩ |
      ⟨e, ikey, he, hk, hnew, hs, h⟩ | ⟨e, ikey, he, hk, hnew, h⟩
    · rw [scanLoop_atEnd _ st it he, scanLoop_atEnd _ st it he]
    · rw [scanLoop_corrupt _ st it e he hk, scanLoop_corrupt _ st it e he hk]
    · rw [scanLoop_emit _ st it e ikey he hk hnew hs, scanLoop_emit _ st it e ikey he hk hnew hs]
    · rw [scanLoop_hide _ st it e ikey he hk hnew hs, scanLoop_hide _ st it e ikey he hk hnew hs]
      exact ih _ _ (by simp only [Iterator.Next]; omega)
    · rw [scanLoop_shadow _ st it e ikey he hk hnew, scanLoop_shadow _ st it e ikey he hk hnew]
      exact ih _ _ (by simp only [Iterator.Next]; omega)

theorem scanLoop_fuel (n : Nat) (st : ReplayIteratorImpl) (it : Iterator)
    (hn : it.entries.length - it.pos ≤ n) : scanLoop n st it = scanAll st it := by
  induction n with
  | zero =>
    have : it.entries.length - it.pos = 0 := by omega
    rw [scanAll, this]
  | succ n ih =>
    by_cases h : it.entries.length - it.pos ≤ n
    · rw [scanLoop_succ_fuel n st it h]
      exact ih h
    · have : it.entries.length - it.pos = n + 1 := by omega
      rw [scanAll, this]

/-- Case analysis of the count of transitions, along the cases of the loop. -/
theorem primeLoopTransitions_cases (db : List SequenceNumber) (st : ReplayIteratorImpl) :
    primeLoopTransitions db st ≤ 1 ∨
    (∃ it last db' m, st.rs_.iter_ = some it ∧ (scanAll st it).2.2 = false ∧
      (scanAll st it).2.1.status.ok = true ∧ db = last :: db' ∧
      (endStage last (scanAll st it).1).rs_.mem_ = some m ∧
      (endStage last (scanAll st it).1).rs_.seq_start_ <
        (endStage last (scanAll st it).1).rs_.seq_limit_ ∧
      primeLoopTransitions db st =
        1 + primeLoopTransitions db'
          ((endStage last (scanAll st it).1).withIter m.NewIterator.SeekToFirst)) := by
  cases hi : st.rs_.iter_ with
  | none => left; cases db <;> simp [primeLoopTransitions, hi]
  | some it =>
    rcases hsc : scanLoop (it.entries.length - it.pos) st it with ⟨st1, it1, r⟩
    have hsc' : scanAll st it = (st1, it1, r) := hsc
    cases r with
    | true => left; cases db <;> simp [primeLoopTransitions, hi, hsc]
    | false =>
      cases he : it1.status.ok with
      | false => left; cases db <;> simp [primeLoopTransitions, hi, hsc, he]
      | true =>
        cases db with
        | nil => left; simp [primeLoopTransitions, hi, hsc, he]
        | cons last db' =>
          cases hm : (endStage last st1).rs_.mem_ with
          | none => left; simp [primeLoopTransitions, hi, hsc, he, hm]
          | some m =>
            rcases Nat.lt_or_ge (endStage last st1).rs_.seq_start_
              (endStage last st1).rs_.seq_limit_ with hw | hw
            · right
              refine ⟨it, last, db', m, rfl, by rw [hsc'], by rw [hsc']; exact he, rfl,
                by rw [hsc']; exact hm, by rw [hsc']; exact hw, ?_⟩
              have hw' : ¬ (endStage last st1).rs_.seq_limit_ ≤
                  (endStage last st1).rs_.seq_start_ := Nat.not_le.mpr hw
              rw [primeLoopTransitions]
              simp [hi, hsc, he, hm, hw', hsc', withIter]
            · left
              rw [primeLoopTransitions]
              simp [hi, hsc, he, hm, hw]

theorem endStage_queue_le (last : SequenceNumber) (st : ReplayIteratorImpl) :
    (endStage last st).mems_.length ≤ st.mems_.length ∧
    (endStage last st).rs_.seq_limit_ = last := by
  cases hg : st.seesGap with
  | true =>
    rw [endStage_gap last st hg]
    exact ⟨le_refl _, rfl⟩
  | false =>
    obtain ⟨front, rest, hm, _⟩ := seesGap_false st hg
    rw [endStage_adopt last st front rest hm hg]
    refine ⟨?_, rfl⟩
    simp [hm]

/-- From a window whose limit is the host's constant value, a transition that
leaves a non-empty window has adopted the head of the queue. -/
theorem endStage_resolved_again (L : SequenceNumber) (st : ReplayIteratorImpl)
    (hl : st.rs_.seq_limit_ = L)
    (hw : (endStage L st).rs_.seq_start_ < (endStage L st).rs_.seq_limit_) :
    (endStage L st).mems_.length + 1 = st.mems_.length := by
  cases hg : st.seesGap with
  | true =>
    rw [endStage_gap L st hg] at hw
    have hw' : st.rs_.seq_limit_ < L := hw
    rw [hl] at hw'
    exact absurd hw' (Nat.lt_irrefl _)
  | false =>
    obtain ⟨front, rest, hm, _⟩ := seesGap_false st hg
    rw [endStage_adopt L st front rest hm hg]
    simp [hm]

/-- With the limit already at the host's constant value `L`, the loop of
`Prime` needs at most one transition more than there are pending buffers. -/
theorem primeLoop_resolved_terminates (L : SequenceNumber) (db : List SequenceNumber)
    (st : ReplayIteratorImpl) (hdb : ∀ x ∈ db, x = L) (hl : st.rs_.seq_limit_ = L)
    (hk : st.mems_.length + 1 ≤ db.length) :
    primeLoop db st ≠ .error Fault.noMoreReadings ∧
    primeLoopTransitions db st ≤ st.mems_.length + 1 := by
  induction db generalizing st with
  | nil => simp at hk
  | cons l db ih =>
    have hl' : l = L := hdb l (List.mem_cons_self _ _)
    subst hl'
    have hdb' : ∀ x ∈ db, x = l := fun x hx => hdb x (List.mem_cons_of_mem _ hx)
    constructor
    · rcases primeLoop_cases (l :: db) st with ⟨_, e⟩ | ⟨it, hi, hr, e⟩ | ⟨it, hi, hr, he, e⟩ |
        ⟨it, hi, hr, he, hd, e⟩ | ⟨it, last, db', hi, hr, he, hd, _, e⟩ |
        ⟨it, last, db', m, hi, hr, he, hd, _, hw, e⟩ |
        ⟨it, last, db', m, hi, hr, he, hd, _, hw, e⟩
      · rw [e]; simp
      · rw [e]; simp
      · rw [e]; simp
      · cases hd
      · rw [e]; simp
      · rw [e]; simp
      · injection hd with h1 h2
        subst h1 h2
        rw [e]
        have hfr := scanAll_frame st it
        have hl1 : (scanAll st it).1.rs_.seq_limit_ = l := by rw [hfr.1]; exact hl
        have hq := endStage_resolved_again l _ hl1 hw
        rw [hfr.2.1] at hq
        refine (ih ((endStage l (scanAll st it).1).withIter m.NewIterator.SeekToFirst) hdb'
          (endStage_queue_le l (scanAll st it).1).2 ?_).1
        show (endStage l (scanAll st it).1).mems_.length + 1 ≤ db.length
        simp only [List.length_cons] at hk
        omega
    · rcases primeLoopTransitions_cases (l :: db) st with h | ⟨it, last, db', m, hi, hr, he, hd,
        _, hw, e⟩
      · omega
      · injection hd with h1 h2
        subst h1 h2
        rw [e]
        have hfr := scanAll_frame st it
        have hl1 : (scanAll st it).1.rs_.seq_limit_ = l := by rw [hfr.1]; exact hl
        have hq := endStage_resolved_again l _ hl1 hw
        rw [hfr.2.1] at hq
        have := (ih ((endStage l (scanAll st it).1).withIter m.NewIterator.SeekToFirst) hdb'
          (endStage_queue_le l (scanAll st it).1).2 (by
            show (endStage l (scanAll st it).1).mems_.length + 1 ≤ db.length
            simp only [List.length_cons] at hk
            omega)).2
        have hlen : ((endStage l (scanAll st it).1).withIter
            m.NewIterator.SeekToFirst).mems_.length = (endStage l (scanAll st it).1).mems_.length :=
          rfl
        rw [hlen] at this
        omega

/-- With the host's max sequence constant, the loop of `Prime` needs at most
two transitions more than there are pending buffers. -/
theorem primeLoop_terminates (L : SequenceNumber) (db : List SequenceNumber)
    (st : ReplayIteratorImpl) (hdb : ∀ x ∈ db, x = L)
    (hk : st.mems_.length + 2 ≤ db.length) :
    primeLoop db st ≠ .error Fault.noMoreReadings ∧
    primeLoopTransitions db st ≤ st.mems_.length + 2 := by
  cases db with
  | nil => simp at hk
  | cons l db =>
    have hl' : l = L := hdb l (List.mem_cons_self _ _)
    subst hl'
    have hdb' : ∀ x ∈ db, x = l := fun x hx => hdb x (List.mem_cons_of_mem _ hx)
    constructor
    · rcases primeLoop_cases (l :: db) st with ⟨_, e⟩ | ⟨it, hi, hr, e⟩ | ⟨it, hi, hr, he, e⟩ |
        ⟨it, hi, hr, he, hd, e⟩ | ⟨it, last, db', hi, hr, he, hd, _, e⟩ |
        ⟨it, last, db', m, hi, hr, he, hd, _, hw, e⟩ |
        ⟨it, last, db', m, hi, hr, he, hd, _, hw, e⟩
      · rw [e]; simp
      · rw [e]; simp
      · rw [e]; simp
      · cases hd
      · rw [e]; simp
      · rw [e]; simp
      · injection hd with h1 h2
        subst h1 h2
        rw [e]
        have hfr := scanAll_frame st it
        have hq := (endStage_queue_le l (scanAll st it).1).1
        rw [hfr.2.1] at hq
        refine (primeLoop_resolved_terminates l db
          ((endStage l (scanAll st it).1).withIter m.NewIterator.SeekToFirst) hdb'
          (endStage_queue_le l (scanAll st it).1).2 ?_).1
        show (endStage l (scanAll st it).1).mems_.length + 1 ≤ db.length
        simp only [List.length_cons] at hk
        omega
    · rcases primeLoopTransitions_cases (l :: db) st with h | ⟨it, last, db', m, hi, hr, he, hd,
        _, hw, e⟩
      · omega
      · injection hd with h1 h2
        subst h1 h2
        rw [e]
        have hfr := scanAll_frame st it
        have hq := (endStage_queue_le l (scanAll st it).1).1
        rw [hfr.2.1] at hq
        have := (primeLoop_resolved_terminates l db
          ((endStage l (scanAll st it).1).withIter m.NewIterator.SeekToFirst) hdb'
          (endStage_queue_le l (scanAll st it).1).2 (by
            show (endStage l (scanAll st it).1).mems_.length + 1 ≤ db.length
            simp only [List.length_cons] at hk
            omega)).2
        have hlen : ((endStage l (scanAll st it).1).withIter
            m.NewIterator.SeekToFirst).mems_.length = (endStage l (scanAll st it).1).mems_.length :=
          rfl
        rw [hlen] at this
        omega

/-! ## Null pointers -/

theorem BuffersAtHand_frame (m : MemTable) (s : SequenceNumber) (st st' : ReplayIteratorImpl)
    (h1 : st'.rs_.mem_ = st.rs_.mem_) (h2 : st'.rs_.seq_start_ = st.rs_.seq_start_)
    (h4 : st'.mems_ = st.mems_) (h : st.BuffersAtHand m s) : st'.BuffersAtHand m s := by
  unfold BuffersAtHand at h ⊢
  rw [h1, h2, h4]
  exact h

/-- In the initial stage the first transition adopts the constructor's buffer. -/
theorem endStage_initial (m : MemTable) (s last : SequenceNumber) (st : ReplayIteratorImpl)
    (hs : st.rs_.seq_start_ = s) (rest : List ReplayState)
    (hm : st.mems_ = ReplayState.ofMemTable (some m) s :: rest) :
    st.seesGap = false ∧ (endStage last st).rs_.mem_ = some m := by
  have hg : st.seesGap = false := by
    simp [seesGap, hm, hs, ReplayState.ofMemTable]
  refine ⟨hg, ?_⟩
  rw [endStage_adopt last st _ rest hm hg]
  rfl

theorem BuffersAtHand_endStage (m : MemTable) (s last : SequenceNumber)
    (st : ReplayIteratorImpl) (h : st.BuffersAtHand m s) :
    (endStage last st).BuffersAtHand m s ∧ (endStage last st).rs_.mem_ ≠ none := by
  obtain ⟨hq, hc⟩ := h
  cases hg : st.seesGap with
  | true =>
    rcases hc with hc | ⟨hs, rest, hm⟩
    · rw [endStage_gap last st hg]
      exact ⟨⟨hq, Or.inl hc⟩, hc⟩
    · rw [(endStage_initial m s last st hs rest hm).1] at hg
      cases hg
  | false =>
    obtain ⟨front, rest, hm, _⟩ := seesGap_false st hg
    rw [endStage_adopt last st front rest hm hg]
    have hf : front.mem_ ≠ none := hq front (by rw [hm]; exact List.mem_cons_self _ _)
    exact ⟨⟨fun r hr => hq r (by rw [hm]; exact List.mem_cons_of_mem _ hr), Or.inl hf⟩, hf⟩

theorem BuffersAtHand_enqueue (m : MemTable) (s : SequenceNumber) (b : Option MemTable)
    (s' : SequenceNumber) (st st' : ReplayIteratorImpl) (he : enqueue b s' st = .ok st')
    (h : st.BuffersAtHand m s) : st'.BuffersAtHand m s := by
  unfold enqueue at he
  cases b with
  | none => cases he
  | some b =>
    injection he with he
    subst he
    obtain ⟨hq, hc⟩ := h
    refine ⟨?_, ?_⟩
    · intro r hr
      rcases List.mem_append.1 hr with hr | hr
      · exact hq r hr
      · have : r = ReplayState.ofMemTable (some b) s' := by simpa using hr
        subst this
        simp [ReplayState.ofMemTable]
    · rcases hc with hc | ⟨hs, rest, hm⟩
      · exact Or.inl hc
      · exact Or.inr ⟨hs, rest ++ [ReplayState.ofMemTable (some b) s'], by simp [hm]⟩

/-- With the buffers at hand and a raw iterator in place, the loop of `Prime`
meets no null pointer, and leaves a raw iterator in place. -/
theorem primeLoop_no_null (m : MemTable) (s : SequenceNumber) (db : List SequenceNumber)
    (st : ReplayIteratorImpl) (hi : st.rs_.iter_ ≠ none) (h : st.BuffersAtHand m s) :
    primeLoop db st ≠ .error Fault.nullIterator ∧
    primeLoop db st ≠ .error Fault.nullMemTable ∧
    ∀ st', primeLoop db st = .ok st' → st'.rs_.iter_ ≠ none := by
  induction db generalizing st with
  | nil =>
    rcases primeLoop_cases [] st with ⟨hn, _⟩ | ⟨it, _, hr, e⟩ | ⟨it, _, hr, he, e⟩ |
      ⟨it, _, hr, he, _, e⟩ | ⟨it, last, db', _, hr, he, hd, _, e⟩ |
      ⟨it, last, db', m', _, hr, he, hd, _, _, e⟩ | ⟨it, last, db', m', _, hr, he, hd, _, _, e⟩
    · exact absurd hn hi
    · rw [e]
      refine ⟨by simp, by simp, fun st' h' => ?_⟩
      injection h' with h'
      subst h'
      simp [withIter]
    · rw [e]
      refine ⟨by simp, by simp, fun st' h' => ?_⟩
      injection h' with h'
      subst h'
      simp [withIter]
    · rw [e]
      exact ⟨by simp, by simp, fun st' h' => by cases h'⟩
    · cases hd
    · cases hd
    · cases hd
  | cons l db ih =>
    rcases primeLoop_cases (l :: db) st with ⟨hn, _⟩ | ⟨it, _, hr, e⟩ | ⟨it, _, hr, he, e⟩ |
      ⟨it, _, hr, he, hd, e⟩ | ⟨it, last, db', _, hr, he, hd, hm, e⟩ |
      ⟨it, last, db', m', _, hr, he, hd, hm, _, e⟩ |
      ⟨it, last, db', m', _, hr, he, hd, hm, _, e⟩
    · exact absurd hn hi
    · rw [e]
      refine ⟨by simp, by simp, fun st' h' => ?_⟩
      injection h' with h'
      subst h'
      simp [withIter]
    · rw [e]
      refine ⟨by simp, by simp, fun st' h' => ?_⟩
      injection h' with h'
      subst h'
      simp [withIter]
    · cases hd
    · have hfr := scanAll_frame st it
      have h1 : (scanAll st it).1.BuffersAtHand m s :=
        BuffersAtHand_frame m s st _ (by rw [hfr.1]) (by rw [hfr.1]) hfr.2.1 h
      exact absurd hm (BuffersAtHand_endStage m s last _ h1).2
    · rw [e]
      refine ⟨by simp, by simp, fun st' h' => ?_⟩
      injection h' with h'
      subst h'
      simp [withIter]
    · injection hd with h1 h2
      subst h1 h2
      rw [e]
      have hfr := scanAll_frame st it
      have h1 : (scanAll st it).1.BuffersAtHand m s :=
        BuffersAtHand_frame m s st _ (by rw [hfr.1]) (by rw [hfr.1]) hfr.2.1 h
      have h2 := (BuffersAtHand_endStage m s l _ h1).1
      exact ih ((endStage l (scanAll st it).1).withIter m'.NewIterator.SeekToFirst)
        (by simp [withIter]) (BuffersAtHand_frame m s _ _ rfl rfl rfl h2)

/-- The same for a call, which also keeps the buffers at hand. -/
theorem call_no_null (m : MemTable) (s : SequenceNumber) (c : Call)
    (st : ReplayIteratorImpl) (hc : ∀ s', c ≠ Call.enqueue none s')
    (hi : st.rs_.iter_ ≠ none) (h : st.BuffersAtHand m s) :
    st.call c ≠ .error Fault.nullIterator ∧ st.call c ≠ .error Fault.nullMemTable ∧
    ∀ st', st.call c = .ok st' → st'.rs_.iter_ ≠ none ∧ st'.BuffersAtHand m s := by
  have hkeep : ∀ st', st.call c = .ok st' → st'.BuffersAtHand m s := fun st' h' =>
    call_preserves (BuffersAtHand m s)
      (fun a b h1 h2 _ h4 _ hP => BuffersAtHand_frame m s a b h1 h2 h4 hP)
      (fun last a hP => (BuffersAtHand_endStage m s last a hP).1)
      (fun b s' a a' he hP => BuffersAtHand_enqueue m s b s' a a' he hP) c st st' h' h
  have hprime : ∀ (db : List SequenceNumber) (a : ReplayIteratorImpl), a.rs_.iter_ ≠ none →
      a.BuffersAtHand m s →
      Prime db a ≠ .error Fault.nullIterator ∧ Prime db a ≠ .error Fault.nullMemTable ∧
      ∀ st', Prime db a = .ok st' → st'.rs_.iter_ ≠ none := by
    intro db a ha hb
    cases hs : a.status_.ok with
    | false =>
      rw [Prime_failed db a hs]
      refine ⟨by simp, by simp, fun st' h' => ?_⟩
      injection h' with h'
      subst h'
      exact ha
    | true =>
      rw [Prime_eq_primeLoop db a hs]
      exact primeLoop_no_null m s db { a with valid_ := false } ha
        (BuffersAtHand_frame m s a _ rfl rfl rfl hb)
  cases c with
  | Valid db =>
    obtain ⟨p1, p2, p3⟩ := hprime db st hi h
    have hcall : st.call (Call.Valid db) =
        match Prime db st with
        | .ok st1 => .ok st1
        | .error f => .error f := by
      simp only [call, Valid]
      cases Prime db st <;> rfl
    refine ⟨?_, ?_, fun st' h' => ⟨?_, hkeep st' h'⟩⟩
    · rw [hcall]
      cases hp : Prime db st with
      | error f =>
        intro hf
        injection hf with hf
        subst hf
        exact p1 hp
      | ok st1 => simp
    · rw [hcall]
      cases hp : Prime db st with
      | error f =>
        intro hf
        injection hf with hf
        subst hf
        exact p2 hp
      | ok st1 => simp
    · rw [hcall] at h'
      cases hp : Prime db st with
      | error f => rw [hp] at h'; cases h'
      | ok st1 =>
        rw [hp] at h'
        injection h' with h'
        subst h'
        exact p3 _ hp
  | Next db =>
    cases hit : st.rs_.iter_ with
    | none => exact absurd hit hi
    | some it =>
      by_cases hv : it.Valid = true
      · have hcall : st.call (Call.Next db) = Prime db (st.withIter it.Next) := by
          simp [call, Next, hit, hv, withIter]
        obtain ⟨p1, p2, p3⟩ := hprime db (st.withIter it.Next) (by simp [withIter])
          (BuffersAtHand_frame m s st _ rfl rfl rfl h)
        exact ⟨by rw [hcall]; exact p1, by rw [hcall]; exact p2,
          fun st' h' => ⟨p3 st' (by rw [← hcall]; exact h'), hkeep st' h'⟩⟩
      · have hcall : st.call (Call.Next db) = .error Fault.rawNotValid := by
          simp [call, Next, hit, hv]
        rw [hcall]
        exact ⟨by simp, by simp, fun st' h' => by cases h'⟩
  | enqueue b s' =>
    cases b with
    | none => exact absurd rfl (hc s')
    | some b =>
      have hcall : st.call (Call.enqueue (some b) s') =
          .ok { st with refLog := st.refLog ++ [RefEvent.Ref b.id]
                        mems_ := st.mems_ ++ [ReplayState.ofMemTable (some b) s'] } := rfl
      refine ⟨by rw [hcall]; simp, by rw [hcall]; simp, fun st' h' => ⟨?_, hkeep st' h'⟩⟩
      rw [hcall] at h'
      injection h' with h'
      subst h'
      exact hi

/-- The same for a sequence of calls. -/
theorem calls_no_null (m : MemTable) (s : SequenceNumber) (cs : List Call)
    (st : ReplayIteratorImpl) (hcs : ∀ c ∈ cs, ∀ s', c ≠ Call.enqueue none s')
    (hi : st.rs_.iter_ ≠ none) (h : st.BuffersAtHand m s) :
    st.calls cs ≠ .error Fault.nullIterator ∧ st.calls cs ≠ .error Fault.nullMemTable ∧
    ∀ st', st.calls cs = .ok st' → st'.rs_.iter_ ≠ none ∧ st'.BuffersAtHand m s := by
  induction cs generalizing st with
  | nil =>
    refine ⟨by simp [calls], by simp [calls], fun st' h' => ?_⟩
    simp only [calls] at h'
    injection h' with h'
    subst h'
    exact ⟨hi, h⟩
  | cons c cs ih =>
    obtain ⟨c1, c2, c3⟩ := call_no_null m s c st (hcs c (List.mem_cons_self _ _)) hi h
    cases hc : st.call c with
    | error f =>
      have hrun : st.calls (c :: cs) = .error f := by simp [calls, hc]
      rw [hrun]
      refine ⟨?_, ?_, fun st' h' => by cases h'⟩
      · intro hf
        injection hf with hf
        subst hf
        exact c1 hc
      · intro hf
        injection hf with hf
        subst hf
        exact c2 hc
    | ok st1 =>
      rw [calls_cons_of_ok c cs st st1 hc]
      obtain ⟨i1, b1⟩ := c3 st1 hc
      exact ih st1 (fun c' hc' => hcs c' (List.mem_cons_of_mem _ hc')) i1 b1

/-! ## The selection as a filter -/

theorem InternalKeyOrder_of_ordered {cmp : Comparator} {e1 e2 : Entry}
    (h : internalKeyOrdered cmp e1 e2 = true) : InternalKeyOrder cmp e1 e2 := by
  unfold internalKeyOrdered at h
  split at h
  · rename_i k1 k2 h1 h2
    refine ⟨k1, k2, h1, h2, ?_⟩
    simp only [Bool.or_eq_true, decide_eq_true_eq, Bool.and_eq_true, beq_iff_eq] at h
    exact h
  · cases h

/-- In a sorted run, a record between two records of one user key has that
user key. -/
theorem key_between (cmp : Comparator) (hzero : ∀ a b, cmp a b = 0 ↔ a = b)
    (hasym : ∀ a b, cmp a b < 0 → ¬ cmp b a < 0) (k : Slice) (x e y : Entry)
    (hxe : InternalKeyOrder cmp x e) (hey : InternalKeyOrder cmp e y)
    (hx : x.hasUserKey k = true) (hy : y.hasUserKey k = true) : e.hasUserKey k = true := by
  obtain ⟨a, b, ha, hb, hab⟩ := hxe
  obtain ⟨b', c, hb', hc, hbc⟩ := hey
  rw [hb] at hb'
  injection hb' with hb'
  subst hb'
  obtain ⟨a', ha', hak⟩ := hasUserKey_iff.1 hx
  obtain ⟨c', hc', hck⟩ := hasUserKey_iff.1 hy
  rw [ha] at ha'
  injection ha' with ha'
  subst ha'
  rw [hc] at hc'
  injection hc' with hc'
  subst hc'
  rw [hak] at hab
  rw [hck] at hbc
  apply hasUserKey_iff.2
  refine ⟨b, hb, ?_⟩
  rcases hab with h1 | ⟨h1, _⟩
  · rcases hbc with h2 | ⟨h2, _⟩
    · exact absurd h2 (hasym _ _ h1)
    · exact (hzero _ _).1 h2
  · exact ((hzero _ _).1 h1).symm

/-- In a sorted run two records of one user key at different places are
different records. -/
theorem ne_of_order (cmp : Comparator) (hzero : ∀ a b, cmp a b = 0 ↔ a = b)
    (x e : Entry) (hxe : InternalKeyOrder cmp x e) : x ≠ e := by
  intro h
  subst h
  obtain ⟨a, b, ha, hb, hab⟩ := hxe
  rw [ha] at hb
  injection hb with hb
  subst hb
  rcases hab with h | ⟨_, h⟩
  · rw [(hzero a.user_key a.user_key).2 rfl] at h
    exact absurd h (by decide)
  · exact Nat.lt_irrefl _ h

/-- The first-seen-wins selection over the tail `suf` of a sorted run
`pre ++ suf`, entered with a last-seen key that is a key of `pre` when there is
one, picks the records of `suf` that are the first of their user key in the run
and are shown in the window. -/
theorem firstSeen_eq_filter (cmp : Comparator) (rs : ReplayState)
    (hzero : ∀ a b, cmp a b = 0 ↔ a = b) (hasym : ∀ a b, cmp a b < 0 → ¬ cmp b a < 0)
    (pre suf : List Entry) (last : Option Slice)
    (hparse : ∀ e ∈ suf, ParseInternalKey e.key ≠ none)
    (hsorted : (pre ++ suf).Pairwise (InternalKeyOrder cmp))
    (hlast : ∀ y ∈ suf, ∀ k, y.hasUserKey k = true →
      (opensKey cmp last k = false ↔ ∃ x ∈ pre, x.hasUserKey k = true)) :
    firstSeen cmp rs last suf =
      suf.filter (fun e => firstOfItsKey (pre ++ suf) e && e.shownIn rs) := by
  induction suf generalizing pre last with
  | nil => rfl
  | cons e suf ih =>
    have hall : pre ++ e :: suf = (pre ++ [e]) ++ suf := by simp
    obtain ⟨ik, hik⟩ : ∃ ik, ParseInternalKey e.key = some ik := by
      cases h : ParseInternalKey e.key with
      | none => exact absurd h (hparse e (List.mem_cons_self _ _))
      | some ik => exact ⟨ik, rfl⟩
    have hek : e.hasUserKey ik.user_key = true := hasUserKey_iff.2 ⟨ik, hik, rfl⟩
    have hpw := List.pairwise_append.1 hsorted
    have hpre_e : ∀ x ∈ pre, InternalKeyOrder cmp x e :=
      fun x hx => hpw.2.2 x hx e (List.mem_cons_self _ _)
    have he_suf : ∀ y ∈ suf, InternalKeyOrder cmp e y :=
      fun y hy => (List.pairwise_cons.1 hpw.2.1).1 y hy
    have hopen := hlast e (List.mem_cons_self _ _) ik.user_key hek
    -- the record is the first of its key iff no record before it has the key
    have hfirst : firstOfItsKey (pre ++ e :: suf) e =
        opensKey cmp last ik.user_key := by
      unfold firstOfItsKey
      rw [hik]
      dsimp only
      cases ho : opensKey cmp last ik.user_key with
      | true =>
        have hnone : ∀ x ∈ pre, ¬ (x.hasUserKey ik.user_key = true) := by
          intro x hx hxk
          have := hopen.2 ⟨x, hx, hxk⟩
          rw [ho] at this
          cases this
        have h1 : pre.find? (Entry.hasUserKey ik.user_key) = none :=
          List.find?_eq_none.2 hnone
        rw [List.find?_append, h1, List.find?_cons_of_pos _ hek]
        simp
      | false =>
        obtain ⟨x, hx, hxk⟩ := hopen.1 ho
        cases hf : pre.find? (Entry.hasUserKey ik.user_key) with
        | none => exact absurd hxk (List.find?_eq_none.1 hf x hx)
        | some x0 =>
          rw [List.find?_append, hf]
          have hx0 : x0 ∈ pre := List.mem_of_find?_eq_some hf
          have hne : x0 ≠ e := ne_of_order cmp hzero x0 e (hpre_e x0 hx0)
          simp [hne]
    -- the last-seen key after this record
    have hnext : ∀ last', (last' = some ik.user_key) →
        ∀ y ∈ suf, ∀ k, y.hasUserKey k = true →
          (opensKey cmp last' k = false ↔ ∃ x ∈ pre ++ [e], x.hasUserKey k = true) := by
      intro last' hl y hy k hyk
      subst hl
      have hiff : opensKey cmp (some ik.user_key) k = false ↔ k = ik.user_key := by
        simp [opensKey, hzero]
      rw [hiff]
      constructor
      · intro hk
        subst hk
        exact ⟨e, by simp, hek⟩
      · rintro ⟨x, hx, hxk⟩
        rcases List.mem_append.1 hx with hx | hx
        · have hke := key_between cmp hzero hasym k x e y (hpre_e x hx) (he_suf y hy) hxk hyk
          obtain ⟨i, hi, hik'⟩ := hasUserKey_iff.1 hke
          rw [hik] at hi
          injection hi with hi
          subst hi
          exact hik'.symm
        · have : x = e := by simpa using hx
          subst this
          obtain ⟨i, hi, hik'⟩ := hasUserKey_iff.1 hxk
          rw [hik] at hi
          injection hi with hi
          subst hi
          exact hik'.symm
    have hparse' : ∀ x ∈ suf, ParseInternalKey x.key ≠ none :=
      fun x hx => hparse x (List.mem_cons_of_mem _ hx)
    have hsorted' : ((pre ++ [e]) ++ suf).Pairwise (InternalKeyOrder cmp) := by
      rw [← hall]; exact hsorted
    have hshown : e.shownIn rs = rs.shows ik := by simp [Entry.shownIn, hik]
    simp only [firstSeen, hik]
    rw [List.filter_cons, hfirst, hshown]
    cases ho : opensKey cmp last ik.user_key with
    | true =>
      have ih' := ih (pre ++ [e]) (some ik.user_key) hparse' hsorted' (hnext _ rfl)
      rw [← hall] at ih'
      cases hsh : rs.shows ik with
      | true => simp only [if_true, Bool.and_self, ih']
      | false => simp only [Bool.false_eq_true, if_false, Bool.and_false, ih', if_true]
    | false =>
      have hl : last = some ik.user_key := by
        cases last with
        | none => simp [opensKey] at ho
        | some c =>
          have : cmp ik.user_key c = 0 := by simpa [opensKey] using ho
          rw [(hzero _ _).1 this]
      have ih' := ih (pre ++ [e]) last hparse' hsorted' (hnext _ hl)
      rw [← hall] at ih'
      simp only [Bool.false_eq_true, if_false, Bool.false_and, ih']

/-! ## Any mix of `Valid()` and `Next()` within a stage -/

/-- Where the scan sets `valid_`, the last-seen user key is the user key of the
record under the cursor. -/
theorem scanLoop_valid_lastSeen (n : Nat) (st : ReplayIteratorImpl) (it : Iterator)
    (hv : st.valid_ = false) (hv' : (scanLoop n st it).1.valid_ = true) :
    ∃ e ikey, (scanLoop n st it).2.1.current = some e ∧ ParseInternalKey e.key = some ikey ∧
      (scanLoop n st it).1.lastSeen = some ikey.user_key := by
  induction n generalizing st it with
  | zero =>
    simp only [scanLoop] at hv'
    rw [hv] at hv'
    cases hv'
  | succ n ih =>
    rcases scanLoop_cases n st it with ⟨he, h⟩ | ⟨e, he, hk, h⟩ | ⟨e, ikey, he, hk, hnew, hs, h⟩ |
      ⟨e, ikey, he, hk, hnew, hs, h⟩ | ⟨e, ikey, he, hk, hnew, h⟩
    · rw [h] at hv'
      simp only at hv'
      rw [hv] at hv'
      cases hv'
    · rw [h] at hv'
      simp only at hv'
      rw [hv] at hv'
      cases hv'
    · rw [h]
      exact ⟨e, ikey, he, hk, by simp [lastSeen, sees]⟩
    · rw [h] at hv' ⊢
      exact ih _ _ (by simp [sees, hv]) hv'
    · rw [h] at hv' ⊢
      exact ih _ _ hv hv'

/-- With no host reading at hand, `Prime` returns valid only on a record whose
user key is the last-seen one. -/
theorem Prime_nil_onLastSeen (st st1 : ReplayIteratorImpl) (h : Prime [] st = .ok st1)
    (hv : st1.valid_ = true) : ∃ it1, st1.OnLastSeen it1 := by
  cases hs : st.status_.ok with
  | false =>
    rw [Prime_failed [] st hs] at h
    injection h with h
    subst h
    cases hv
  | true =>
    rw [Prime_eq_primeLoop [] st hs] at h
    rcases primeLoop_cases [] { st with valid_ := false } with ⟨_, e⟩ | ⟨it, hi, hr, e⟩ |
      ⟨it, hi, hr, he, e⟩ | ⟨it, hi, hr, he, _, e⟩ | ⟨it, last, db', hi, hr, he, hd, _, e⟩ |
      ⟨it, last, db', m, hi, hr, he, hd, _, _, e⟩ | ⟨it, last, db', m, hi, hr, he, hd, _, _, e⟩
    · rw [e] at h; cases h
    · rw [e] at h
      injection h with h
      subst h
      have hv2 : (scanLoop (it.entries.length - it.pos) { st with valid_ := false } it).1.valid_
          = true := hv
      obtain ⟨x, ikey, hx, hk, hl⟩ := scanLoop_valid_lastSeen _ _ it rfl hv2
      exact ⟨_, rfl, x, ikey, hx, hk, hl⟩
    · rw [e] at h
      injection h with h
      subst h
      cases hv
    · rw [e] at h; cases h
    · cases hd
    · cases hd
    · cases hd

/-- With no host reading at hand, `Prime` returns not valid only with a status
that is not ok. -/
theorem Prime_nil_not_valid (st st1 : ReplayIteratorImpl) (h : Prime [] st = .ok st1)
    (hv : st1.valid_ = false) : st1.status_.ok = false := by
  cases hs : st.status_.ok with
  | false =>
    rw [Prime_failed [] st hs] at h
    injection h with h
    subst h
    exact hs
  | true =>
    rw [Prime_eq_primeLoop [] st hs] at h
    rcases primeLoop_cases [] { st with valid_ := false } with ⟨_, e⟩ | ⟨it, hi, hr, e⟩ |
      ⟨it, hi, hr, he, e⟩ | ⟨it, hi, hr, he, _, e⟩ | ⟨it, last, db', hi, hr, he, hd, _, e⟩ |
      ⟨it, last, db', m, hi, hr, he, hd, _, _, e⟩ | ⟨it, last, db', m, hi, hr, he, hd, _, _, e⟩
    · rw [e] at h; cases h
    · rw [e] at h
      injection h with h
      subst h
      rcases scanLoop_returned _ { st with valid_ := false } it hr with ⟨h1, _⟩ | ⟨_, h2, _⟩
      · have hv2 : (scanLoop (it.entries.length - it.pos) { st with valid_ := false } it).1.valid_
            = false := hv
        rw [hv2] at h1
        cases h1
      · show (scanLoop (it.entries.length - it.pos) { st with valid_ := false } it).1.status_.ok
            = false
        rw [h2]
        rfl
    · rw [e] at h
      injection h with h
      subst h
      exact he
    · rw [e] at h; cases h
    · cases hd
    · cases hd
    · cases hd

/-- Once the status is not ok, no call hands out a record. -/
theorem driveMixed_failed (ops : List Bool) (st : ReplayIteratorImpl)
    (hs : st.status_.ok = false) : st.driveMixed ops = [] := by
  induction ops generalizing st with
  | nil => rfl
  | cons next ops ih =>
    unfold driveMixed
    cases next with
    | false =>
      simp only [Bool.false_eq_true, if_false, Prime_failed [] st hs]
      have h0 := ih { st with valid_ := false } hs
      simp [h0]
    | true =>
      simp only [if_true]
      cases hr : Next [] st with
      | error f => rfl
      | ok st1 =>
        have hs1 : st1.status_.ok = false := by
          have := call_failed (Call.Next []) st st1 hs hr
          rw [this]
          exact hs
        have hv1 : st1.valid_ = false := by
          rcases Bool.eq_false_or_eq_true st1.valid_ with hv | hv
          · exfalso
            simp only [Next] at hr
            split at hr
            · cases hr
            · split at hr
              · rename_i it _ _
                rcases Prime_outcome [] _ st1 hr with ⟨_, h, _⟩ | ⟨h, _⟩ | ⟨h, _⟩
                · rw [hs1] at h; cases h
                · rw [hv] at h; cases h
                · rw [hv] at h; cases h
              · cases hr
          · exact hv
        simp [hv1, ih _ hs1]

/-- On a record whose user key is the last-seen one, the selection from the
cursor on is the selection after the cursor. -/
theorem firstSeen_onLastSeen (st : ReplayIteratorImpl) (it : Iterator)
    (hzero : ∀ a b, st.user_comparator_ a b = 0 ↔ a = b) (hon : st.OnLastSeen it) :
    firstSeen st.user_comparator_ st.rs_ st.lastSeen (it.entries.drop it.pos) =
      firstSeen st.user_comparator_ st.rs_ st.lastSeen (it.entries.drop (it.pos + 1)) := by
  obtain ⟨_, e, ikey, he, hk, hl⟩ := hon
  rw [drop_of_current he, hl]
  simp [firstSeen, hk, opensKey, hzero]

/-- One call, `Next()` or `Valid()`, made on a record whose user key is the
last-seen one: it lands on the next record of the selection after the cursor,
or does not return valid when there is none. -/
theorem mixed_step (next : Bool) (st : ReplayIteratorImpl) (it : Iterator)
    (hs : st.status_.ok = true) (hzero : ∀ a b, st.user_comparator_ a b = 0 ↔ a = b)
    (hon : st.OnLastSeen it) :
    (∃ st1 it1 e, (if next then Next [] st else Prime [] st) = .ok st1 ∧
      st1.valid_ = true ∧ st1.status_.ok = true ∧ st1.OnLastSeen it1 ∧
      st1.cursor = some e ∧ st1.user_comparator_ = st.user_comparator_ ∧
      firstSeen st.user_comparator_ st.rs_ st.lastSeen (it.entries.drop (it.pos + 1)) =
        e :: firstSeen st1.user_comparator_ st1.rs_ st1.lastSeen
          (it1.entries.drop (it1.pos + 1))) ∨
    ((∀ st1, (if next then Next [] st else Prime [] st) = .ok st1 →
        st1.valid_ = false ∧ st1.status_.ok = false) ∧
      firstSeen st.user_comparator_ st.rs_ st.lastSeen (it.entries.drop (it.pos + 1)) = []) := by
  have hi := hon.1
  have hcur : it.Valid = true := by
    obtain ⟨_, e, _, he, _⟩ := hon
    simp only [Iterator.current] at he
    have := (List.getElem?_eq_some.1 he).1
    simp [Iterator.Valid, this]
  -- both calls run `Prime` on a state whose selection from the cursor is `R`
  have key : ∀ (s0 : ReplayIteratorImpl) (i0 : Iterator), s0.status_.ok = true →
      s0.rs_.iter_ = some i0 → s0.user_comparator_ = st.user_comparator_ →
      s0.rs_.seq_start_ = st.rs_.seq_start_ → s0.rs_.seq_limit_ = st.rs_.seq_limit_ →
      s0.lastSeen = st.lastSeen → i0.entries = it.entries →
      firstSeen st.user_comparator_ st.rs_ st.lastSeen (i0.entries.drop i0.pos) =
        firstSeen st.user_comparator_ st.rs_ st.lastSeen (it.entries.drop (it.pos + 1)) →
      (∃ st1 it1 e, Prime [] s0 = .ok st1 ∧
        st1.valid_ = true ∧ st1.status_.ok = true ∧ st1.OnLastSeen it1 ∧
        st1.cursor = some e ∧ st1.user_comparator_ = st.user_comparator_ ∧
        firstSeen st.user_comparator_ st.rs_ st.lastSeen (it.entries.drop (it.pos + 1)) =
          e :: firstSeen st1.user_comparator_ st1.rs_ st1.lastSeen
            (it1.entries.drop (it1.pos + 1))) ∨
      ((∀ st1, Prime [] s0 = .ok st1 → st1.valid_ = false ∧ st1.status_.ok = false) ∧
        firstSeen st.user_comparator_ st.rs_ st.lastSeen (it.entries.drop (it.pos + 1)) = []) := by
    intro s0 i0 h0s h0i h0c h0a h0b h0l h0e hR
    have hconv : ∀ last es, firstSeen s0.user_comparator_ s0.rs_ last es =
        firstSeen st.user_comparator_ st.rs_ last es := by
      intro last es
      rw [h0c]
      exact firstSeen_congr _ _ _ h0a h0b last es
    rcases Prime_nil_firstSeen s0 i0 h0s h0i with
      ⟨st1, it1, hP, hv1, hs1, hc1, hi1, hw1, hw2, he1, _, hF⟩ | ⟨hnv, hF⟩
    · left
      obtain ⟨it1', hon1⟩ := Prime_nil_onLastSeen s0 st1 hP hv1
      have hit : it1' = it1 := by
        have := hon1.1.symm.trans hi1
        injection this
      subst hit
      obtain ⟨e, ikey, hce, _, _⟩ := hon1.2
      refine ⟨st1, it1', e, hP, hv1, by rw [hs1]; exact h0s, hon1, by simp [cursor, hi1, hce],
        hc1.trans h0c, ?_⟩
      rw [← hR, ← h0l, ← hconv, hF, hce, hconv]
      simp only [Option.toList, List.singleton_append]
      congr 1
      rw [hc1, h0c, he1]
      exact firstSeen_congr _ _ _ (h0a.symm.trans hw1.symm) (h0b.symm.trans hw2.symm) _ _
    · right
      refine ⟨fun st1 h1 => ⟨hnv st1 h1, Prime_nil_not_valid s0 st1 h1 (hnv st1 h1)⟩, ?_⟩
      rw [← hR, ← h0l, ← hconv]
      exact hF
  cases next with
  | true =>
    have hN : Next [] st = Prime [] (st.withIter it.Next) := by
      simp [Next, hi, hcur, withIter]
    simp only [if_true]
    rw [hN]
    exact key (st.withIter it.Next) it.Next hs rfl rfl rfl rfl rfl rfl rfl
  | false =>
    simp only [Bool.false_eq_true, if_false]
    exact key st it hs hi rfl rfl rfl rfl rfl (firstSeen_onLastSeen st it hzero hon)

/-- From a record whose user key is the last-seen one, any mix of `Next()` and
`Valid()` hands out the selection after the cursor, one record per call. -/
theorem driveMixed_eq_take (ops : List Bool) (st : ReplayIteratorImpl) (it : Iterator)
    (hs : st.status_.ok = true) (hzero : ∀ a b, st.user_comparator_ a b = 0 ↔ a = b)
    (hon : st.OnLastSeen it) :
    st.driveMixed ops =
      (firstSeen st.user_comparator_ st.rs_ st.lastSeen
        (it.entries.drop (it.pos + 1))).take ops.length := by
  induction ops generalizing st it with
  | nil => simp [driveMixed]
  | cons next ops ih =>
    unfold driveMixed
    rcases mixed_step next st it hs hzero hon with
      ⟨st1, it1, e, hP, hv1, hs1, hon1, hc, hcmp, hF⟩ | ⟨hnv, hF⟩
    · rw [hP, hF]
      simp only [hv1, if_true, hc, Option.toList, List.singleton_append, List.length_cons,
        List.take_succ_cons]
      congr 1
      exact ih st1 it1 hs1 (by rw [hcmp]; exact hzero) hon1
    · rw [hF]
      cases hr : (if next then Next [] st else Prime [] st) with
      | error f => simp
      | ok st1 => simp [(hnv st1 hr).1, driveMixed_failed ops st1 (hnv st1 hr).2]

/-- From the head of a stage, a first `Valid()` followed by any mix of `Next()`
and `Valid()` hands out the selection, one record per call. -/
theorem driveMixed_fresh (ops : List Bool) (st : ReplayIteratorImpl) (it : Iterator)
    (hs : st.status_.ok = true) (hi : st.rs_.iter_ = some it)
    (hzero : ∀ a b, st.user_comparator_ a b = 0 ↔ a = b) :
    st.driveMixed (false :: ops) =
      (firstSeen st.user_comparator_ st.rs_ st.lastSeen
        (it.entries.drop it.pos)).take (ops.length + 1) := by
  unfold driveMixed
  simp only [Bool.false_eq_true, if_false]
  rcases Prime_nil_firstSeen st it hs hi with
    ⟨st1, it1, hP, hv1, hs1, hc1, hi1, hw1, hw2, he1, _, hF⟩ | ⟨hnv, hF⟩
  · obtain ⟨it1', hon1⟩ := Prime_nil_onLastSeen st st1 hP hv1
    have hit : it1' = it1 := by
      have := hon1.1.symm.trans hi1
      injection this
    subst hit
    obtain ⟨e, ikey, hce, _, _⟩ := hon1.2
    rw [hP, hF, hce]
    simp only [hv1, if_true, cursor, hi1, hce, Option.toList, List.singleton_append,
      List.take_succ_cons]
    congr 1
    rw [driveMixed_eq_take ops st1 it1' (by rw [hs1]; exact hs) (by rw [hc1]; exact hzero) hon1,
      hc1, he1]
    congr 1
    exact firstSeen_congr _ _ _ hw1 hw2 _ _
  · rw [hF]
    cases hr : Prime [] st with
    | error f => simp
    | ok st1 =>
      simp [hnv st1 hr, driveMixed_failed ops st1 (Prime_nil_not_valid st st1 hr (hnv st1 hr))]

/-- Every record of the selection is a record of the list it is taken from, lies
in the window and has kind Value or Deletion. -/
theorem mem_firstSeen (cmp : Comparator) (rs : ReplayState) (last : Option Slice)
    (es : List Entry) (e : Entry) (h : e ∈ firstSeen cmp rs last es) :
    e ∈ es ∧ e.shownIn rs = true := by
  induction es generalizing last with
  | nil => simp [firstSeen] at h
  | cons x xs ih =>
    simp only [firstSeen] at h
    cases hk : ParseInternalKey x.key with
    | none => rw [hk] at h; simp at h
    | some ikey =>
      rw [hk] at h
      dsimp only at h
      split at h
      · split at h
        · rename_i hsh
          rcases List.mem_cons.1 h with rfl | h
          · exact ⟨List.mem_cons_self _ _, by simp [Entry.shownIn, hk, hsh]⟩
          · exact ⟨List.mem_cons_of_mem _ (ih _ h).1, (ih _ h).2⟩
        · exact ⟨List.mem_cons_of_mem _ (ih _ h).1, (ih _ h).2⟩
      · exact ⟨List.mem_cons_of_mem _ (ih _ h).1, (ih _ h).2⟩

/-! ## Counting the acquisitions -/

/-- A stage transition makes no `Ref()` call. -/
theorem refCalls_endStage (id : Nat) (last : SequenceNumber) (st : ReplayIteratorImpl) :
    refCalls id (endStage last st).refLog = refCalls id st.refLog := by
  cases hg : st.seesGap with
  | true => rw [endStage_gap last st hg]
  | false =>
    obtain ⟨front, rest, hm, _⟩ := seesGap_false st hg
    rw [endStage_adopt last st front rest hm hg]
    show refCalls id (st.refLog ++ unrefEvents st.rs_.mem_) = refCalls id st.refLog
    rw [refCalls_append, refCalls_unrefEvents]
    rfl

/-- A call makes one `Ref()` call on the buffer it enqueues, and no other. -/
theorem call_refCalls (id : Nat) (c : Call) (st st' : ReplayIteratorImpl)
    (h : st.call c = .ok st') :
    refCalls id st'.refLog = refCalls id st.refLog + c.enters id := by
  have hP : ∀ db (s s' : ReplayIteratorImpl), Prime db s = .ok s' →
      refCalls id s'.refLog = refCalls id s.refLog := fun db s s' hp =>
    Prime_preserves (fun x => refCalls id x.refLog = refCalls id s.refLog)
      (fun a b _ _ _ _ h5 ha => by
        show refCalls id b.refLog = refCalls id s.refLog
        rw [h5]; exact ha)
      (fun last a ha => by
        show refCalls id (endStage last a).refLog = refCalls id s.refLog
        rw [refCalls_endStage]; exact ha) db s s' hp rfl
  cases c with
  | Valid db =>
    simp only [call, Valid] at h
    cases hp : Prime db st with
    | error f => rw [hp] at h; cases h
    | ok st1 =>
      rw [hp] at h
      injection h with h
      subst h
      simpa [Call.enters] using hP db st _ hp
  | Next db =>
    simp only [call, Next] at h
    split at h
    · cases h
    · split at h
      · simpa [Call.enters] using hP db _ st' h
      · cases h
  | enqueue m s =>
    simp only [call, enqueue] at h
    cases m with
    | none => cases h
    | some b =>
      injection h with h
      subst h
      show refCalls id (st.refLog ++ [RefEvent.Ref b.id]) = _
      rw [refCalls_append]
      by_cases hb : b.id = id
      · simp [refCalls, Call.enters, hb]
      · simp [refCalls, Call.enters, hb, List.count_singleton]

/-- The `Ref()` calls of a sequence of calls: one for each `enqueue`. -/
theorem calls_refCalls (id : Nat) (cs : List Call) (st st' : ReplayIteratorImpl)
    (h : st.calls cs = .ok st') :
    refCalls id st'.refLog = refCalls id st.refLog + (cs.map (Call.enters id)).sum := by
  induction cs generalizing st with
  | nil =>
    simp only [calls] at h
    injection h with h
    subst h
    simp
  | cons c cs ih =>
    simp only [calls] at h
    cases hc : st.call c with
    | error f => rw [hc] at h; cases h
    | ok st1 =>
      rw [hc] at h
      rw [ih st1 h, call_refCalls id c st st1 hc]
      simp only [List.map_cons, List.sum_cons]
      omega

/-- The constructor makes one `Ref()` call, on its buffer. -/
theorem refCalls_new (id : Nat) (cmp : Comparator) (iter : Option Iterator)
    (m : Option MemTable) (s : SequenceNumber) (st : ReplayIteratorImpl)
    (h : ReplayIteratorImpl.new cmp iter m s = .ok st) :
    refCalls id st.refLog = entered id m [] := by
  unfold ReplayIteratorImpl.new at h
  cases m with
  | none => cases h
  | some b =>
    injection h with h
    subst h
    by_cases hb : b.id = id
    · simp [refCalls, entered, hb]
    · simp [refCalls, entered, hb, List.count_singleton]

/-! ## What the scan meets first -/

/-- The scan stops on the first record the selection picks, whatever follows
it. -/
theorem scanLoop_emit_after (n : Nat) (st : ReplayIteratorImpl) (it : Iterator)
    (skipped : List Entry) (e : Entry) (rest : List Entry)
    (hdrop : it.entries.drop it.pos = skipped ++ e :: rest)
    (hnone : firstSeen st.user_comparator_ st.rs_ st.lastSeen skipped = [])
    (hpick : firstSeen st.user_comparator_ st.rs_ st.lastSeen (skipped ++ [e]) = [e])
    (hn : skipped.length + 1 ≤ n) :
    (scanLoop n st it).2.2 = true ∧
    (scanLoop n st it).1.status_ = st.status_ ∧
    (scanLoop n st it).1.valid_ = true ∧
    (scanLoop n st it).2.1.current = some e := by
  induction skipped generalizing n st it with
  | nil =>
    obtain ⟨hc, _⟩ := current_of_drop (by simpa using hdrop)
    obtain ⟨n', rfl⟩ : ∃ n', n = n' + 1 := ⟨n - 1, by simp at hn; omega⟩
    rcases scanLoop_cases n' st it with ⟨h0, _⟩ | ⟨e0, h0, hk, _⟩ |
      ⟨e0, ikey, h0, hk, hnew, hs, h⟩ | ⟨e0, ikey, h0, hk, hnew, hs, h⟩ |
      ⟨e0, ikey, h0, hk, hnew, h⟩
    · rw [hc] at h0; cases h0
    · rw [hc] at h0
      injection h0 with h0
      subst h0
      simp [firstSeen, hk] at hpick
    · rw [h]
      exact ⟨rfl, rfl, rfl, hc⟩
    · rw [hc] at h0
      injection h0 with h0
      subst h0
      rw [isNewKey_eq] at hnew
      simp [firstSeen, hk, hnew, hs] at hpick
    · rw [hc] at h0
      injection h0 with h0
      subst h0
      rw [isNewKey_eq] at hnew
      simp [firstSeen, hk, hnew] at hpick
  | cons x xs ih =>
    obtain ⟨hc, hd⟩ := current_of_drop (by simpa using hdrop)
    obtain ⟨n', rfl⟩ : ∃ n', n = n' + 1 := ⟨n - 1, by simp at hn; omega⟩
    have hn' : xs.length + 1 ≤ n' := by simp at hn; omega
    have hd' : it.Next.entries.drop it.Next.pos = xs ++ e :: rest := hd
    rcases scanLoop_cases n' st it with ⟨h0, _⟩ | ⟨e0, h0, hk, _⟩ |
      ⟨e0, ikey, h0, hk, hnew, hs, h⟩ | ⟨e0, ikey, h0, hk, hnew, hs, h⟩ |
      ⟨e0, ikey, h0, hk, hnew, h⟩
    · rw [hc] at h0; cases h0
    · rw [hc] at h0
      injection h0 with h0
      subst h0
      simp [firstSeen, hk] at hpick
    · rw [hc] at h0
      injection h0 with h0
      subst h0
      rw [isNewKey_eq] at hnew
      simp [firstSeen, hk, hnew, hs] at hnone
    · rw [hc] at h0
      injection h0 with h0
      subst h0
      rw [isNewKey_eq] at hnew
      simp only [firstSeen, hk, hnew, hs, if_true, Bool.false_eq_true, if_false] at hnone
      simp only [List.cons_append, firstSeen, hk, hnew, hs, if_true, Bool.false_eq_true,
        if_false] at hpick
      rw [h]
      exact ih n' (st.sees ikey) it.Next hd' (by rw [lastSeen_sees]; exact hnone)
        (by rw [lastSeen_sees]; exact hpick) hn'
    · rw [hc] at h0
      injection h0 with h0
      subst h0
      rw [isNewKey_eq] at hnew
      simp only [firstSeen, hk, hnew, Bool.false_eq_true, if_false] at hnone
      simp only [List.cons_append, firstSeen, hk, hnew, Bool.false_eq_true, if_false] at hpick
      rw [h]
      exact ih n' st it.Next hd' hnone hpick hn'

/-- The local status after `Prime`: ok, or the Corruption recorded on a record
that does not parse, or the error of a raw iterator that is used up. -/
theorem primeLoop_failure (db : List SequenceNumber) (st st' : ReplayIteratorImpl)
    (hv : st.valid_ = false) (hs : st.status_.ok = true) (h : primeLoop db st = .ok st') :
    st'.status_.ok = true ∨
    (st'.valid_ = false ∧
      st'.status_ = Status.Corruption "corrupted internal key in ReplayIteratorImpl" ∧
      ∃ e, st'.cursor = some e ∧ ParseInternalKey e.key = none) ∨
    (st'.valid_ = false ∧
      ∃ it', st'.rs_.iter_ = some it' ∧ it'.current = none ∧ it'.status.ok = false ∧
        st'.status_ = it'.status) := by
  induction db generalizing st with
  | nil =>
    rcases primeLoop_cases [] st with ⟨_, e⟩ | ⟨it, hi, hr, e⟩ | ⟨it, hi, hr, he, e⟩ |
      ⟨it, hi, hr, he, _, e⟩ | ⟨it, last, db', hi, hr, he, hd, _, e⟩ |
      ⟨it, last, db', m, hi, hr, he, hd, _, _, e⟩ | ⟨it, last, db', m, hi, hr, he, hd, _, _, e⟩
    · rw [e] at h; cases h
    · rw [e] at h
      injection h with h
      subst h
      rcases scanLoop_returned _ st it hr with ⟨h1, h2, hvis⟩ | ⟨h1, h2, x, hx, hxk⟩
      · left
        show (scanAll st it).1.status_.ok = true
        rw [scanAll, h2]; exact hs
      · right; left
        refine ⟨?_, h2, x, hx, hxk⟩
        show (scanAll st it).1.valid_ = false
        rw [scanAll, h1]; exact hv
    · rw [e] at h
      injection h with h
      subst h
      right; right
      exact ⟨rfl, (scanAll st it).2.1, rfl,
        (scanLoop_fellThrough _ st it hr).2.2 (le_refl _), he, rfl⟩
    · rw [e] at h; cases h
    · cases hd
    · cases hd
    · cases hd
  | cons l db ih =>
    rcases primeLoop_cases (l :: db) st with ⟨_, e⟩ | ⟨it, hi, hr, e⟩ | ⟨it, hi, hr, he, e⟩ |
      ⟨it, hi, hr, he, hd, e⟩ | ⟨it, last, db', hi, hr, he, hd, _, e⟩ |
      ⟨it, last, db', m, hi, hr, he, hd, _, hw, e⟩ |
      ⟨it, last, db', m, hi, hr, he, hd, _, hw, e⟩
    · rw [e] at h; cases h
    · rw [e] at h
      injection h with h
      subst h
      rcases scanLoop_returned _ st it hr with ⟨h1, h2, hvis⟩ | ⟨h1, h2, x, hx, hxk⟩
      · left
        show (scanAll st it).1.status_.ok = true
        rw [scanAll, h2]; exact hs
      · right; left
        refine ⟨?_, h2, x, hx, hxk⟩
        show (scanAll st it).1.valid_ = false
        rw [scanAll, h1]; exact hv
    · rw [e] at h
      injection h with h
      subst h
      right; right
      exact ⟨rfl, (scanAll st it).2.1, rfl,
        (scanLoop_fellThrough _ st it hr).2.2 (le_refl _), he, rfl⟩
    · cases hd
    · rw [e] at h; cases h
    · rw [e] at h
      injection h with h
      subst h
      left
      show (endStage last (scanAll st it).1).status_.ok = true
      rw [(endStage_valid _ _).2, scanAll, (scanLoop_fellThrough _ st it hr).2.1]
      exact hs
    · rw [e] at h
      injection hd with h1 h2
      subst h1 h2
      refine ih _ ?_ ?_ h
      · show (endStage l (scanAll st it).1).valid_ = false
        rw [(endStage_valid _ _).1, scanAll, (scanLoop_fellThrough _ st it hr).1]
        exact hv
      · show (endStage l (scanAll st it).1).status_.ok = true
        rw [(endStage_valid _ _).2, scanAll, (scanLoop_fellThrough _ st it hr).2.1]
        exact hs

/-! ## Calls made after a failure -/

/-- One call made after a failure: `Valid()` and `enqueue` leave the raw
iterator where it is, `Next()` moves it one record forward if it is on a
record and breaks its precondition otherwise; the recorded status stays. -/
theorem call_after_failure (c : Call) (st : ReplayIteratorImpl) (it : Iterator)
    (hs : st.status_.ok = false) (hi : st.rs_.iter_ = some it)
    (hc : ∀ s, c ≠ Call.enqueue none s) :
    (nextCalls [c] ≤ it.entries.length - it.pos →
      ∃ st', st.call c = .ok st' ∧ st'.status_ = st.status_ ∧
        st'.rs_.iter_ = some { it with pos := it.pos + nextCalls [c] }) ∧
    (it.entries.length - it.pos < nextCalls [c] → st.call c = .error Fault.rawNotValid) := by
  cases c with
  | Valid db =>
    refine ⟨fun _ => ⟨{ st with valid_ := false }, ?_, rfl, ?_⟩, fun h => ?_⟩
    · simp [call, Valid, Prime_failed db st hs]
    · simpa [nextCalls] using hi
    · simp [nextCalls] at h
  | Next db =>
    constructor
    · intro h
      have hval : it.Valid = true := by
        simp only [nextCalls] at h
        simp only [Iterator.Valid, decide_eq_true_eq]
        omega
      refine ⟨{ st.withIter it.Next with valid_ := false }, ?_, rfl, ?_⟩
      · have : Next db st = Prime db (st.withIter it.Next) := by
          simp [Next, hi, hval, withIter]
        simp only [call, this]
        exact Prime_failed db _ (by exact hs)
      · simp [withIter, Iterator.Next, nextCalls]
    · intro h
      have hval : it.Valid = false := by
        simp only [nextCalls] at h
        simp only [Iterator.Valid, decide_eq_false_iff_not]
        omega
      simp [call, Next, hi, hval]
  | enqueue m s =>
    cases m with
    | none => exact absurd rfl (hc s)
    | some b =>
      refine ⟨fun _ => ⟨_, rfl, rfl, ?_⟩, fun h => ?_⟩
      · simpa [nextCalls] using hi
      · simp [nextCalls] at h

theorem nextCalls_cons (c : Call) (cs : List Call) :
    nextCalls (c :: cs) = nextCalls [c] + nextCalls cs := by
  cases c <;> simp [nextCalls]
  omega

theorem nextCalls_append (cs cs' : List Call) :
    nextCalls (cs ++ cs') = nextCalls cs + nextCalls cs' := by
  induction cs with
  | nil => simp [nextCalls]
  | cons c cs ih =>
    rw [List.cons_append, nextCalls_cons, ih, nextCalls_cons c cs]
    omega

/-- A sequence of calls made after a failure returns if and only if it has at
most as many `Next()` calls as the raw iterator has records from its cursor on;
the recorded status stays. -/
theorem calls_after_failure (cs : List Call) (st : ReplayIteratorImpl) (it : Iterator)
    (hs : st.status_.ok = false) (hi : st.rs_.iter_ = some it)
    (hcs : ∀ c ∈ cs, ∀ s, c ≠ Call.enqueue none s) :
    (nextCalls cs ≤ it.entries.length - it.pos →
      ∃ st', st.calls cs = .ok st' ∧ st'.status_ = st.status_ ∧
        st'.rs_.iter_ = some { it with pos := it.pos + nextCalls cs }) ∧
    (it.entries.length - it.pos < nextCalls cs → st.calls cs = .error Fault.rawNotValid) := by
  induction cs generalizing st it with
  | nil =>
    refine ⟨fun _ => ⟨st, rfl, rfl, by simpa [nextCalls] using hi⟩, fun h => ?_⟩
    simp [nextCalls] at h
  | cons c cs ih =>
    have hc := call_after_failure c st it hs hi (hcs c (List.mem_cons_self _ _))
    have hcs' : ∀ c' ∈ cs, ∀ s, c' ≠ Call.enqueue none s :=
      fun c' h' => hcs c' (List.mem_cons_of_mem _ h')
    rw [nextCalls_cons]
    by_cases h1 : nextCalls [c] ≤ it.entries.length - it.pos
    · obtain ⟨st1, hcall, hs1, hi1⟩ := hc.1 h1
      have ih1 := ih st1 { it with pos := it.pos + nextCalls [c] } (by rw [hs1]; exact hs) hi1 hcs'
      rw [calls_cons_of_ok c cs st st1 hcall]
      constructor
      · intro h
        obtain ⟨st', hrun, hs', hi'⟩ := ih1.1 (by simp only; omega)
        refine ⟨st', hrun, hs'.trans hs1, ?_⟩
        rw [hi']
        simp only [Nat.add_assoc]
      · intro h
        exact ih1.2 (by simp only; omega)
    · constructor
      · intro h
        omega
      · intro _
        simp only [calls, hc.2 (by omega)]

/-! ## C1: `Valid()` twice -/

/-- C1 (the code at the failing input). An iterator over `bufferAB` with
`start_at = 0` and host max sequence 5: the first `Valid()` answers true on
key `"a"` with the raw cursor at 0; a second `Valid()`, with no `Next()` in
between and the queue and the host unchanged, moves the raw cursor to 1 and
answers true on key `"b"`. -/
theorem Valid_twice_moves_cursor :
    ∃ st1 st2,
      new BytewiseCompare (some noRecords) (some bufferAB) 0 = .ok startAB ∧
      Valid [5] startAB = .ok (true, st1) ∧ key st1 = .ok [97] ∧ value st1 = .ok [1] ∧
      st1.rs_.iter_.map Iterator.pos = some 0 ∧ st1.mems_ = [] ∧
      Valid [5] st1 = .ok (true, st2) ∧ key st2 = .ok [98] ∧ value st2 = .ok [2] ∧
      st2.rs_.iter_.map Iterator.pos = some 1 ∧ st2.mems_ = [] :=
  ⟨_, _, rfl, rfl, rfl, rfl, rfl, rfl, rfl, rfl, rfl, rfl, rfl⟩

/-! ## C2: dedup by key -/

/-- C2 (counterexample). The stage of `bufferK`, records `("k", 5, Value)` then
`("k", 3, Value)`, adopted by the first `Valid()` under host max sequence 5, has
window `[0, 5)`.  The version at sequence 3 is the one record of `"k"` in the
window, yet the stage hands out no record at all: the first `Valid()` returns
false with the window collapsed to start 5. -/
theorem stage_skips_older_version_in_window :
    ReplayIteratorImpl.new BytewiseCompare (some noRecords) (some bufferK) 0 = .ok startK ∧
    primeLoop [5, 5] startK = primeLoop [5] stageK ∧
    stageK.rs_.seq_start_ = 0 ∧ stageK.rs_.seq_limit_ = 5 ∧
    bufferK.entries.filter (fun e => e.hasUserKey [107] && e.shownIn stageK.rs_) =
      [putRecord [107] 3 [121]] ∧
    stageK.driveStage 2 = [] ∧
    ∃ st, Valid [5, 5] startK = .ok (false, st) ∧ st.rs_.seq_start_ = 5 ∧ st.rs_.seq_limit_ = 5 :=
  ⟨rfl, rfl, rfl, rfl, by decide, by decide, _, rfl, rfl, rfl⟩

/-- C2 (amended). In a stage whose raw iterator is ordered by user key and then
by descending sequence number, driven by an initial `Valid()` and then `Next()`
calls through the stage, the records handed out for a user key `k` are: the
first record of `k` in iterator order, which carries the highest sequence number
of `k`, if that record lies in `[seq_start_, seq_limit_)` with kind Value or
Deletion; and no record of `k` otherwise.  All other records of `k` are
skipped. -/
theorem stage_emits_first_version_only (n : Nat) (st : ReplayIteratorImpl) (it : Iterator)
    (k : Slice) (e : Entry) (rest : List Entry)
    (hs : st.status_.ok = true) (hi : st.rs_.iter_ = some it)
    (hfresh : st.has_current_user_key_ = false)
    (hzero : ∀ a b, st.user_comparator_ a b = 0 ↔ a = b)
    (hasym : ∀ a b, st.user_comparator_ a b < 0 → ¬ st.user_comparator_ b a < 0)
    (hsorted : (it.entries.drop it.pos).Pairwise (InternalKeyOrder st.user_comparator_))
    (hn : it.entries.length - it.pos ≤ n)
    (hk : (it.entries.drop it.pos).filter (Entry.hasUserKey k) = e :: rest) :
    (∀ e' ∈ rest, e'.sequence < e.sequence) ∧
    (st.driveStage n).filter (Entry.hasUserKey k) = if e.shownIn st.rs_ then [e] else [] := by
  refine ⟨first_of_key_is_newest _ k hzero _ hsorted e rest hk, ?_⟩
  rw [driveStage_eq_firstSeen n st it hs hi hn]
  have hlast : st.lastSeen ≠ some k := by simp [lastSeen, hfresh]
  rw [firstSeen_filter _ _ k hzero hasym _ hlast _ hsorted, hk]

/-- C2 (amended) on the spec's example: of `(b, 4, Value, "x")` then
`(b, 2, Value, "y")` in the window `[0, 5)`, the stage hands out `(b, 4, "x")`
only. -/
theorem stage_emits_first_version_only_witness :
    (bufferB.entries.drop 0).filter (Entry.hasUserKey [98]) =
      [putRecord [98] 4 [120], putRecord [98] 2 [121]] ∧
    (putRecord [98] 2 [121]).sequence < (putRecord [98] 4 [120]).sequence ∧
    (stageB.driveStage 2).filter (Entry.hasUserKey [98]) =
      if (putRecord [98] 4 [120]).shownIn stageB.rs_ then [putRecord [98] 4 [120]] else [] :=
  have h := stage_emits_first_version_only 2 stageB
    { entries := bufferB.entries, pos := 0, status_ := Status.OK } [98]
    (putRecord [98] 4 [120]) [putRecord [98] 2 [121]] rfl rfl rfl
    BytewiseCompare_zero BytewiseCompare_asymm
    (List.Pairwise.cons
      (fun x hx => by
        have hx' : x = putRecord [98] 2 [121] := by simpa [bufferB] using hx
        subst hx'
        exact ⟨_, _, rfl, rfl, Or.inr ⟨by decide, by decide⟩⟩)
      (List.Pairwise.cons (fun x hx => by simp at hx) List.Pairwise.nil))
    (by decide) (by decide)
  ⟨by decide, h.1 _ (List.mem_singleton.2 rfl), h.2⟩

/-! ## C3: window containment -/

/-- C3. Window containment: whenever `Prime` (called directly, through
`Valid()` or through `Next()`) returns with `valid_` set, the raw iterator is
on a record whose key parses, whose kind is Value or Deletion, and whose
sequence number `s` satisfies `seq_start_ ≤ s < seq_limit_` for the window as
it stands at that moment. -/
theorem Prime_valid_in_window (db : List SequenceNumber) (st st' : ReplayIteratorImpl)
    (h : Prime db st = .ok st' ∨ (∃ b, Valid db st = .ok (b, st')) ∨ Next db st = .ok st')
    (hv : st'.valid_ = true) :
    ∃ it e ikey, st'.rs_.iter_ = some it ∧ it.current = some e ∧
      ParseInternalKey e.key = some ikey ∧
      (ikey.type = kTypeDeletion ∨ ikey.type = kTypeValue) ∧
      st'.rs_.seq_start_ ≤ ikey.sequence ∧ ikey.sequence < st'.rs_.seq_limit_ := by
  have key : ∀ st0 : ReplayIteratorImpl, Prime db st0 = .ok st' → Positioned st' := by
    intro st0 h0
    unfold Prime at h0
    dsimp only at h0
    split at h0
    · injection h0 with h0
      subst h0
      cases hv
    · exact primeLoop_valid_positioned db _ st' rfl h0 hv
  have hp : Positioned st' := by
    rcases h with h | ⟨b, h⟩ | h
    · exact key st h
    · unfold Valid at h
      split at h
      · cases h
      · rename_i st1 h1
        injection h with h
        injection h with _ h2
        subst h2
        exact key st h1
    · unfold Next at h
      split at h
      · cases h
      · split at h
        · exact key _ h
        · cases h
  obtain ⟨it, hi, e, ikey, h1, h2, h3, h4, h5⟩ := hp
  exact ⟨it, e, ikey, hi, h1, h2, h3, h4, h5⟩

/-- C3 at a concrete input: the first `Valid()` of the iterator over
`bufferAB` leaves it on the record `("a", 1, Value)` inside the window
`[0, 5)`. -/
theorem Prime_valid_in_window_witness :
    (Prime [5] startAB = .ok onA ∨ (∃ b, Valid [5] startAB = .ok (b, onA)) ∨
        Next [5] startAB = .ok onA) ∧ onA.valid_ = true ∧
    ∃ it e ikey, onA.rs_.iter_ = some it ∧ it.current = some e ∧
      ParseInternalKey e.key = some ikey ∧
      (ikey.type = kTypeDeletion ∨ ikey.type = kTypeValue) ∧
      onA.rs_.seq_start_ ≤ ikey.sequence ∧ ikey.sequence < onA.rs_.seq_limit_ :=
  ⟨Or.inl rfl, rfl, Prime_valid_in_window [5] startAB onA (Or.inl rfl) rfl⟩

/-! ## C4: windows of successive stages -/

/-- C5 (counterexample). Two runs with the queue in non-decreasing start order
and a host max sequence that never decreases.  First run: the buffer of the
constructor (start 0) is used up under host max 5, the window collapses to
start 5; a buffer with start 3 is enqueued and the next `Valid()`, under host
max 7, adopts it: the start falls from 5 to 3.  Second run: `start_at = 10`
under host max 5 gives the window `[10, 5)`; the next `Valid()` collapses the
gap: the start falls from 10 to 5. -/
theorem window_start_decreases :
    (Valid [5] startAB = .ok (true, onA) ∧ Next [5] onA = .ok onB ∧
      Next [5] onB = .ok caughtUpAB ∧ caughtUpAB.rs_.seq_start_ = 5 ∧
      caughtUpAB.enqueue (some bufferC) 3 = .ok queuedC ∧
      queuedC.mems_.map ReplayState.seq_start_ = [3] ∧
      Valid [7] queuedC = .ok (true, onC) ∧ onC.rs_.seq_start_ = 3 ∧ onC.rs_.seq_limit_ = 7) ∧
    (ReplayIteratorImpl.new BytewiseCompare (some noRecords) (some bufferAB) 10 = .ok startLate ∧
      Valid [5] startLate = .ok (false, lateParked) ∧ lateParked.rs_.seq_start_ = 10 ∧
      lateParked.rs_.seq_limit_ = 5 ∧ lateParked.seesGap = true ∧
      Valid [5] lateParked = .ok (false, lateCollapsed) ∧ lateCollapsed.rs_.seq_start_ = 5) :=
  ⟨⟨rfl, rfl, rfl, rfl, rfl, rfl, rfl, rfl, rfl⟩, ⟨rfl, rfl, rfl, rfl, rfl, rfl, rfl⟩⟩

/-- C5 (amended). After a gap-collapse transition the start of the window is
the old limit, so it has not decreased whenever the old window had
`seq_start_ ≤ seq_limit_`.  After an adopt transition the start of the window
is the start of the adopted queue head, which is never above the old start. -/
theorem endStage_start (last : SequenceNumber) (st : ReplayIteratorImpl) :
    (st.seesGap = true →
      (endStage last st).rs_.seq_start_ = st.rs_.seq_limit_ ∧
      (st.rs_.seq_start_ ≤ st.rs_.seq_limit_ →
        st.rs_.seq_start_ ≤ (endStage last st).rs_.seq_start_)) ∧
    (st.seesGap = false →
      (endStage last st).rs_.seq_start_ = st.frontStart ∧
      (endStage last st).rs_.seq_start_ ≤ st.rs_.seq_start_) := by
  constructor
  · intro hg
    rw [endStage_gap last st hg]
    exact ⟨rfl, fun h => h⟩
  · intro hg
    obtain ⟨front, rest, hm, hle⟩ := seesGap_false st hg
    rw [endStage_adopt last st front rest hm hg]
    exact ⟨by simp [frontStart, hm], hle⟩

/-- C5 (amended) at concrete inputs: the collapse of the window `[0, 5)` moves
the start up to 5; the adoption of a queue head with start 3 from the window
`[5, 5)` moves it down to 3. -/
theorem endStage_start_witness :
    (onA.seesGap = true ∧ onA.rs_.seq_start_ ≤ onA.rs_.seq_limit_ ∧
      (endStage 5 onA).rs_.seq_start_ = onA.rs_.seq_limit_ ∧
      onA.rs_.seq_start_ ≤ (endStage 5 onA).rs_.seq_start_) ∧
    (queuedC.seesGap = false ∧
      (endStage 7 queuedC).rs_.seq_start_ ≤ queuedC.rs_.seq_start_) :=
  ⟨⟨rfl, by decide, ((endStage_start 5 onA).1 rfl).1,
      ((endStage_start 5 onA).1 rfl).2 (by decide)⟩,
   ⟨rfl, ((endStage_start 7 queuedC).2 rfl).2⟩⟩

/-! ## C10: caught-up polling -/

/-- C10. Caught-up polling is stable: from a state with the window `[L, L)`
(what a gap-collapse leaves when `Prime` returns exhausted under host max `L`)
and an empty pending queue, every sequence of `Valid()` calls made while the
host's max sequence stays `L` returns; afterwards the queue is still empty, the
current buffer is kept, the window is `[L, L)`, and one more `Valid()` returns
false. -/
theorem caught_up_polling_is_stable (L : SequenceNumber) (m : MemTable)
    (st : ReplayIteratorImpl) (it : Iterator) (ks : List Nat)
    (hq : st.mems_ = []) (hm : st.rs_.mem_ = some m) (hi : st.rs_.iter_ = some it)
    (hstart : st.rs_.seq_start_ = L) (hlimit : st.rs_.seq_limit_ = L) :
    ∃ st', st.calls (ks.map (fun k => Call.Valid (List.replicate (k + 1) L))) = .ok st' ∧
      st'.mems_ = [] ∧ st'.rs_.mem_ = some m ∧
      st'.rs_.seq_start_ = L ∧ st'.rs_.seq_limit_ = L ∧
      ∀ k, ∃ st'', Valid (List.replicate (k + 1) L) st' = .ok (false, st'') := by
  induction ks generalizing st it with
  | nil =>
    refine ⟨st, rfl, hq, hm, hstart, hlimit, fun k => ?_⟩
    obtain ⟨st', _, h, _⟩ := Valid_caughtUp L (List.replicate k L) m st it hq hm hi hstart hlimit
    exact ⟨st', h⟩
  | cons k ks ih =>
    obtain ⟨st1, it1, h, hq1, hm1, hi1, hs1, hl1⟩ :=
      Valid_caughtUp L (List.replicate k L) m st it hq hm hi hstart hlimit
    obtain ⟨st', hrun, hrest⟩ := ih st1 it1 hq1 hm1 hi1 hs1 hl1
    refine ⟨st', ?_, hrest⟩
    have hc : st.call (Call.Valid (List.replicate (k + 1) L)) = .ok st1 := by
      simp only [call, List.replicate_succ, h]
    simp only [List.map_cons]
    rw [calls_cons_of_ok _ _ st st1 hc]
    exact hrun

/-- C10 on the spec's first scenario: buffer B1 with `(a, 3, Deletion)`,
`(a, 1, Value)`, start 0, host max 5.  After the deletion is handed out and
`Next()` is called the window is collapsed to `[5, 5)`, and `Valid()` stays
false through further polls. -/
theorem caught_up_polling_is_stable_witness :
    Valid [5] startA1 = .ok (true, onDeletedA) ∧ Next [5] onDeletedA = .ok caughtUpA1 ∧
    caughtUpA1.mems_ = [] ∧ caughtUpA1.rs_.seq_start_ = 5 ∧ caughtUpA1.rs_.seq_limit_ = 5 ∧
    ∃ st', caughtUpA1.calls ([0, 1].map (fun k => Call.Valid (List.replicate (k + 1) 5))) =
        .ok st' ∧
      st'.mems_ = [] ∧ st'.rs_.mem_ = some bufferA1 ∧
      st'.rs_.seq_start_ = 5 ∧ st'.rs_.seq_limit_ = 5 ∧
      ∀ k, ∃ st'', Valid (List.replicate (k + 1) 5) st' = .ok (false, st'') :=
  ⟨rfl, rfl, rfl, rfl, rfl,
    caught_up_polling_is_stable 5 bufferA1 caughtUpA1
      { entries := bufferA1.entries, pos := 1, status_ := Status.OK } [0, 1]
      rfl rfl rfl rfl rfl⟩

/-! ## C12: `HasValue()` and `key()` -/

/-- C12. Once `Valid()` has returned true, the cursor is on a record whose key
parses; `HasValue()` returns true iff the kind of that record is Value (false
for a Deletion) and leaves every member, the status and the cursor among them,
as it was; `key()` returns the user key of that record and `value()` its
payload. -/
theorem HasValue_and_key_report_the_record (db : List SequenceNumber)
    (st st' : ReplayIteratorImpl) (h : Valid db st = .ok (true, st')) :
    ∃ e ikey, st'.cursor = some e ∧ ParseInternalKey e.key = some ikey ∧
      (ikey.type = kTypeDeletion ∨ ikey.type = kTypeValue) ∧
      HasValue st' = .ok (ikey.type == kTypeValue, st') ∧
      key st' = .ok ikey.user_key ∧ value st' = .ok e.value := by
  obtain ⟨hP, hv⟩ := Valid_ok h
  rcases Prime_outcome db st st' hP with ⟨_, _, it, hi, e, ikey, hc, hk, ht, _, _⟩ | ⟨hf, _⟩ |
    ⟨hf, _⟩
  · refine ⟨e, ikey, by simp [cursor, hi, hc], hk, ht, ?_, ?_, ?_⟩
    · simp [HasValue, hi, hc, ParseKey, hk]
    · simp [key, hv, hi, hc, ParseInternalKey_some hk, ExtractUserKey]
    · simp [value, hv, hi, hc]
  · rw [hv] at hf; cases hf
  · rw [hv] at hf; cases hf

/-- C12 on the spec's first scenario: positioned on `(a, 3, Deletion)` the
iterator is valid, `HasValue()` is false and `key()` is `"a"`. -/
theorem HasValue_and_key_report_the_record_witness :
    Valid [5] startA1 = .ok (true, onDeletedA) ∧
    onDeletedA.cursor = some (delRecord [97] 3) ∧
    HasValue onDeletedA = .ok (false, onDeletedA) ∧ key onDeletedA = .ok [97] ∧
    ∃ e ikey, onDeletedA.cursor = some e ∧ ParseInternalKey e.key = some ikey ∧
      (ikey.type = kTypeDeletion ∨ ikey.type = kTypeValue) ∧
      HasValue onDeletedA = .ok (ikey.type == kTypeValue, onDeletedA) ∧
      key onDeletedA = .ok ikey.user_key ∧ value onDeletedA = .ok e.value :=
  ⟨rfl, rfl, rfl, rfl, HasValue_and_key_report_the_record [5] startA1 onDeletedA rfl⟩

/-! ## C14: the stage transition rule -/

/-- C14. Stage transition rule: on a raw iterator that is exhausted without
error (and with an ok local status), `Prime` goes through the transition
`endStage` with the value read from the host, and then stops parked if the new
window is empty, or scans the new raw iterator of the current buffer.  In the
transition, (a) if the pending queue is empty or its head starts strictly after
the current start, the new start is the old limit, and the current buffer, the
queue and the reference log are unchanged; (b) otherwise the current buffer is
released, the new current buffer and start are those of the old queue head, and
the queue is the old queue without its head; in both cases the new limit is the
host's value and the last-seen user key is cleared. -/
theorem stage_transition_rule (last : SequenceNumber) (db : List SequenceNumber)
    (st : ReplayIteratorImpl) (it : Iterator)
    (hs : st.status_.ok = true) (hi : st.rs_.iter_ = some it)
    (hend : it.current = none) (hraw : it.status.ok = true) :
    (Prime (last :: db) st =
      match (endStage last st).rs_.mem_ with
      | none => .error Fault.nullMemTable
      | some m =>
        if (endStage last st).rs_.seq_limit_ ≤ (endStage last st).rs_.seq_start_ then
          .ok { (endStage last st).withIter m.NewIterator.SeekToFirst.SeekToLast with
                valid_ := false }
        else
          primeLoop db { (endStage last st).withIter m.NewIterator.SeekToFirst with
                         valid_ := false }) ∧
    (st.seesGap = true →
      (endStage last st).rs_.seq_start_ = st.rs_.seq_limit_ ∧
      (endStage last st).rs_.mem_ = st.rs_.mem_ ∧
      (endStage last st).mems_ = st.mems_ ∧
      (endStage last st).refLog = st.refLog) ∧
    (st.seesGap = false →
      ∃ front rest, st.mems_ = front :: rest ∧
        (endStage last st).refLog = st.refLog ++ unrefEvents st.rs_.mem_ ∧
        (endStage last st).rs_.mem_ = front.mem_ ∧
        (endStage last st).rs_.seq_start_ = front.seq_start_ ∧
        (endStage last st).mems_ = rest) ∧
    (endStage last st).rs_.seq_limit_ = last ∧
    (endStage last st).has_current_user_key_ = false := by
  have hsc : scanAll { st with valid_ := false } it = ({ st with valid_ := false }, it, false) :=
    scanLoop_atEnd _ _ _ hend
  have hE := endStage_unsetValid last st
  have hlim : (endStage last st).rs_.seq_limit_ = last := by
    cases hg : st.seesGap with
    | true => rw [endStage_gap last _ hg]
    | false =>
      obtain ⟨front, rest, hm, _⟩ := seesGap_false _ hg
      rw [endStage_adopt last _ front rest hm hg]
  have hkey : (endStage last st).has_current_user_key_ = false := by
    cases hg : st.seesGap with
    | true => rw [endStage_gap last _ hg]
    | false =>
      obtain ⟨front, rest, hm, _⟩ := seesGap_false _ hg
      rw [endStage_adopt last _ front rest hm hg]
  refine ⟨?_, ?_, ?_, hlim, hkey⟩
  · rw [Prime_eq_primeLoop _ st hs]
    have hi' : ({ st with valid_ := false } : ReplayIteratorImpl).rs_.iter_ = some it := hi
    have hr : (scanAll { st with valid_ := false } it).2.2 = false := by rw [hsc]
    have he : (scanAll { st with valid_ := false } it).2.1.status.ok = true := by
      rw [hsc]; exact hraw
    have h1 : endStage last (scanAll { st with valid_ := false } it).1 =
        { endStage last st with valid_ := false } := by
      rw [hsc]; exact hE
    cases hm : (endStage last st).rs_.mem_ with
    | none =>
      have hm' : (endStage last (scanAll { st with valid_ := false } it).1).rs_.mem_ = none := by
        rw [h1]; exact hm
      exact primeLoop_nullMem last db { st with valid_ := false } it hi' hr he hm'
    | some m =>
      have hm' : (endStage last (scanAll { st with valid_ := false } it).1).rs_.mem_ =
          some m := by
        rw [h1]; exact hm
      by_cases hw : (endStage last st).rs_.seq_limit_ ≤ (endStage last st).rs_.seq_start_
      · have hw' : (endStage last (scanAll { st with valid_ := false } it).1).rs_.seq_limit_ ≤
            (endStage last (scanAll { st with valid_ := false } it).1).rs_.seq_start_ := by
          rw [h1]; exact hw
        rw [primeLoop_parked last db { st with valid_ := false } it m hi' hr he hm' hw', h1]
        simp only [hw, if_true]
        rfl
      · have hw' : (endStage last (scanAll { st with valid_ := false } it).1).rs_.seq_start_ <
            (endStage last (scanAll { st with valid_ := false } it).1).rs_.seq_limit_ := by
          rw [h1]; exact Nat.lt_of_not_le hw
        rw [primeLoop_again last db { st with valid_ := false } it m hi' hr he hm' hw', h1]
        simp only [hw, if_false]
        rfl
  · intro hg
    rw [endStage_gap last _ hg]
    exact ⟨rfl, rfl, rfl, rfl⟩
  · intro hg
    obtain ⟨front, rest, hm, _⟩ := seesGap_false _ hg
    rw [endStage_adopt last _ front rest hm hg]
    exact ⟨front, rest, hm, rfl, rfl, rfl, rfl⟩

/-- C14 on the spec's second scenario: current window `[5, 5)`, queue head B2
with start 5, host max 7: the transition adopts B2 with the window `[5, 7)`, and
`Prime` stops on the record of B2. -/
theorem stage_transition_rule_witness :
    exhaustedA1.seesGap = false ∧
    (endStage 7 exhaustedA1).rs_.mem_ = some bufferC ∧
    (endStage 7 exhaustedA1).rs_.seq_start_ = 5 ∧
    (endStage 7 exhaustedA1).mems_ = [] ∧
    (endStage 7 exhaustedA1).rs_.seq_limit_ = 7 ∧
    (endStage 7 exhaustedA1).has_current_user_key_ = false ∧
    ∃ front rest, exhaustedA1.mems_ = front :: rest ∧
      (endStage 7 exhaustedA1).refLog = exhaustedA1.refLog ++ unrefEvents exhaustedA1.rs_.mem_ ∧
      (endStage 7 exhaustedA1).rs_.mem_ = front.mem_ ∧
      (endStage 7 exhaustedA1).rs_.seq_start_ = front.seq_start_ ∧
      (endStage 7 exhaustedA1).mems_ = rest :=
  ⟨rfl, rfl, rfl, rfl,
    (stage_transition_rule 7 [] exhaustedA1
      { entries := bufferA1.entries, pos := 2, status_ := Status.OK } rfl rfl rfl rfl).2.2.2.1,
    (stage_transition_rule 7 [] exhaustedA1
      { entries := bufferA1.entries, pos := 2, status_ := Status.OK } rfl rfl rfl rfl).2.2.2.2,
    (stage_transition_rule 7 [] exhaustedA1
      { entries := bufferA1.entries, pos := 2, status_ := Status.OK } rfl rfl rfl rfl).2.2.1 rfl⟩

/-! ## C15: the outcome of `Prime` -/

/-- C17 (counterexample). The buffer-form stage built by
`ReplayState(MemTable*, SequenceNumber)` for `bufferAB` and start 0 has the
limit 0, not `kMaxSequenceNumber`. -/
theorem buffer_stage_limit_is_not_max :
    (ReplayState.ofMemTable (some bufferAB) 0).seq_limit_ = 0 ∧
    (ReplayState.ofMemTable (some bufferAB) 0).seq_limit_ ≠ kMaxSequenceNumber :=
  ⟨rfl, by decide⟩

/-- C17 (amended). A buffer-form stage built by
`ReplayState(MemTable*, SequenceNumber)` has its limit set to 0, for every
buffer and every start; it holds the buffer and the start it was given and no
raw iterator.  The limit `kMaxSequenceNumber` is given to the iterator-form
stage the constructor of `ReplayIteratorImpl` builds for `rs_`. -/
theorem buffer_stage_limit_is_zero (cmp : Comparator) (iter : Option Iterator)
    (m : Option MemTable) (b : MemTable) (s : SequenceNumber) :
    (ReplayState.ofMemTable m s).seq_limit_ = 0 ∧
    (ReplayState.ofMemTable m s).seq_start_ = s ∧
    (ReplayState.ofMemTable m s).mem_ = m ∧
    (ReplayState.ofMemTable m s).iter_ = none ∧
    ∃ st, ReplayIteratorImpl.new cmp iter (some b) s = .ok st ∧
      st.rs_.seq_limit_ = kMaxSequenceNumber ∧
      st.mems_ = [ReplayState.ofMemTable (some b) s] :=
  ⟨rfl, rfl, rfl, rfl, _, rfl, rfl, rfl⟩

/-! ## C11: `Prime` terminates -/

/-- C11 (counterexample). `offB3Queued` is reached by `Valid()`, `Next()`,
`enqueue(bufferEmpty, 2)` and the raw step of a second `Next()`: window
`[0, 3)`, one pending buffer, host max sequence 5 from then on.  The call of
`Prime` collapses the gap to `[3, 5)`, then adopts the pending buffer with
`[2, 5)`, then collapses to `[5, 5)`: three transitions, with a pending queue of
length 1; two host readings do not suffice. -/
theorem Prime_takes_three_transitions :
    Valid [3] startAB = .ok (true, onA3) ∧ Next [3] onA3 = .ok onB3 ∧
    onB3.enqueue (some bufferEmpty) 2 = .ok onB3Queued ∧
    Next [5, 5, 5] onB3Queued = Prime [5, 5, 5] offB3Queued ∧
    offB3Queued.mems_.length = 1 ∧
    Prime [5, 5] offB3Queued = .error Fault.noMoreReadings ∧
    Prime [5, 5, 5] offB3Queued = .ok caughtUpEmpty ∧
    offB3Queued.transitions [5, 5, 5] = 3 :=
  ⟨rfl, rfl, rfl, rfl, rfl, rfl, rfl, rfl⟩

/-- C11 (amended). `Prime` terminates: with the host's max sequence equal to
`L` throughout the call and no enqueue during it, one invocation of `Prime`
goes through at most (length of the pending queue + 2) stage transitions, and
that many host readings are enough for it to come to an end; each scan of a raw
iterator is over after as many rounds as the raw iterator has records left. -/
theorem Prime_terminates (L : SequenceNumber) (k : Nat) (st : ReplayIteratorImpl)
    (hk : st.mems_.length + 2 ≤ k) :
    Prime (List.replicate k L) st ≠ .error Fault.noMoreReadings ∧
    st.transitions (List.replicate k L) ≤ st.mems_.length + 2 ∧
    ∀ (s : ReplayIteratorImpl) (it : Iterator) (n : Nat), it.entries.length - it.pos ≤ n →
      scanLoop n s it = scanLoop (it.entries.length - it.pos) s it := by
  have hdb : ∀ x ∈ List.replicate k L, x = L := fun x hx => List.eq_of_mem_replicate hx
  have hlen : ({ st with valid_ := false } : ReplayIteratorImpl).mems_.length + 2 ≤
      (List.replicate k L).length := by
    rw [List.length_replicate]; exact hk
  have h := primeLoop_terminates L (List.replicate k L) { st with valid_ := false } hdb hlen
  refine ⟨?_, ?_, fun s it n hn => scanLoop_fuel n s it hn⟩
  · cases hs : st.status_.ok with
    | false => rw [Prime_failed _ st hs]; simp
    | true => rw [Prime_eq_primeLoop _ st hs]; exact h.1
  · unfold transitions
    cases hs : st.status_.ok with
    | false => simp
    | true => simpa using h.2

/-- C11 (amended) at the input of the counterexample: three readings, one more
than the pending queue is long plus one, are enough. -/
theorem Prime_terminates_witness :
    offB3Queued.mems_.length + 2 ≤ 3 ∧
    Prime (List.replicate 3 5) offB3Queued ≠ .error Fault.noMoreReadings ∧
    offB3Queued.transitions (List.replicate 3 5) ≤ offB3Queued.mems_.length + 2 :=
  ⟨by decide, (Prime_terminates 5 3 offB3Queued (by decide)).1,
    (Prime_terminates 5 3 offB3Queued (by decide)).2.1⟩

/-! ## C18: no null dereference in `Prime` -/

/-- C18. No null dereference in `Prime`: an iterator built by the constructor
with a non-null raw iterator and a non-null buffer, and driven by any sequence
of `Valid()`, `Next()` and `enqueue` calls with non-null buffers, never finds
`rs_.iter_` null at the head of the loop of `Prime` or where it dereferences it,
never creates a raw iterator from a null `rs_.mem_`, and has `rs_.iter_`
non-null in every state a call returns; as long as the current stage has no
buffer, the next transition takes the adopt branch and adopts the
constructor's buffer. -/
theorem no_null_dereference (cmp : Comparator) (iter : Iterator) (m : MemTable)
    (s : SequenceNumber) (cs : List Call)
    (hcs : ∀ c ∈ cs, ∀ s', c ≠ Call.enqueue none s') :
    ∃ st0, ReplayIteratorImpl.new cmp (some iter) (some m) s = .ok st0 ∧
      st0.calls cs ≠ .error Fault.nullIterator ∧
      st0.calls cs ≠ .error Fault.nullMemTable ∧
      ∀ st, st0.calls cs = .ok st →
        st.rs_.iter_ ≠ none ∧
        (st.rs_.mem_ = none →
          ∀ last, st.seesGap = false ∧ (endStage last st).rs_.mem_ = some m) := by
  refine ⟨_, rfl, ?_⟩
  have h0 : ReplayIteratorImpl.BuffersAtHand m s
      { user_comparator_ := cmp, start_at_ := s, valid_ := false, status_ := Status.OK,
        has_current_user_key_ := false, current_user_key_ := [],
        rs_ := ReplayState.ofIterator (some iter) s kMaxSequenceNumber,
        mems_ := [ReplayState.ofMemTable (some m) s], refLog := [RefEvent.Ref m.id] } := by
    refine ⟨?_, Or.inr ⟨rfl, [], rfl⟩⟩
    intro r hr
    have : r = ReplayState.ofMemTable (some m) s := by simpa using hr
    subst this
    simp [ReplayState.ofMemTable]
  obtain ⟨c1, c2, c3⟩ := calls_no_null m s cs _ hcs (by simp [ReplayState.ofIterator]) h0
  refine ⟨c1, c2, fun st hst => ?_⟩
  obtain ⟨i1, _, b2⟩ := c3 st hst
  refine ⟨i1, fun hnone last => ?_⟩
  rcases b2 with hb | ⟨hs, rest, hm⟩
  · exact absurd hnone hb
  · exact endStage_initial m s last st hs rest hm

/-- C18 on a run: construction on `bufferAB`, `enqueue(bufferC, 3)` while still
in the initial stage, then `Valid()`: no null pointer is met, and the first
transition adopts `bufferAB`. -/
theorem no_null_dereference_witness :
    ∃ st0, ReplayIteratorImpl.new BytewiseCompare (some noRecords) (some bufferAB) 0 = .ok st0 ∧
      st0.calls [Call.enqueue (some bufferC) 3, Call.Valid [5]] ≠ .error Fault.nullIterator ∧
      st0.calls [Call.enqueue (some bufferC) 3, Call.Valid [5]] ≠ .error Fault.nullMemTable ∧
      ∀ st, st0.calls [Call.enqueue (some bufferC) 3, Call.Valid [5]] = .ok st →
        st.rs_.iter_ ≠ none ∧
        (st.rs_.mem_ = none →
          ∀ last, st.seesGap = false ∧ (endStage last st).rs_.mem_ = some bufferAB) :=
  no_null_dereference BytewiseCompare noRecords bufferAB 0
    [Call.enqueue (some bufferC) 3, Call.Valid [5]]
    (fun c hc s' => by
      have h : c = Call.enqueue (some bufferC) 3 ∨ c = Call.Valid [5] := by simpa using hc
      rcases h with rfl | rfl <;> simp)

/-! ## C19: completeness of a stage -/

/-- C19. Completeness for keys whose newest record is visible: in a stage
whose raw iterator is ordered by user key and then by descending sequence number
and holds only records that parse, driven by one `Prime` (a `Valid()`) and then
`Next()` calls until the raw iterator is used up, the records handed out are
exactly, in iterator order, the first record of each distinct user key whose
sequence number lies in `[seq_start_, seq_limit_)` (with kind Value or
Deletion); a user key whose first record is not shown is not handed out at all
in that stage, whatever older records of it lie in the window. -/
theorem stage_emits_first_records_in_window (n : Nat) (st : ReplayIteratorImpl)
    (it : Iterator) (hs : st.status_.ok = true) (hi : st.rs_.iter_ = some it)
    (hfresh : st.has_current_user_key_ = false)
    (hzero : ∀ a b, st.user_comparator_ a b = 0 ↔ a = b)
    (hasym : ∀ a b, st.user_comparator_ a b < 0 → ¬ st.user_comparator_ b a < 0)
    (hparse : ∀ e ∈ it.entries.drop it.pos, ParseInternalKey e.key ≠ none)
    (hsorted : (it.entries.drop it.pos).Pairwise (InternalKeyOrder st.user_comparator_))
    (hn : it.entries.length - it.pos ≤ n) :
    st.driveStage n = firstRecordsInWindow st.rs_ (it.entries.drop it.pos) ∧
    ∀ k e rest, (it.entries.drop it.pos).filter (Entry.hasUserKey k) = e :: rest →
      e.shownIn st.rs_ = false → ∀ x ∈ st.driveStage n, x.hasUserKey k = false := by
  have hdrive := driveStage_eq_firstSeen n st it hs hi hn
  have hlast : st.lastSeen = none := by simp [lastSeen, hfresh]
  constructor
  · rw [hdrive, hlast]
    have := firstSeen_eq_filter st.user_comparator_ st.rs_ hzero hasym []
      (it.entries.drop it.pos) none hparse (by simpa using hsorted)
      (fun y _ k _ => by simp [opensKey])
    simpa [firstRecordsInWindow] using this
  · intro k e rest hk hshown x hx
    have hf := firstSeen_filter st.user_comparator_ st.rs_ k hzero hasym st.lastSeen
      (by rw [hlast]; simp) _ hsorted
    rw [hk] at hf
    simp only [hshown, Bool.false_eq_true, if_false] at hf
    rw [hdrive] at hx
    by_contra hc
    have hxk : x.hasUserKey k = true := by simpa using hc
    have : x ∈ (firstSeen st.user_comparator_ st.rs_ st.lastSeen
        (it.entries.drop it.pos)).filter (Entry.hasUserKey k) :=
      List.mem_filter.2 ⟨hx, hxk⟩
    rw [hf] at this
    cases this


/-- C19 on a stage with the window `[0, 5)` over `(a, 5)`, `(a, 3)`, `(k, 4)`,
`(z, 2, Deletion)`, `(z, 1)`: the records of `"k"` and the deletion of `"z"` are
handed out; `"a"`, whose first record is at the limit, is not, although
`(a, 3)` lies in the window. -/
theorem stage_emits_first_records_in_window_witness :
    stageAKZ.driveStage 5 = firstRecordsInWindow stageAKZ.rs_ (bufferAKZ.entries.drop 0) ∧
    firstRecordsInWindow stageAKZ.rs_ (bufferAKZ.entries.drop 0) =
      [putRecord [107] 4 [3], delRecord [122] 2] ∧
    (putRecord [97] 3 [2]).shownIn stageAKZ.rs_ = true ∧
    ∀ x ∈ stageAKZ.driveStage 5, x.hasUserKey [97] = false :=
  have h := stage_emits_first_records_in_window 5 stageAKZ
    { entries := bufferAKZ.entries, pos := 0, status_ := Status.OK } rfl rfl rfl
    BytewiseCompare_zero BytewiseCompare_asymm
    (fun e he => by
      have h : e ∈ bufferAKZ.entries := he
      simp only [bufferAKZ, List.mem_cons, List.mem_singleton, List.not_mem_nil, or_false] at h
      rcases h with rfl | rfl | rfl | rfl | rfl <;> simp [putRecord, delRecord, ParseInternalKey])
    (List.Pairwise.imp (fun hab => InternalKeyOrder_of_ordered hab) (by decide))
    (by decide)
  ⟨h.1, by decide, by decide,
    h.2 [97] (putRecord [97] 5 [1]) [putRecord [97] 3 [2]] (by decide) (by decide)⟩

/-! ## C16: at most one version per key per stage -/

/-- C16, as stated, fails for an interleaving that begins with `Next()`: on a
freshly constructed iterator whose raw iterator stands on `(b, 4, "x")`,
followed by `(b, 2, "y")`, a first call `Next()` steps over `(b, 4, "x")`
unseen and returns valid on `(b, 2, "y")`, although `(b, 4, "x")` is a record of
the same user key with a higher sequence number in the window
`[0, kMaxSequenceNumber)`. -/
theorem Next_first_emits_older_version :
    new BytewiseCompare (some { entries := bufferB.entries, pos := 0, status_ := Status.OK })
      (some bufferEmpty) 0 = .ok freshB ∧
    Next [] freshB = .ok freshBNext ∧
    freshBNext.valid_ = true ∧
    freshBNext.cursor = some (putRecord [98] 2 [121]) ∧
    freshB.driveMixed [true] = [putRecord [98] 2 [121]] ∧
    putRecord [98] 4 [120] ∈ bufferB.entries ∧
    (putRecord [98] 4 [120]).shownIn freshB.rs_ = true ∧
    (putRecord [98] 4 [120]).hasUserKey [98] = true ∧
    (putRecord [98] 2 [121]).hasUserKey [98] = true ∧
    (putRecord [98] 2 [121]).sequence < (putRecord [98] 4 [120]).sequence := by
  have hN : Next [] freshB = .ok freshBNext := rfl
  refine ⟨rfl, hN, rfl, rfl, ?_, by decide, by decide, by decide, by decide, by decide⟩
  have hd : freshB.driveMixed [true] =
      (if freshBNext.valid_ then freshBNext.cursor.toList else []) ++
        freshBNext.driveMixed [] := by
    simp only [driveMixed, if_true, hN]
  rw [hd]
  rfl

/-- C16. At most one version per key per stage, and it is the newest: in a
stage whose raw iterator is ordered by user key and then by descending sequence
number, for every interleaving of `Valid()` and `Next()` calls during that
stage that begins with `Valid()`, each user key is handed out at most once
(counting every call that returns valid), and every record handed out lies in
the window with kind Value or Deletion and carries the highest sequence number
among the records of its user key. -/
theorem stage_emits_each_key_once (ops : List Bool) (st : ReplayIteratorImpl)
    (it : Iterator) (hs : st.status_.ok = true) (hi : st.rs_.iter_ = some it)
    (hfresh : st.has_current_user_key_ = false)
    (hzero : ∀ a b, st.user_comparator_ a b = 0 ↔ a = b)
    (hasym : ∀ a b, st.user_comparator_ a b < 0 → ¬ st.user_comparator_ b a < 0)
    (hsorted : (it.entries.drop it.pos).Pairwise (InternalKeyOrder st.user_comparator_)) :
    (∀ k, ((st.driveMixed (false :: ops)).filter (Entry.hasUserKey k)).length ≤ 1) ∧
    ∀ e ∈ st.driveMixed (false :: ops),
      e ∈ it.entries.drop it.pos ∧ e.shownIn st.rs_ = true ∧
      ∀ k, e.hasUserKey k = true → ∀ x ∈ it.entries.drop it.pos, x.hasUserKey k = true →
        x.sequence ≤ e.sequence := by
  have hlast : st.lastSeen ≠ none → False := by simp [lastSeen, hfresh]
  have hdrive := driveMixed_fresh ops st it hs hi hzero
  have hfilter : ∀ k, (firstSeen st.user_comparator_ st.rs_ st.lastSeen
      (it.entries.drop it.pos)).filter (Entry.hasUserKey k) =
        match (it.entries.drop it.pos).filter (Entry.hasUserKey k) with
        | [] => []
        | e :: _ => if e.shownIn st.rs_ then [e] else [] := fun k =>
    firstSeen_filter _ _ k hzero hasym _
      (fun h => hlast (by rw [h]; simp)) _ hsorted
  constructor
  · intro k
    rw [hdrive]
    have hsub : ((firstSeen st.user_comparator_ st.rs_ st.lastSeen
        (it.entries.drop it.pos)).take (ops.length + 1)).filter (Entry.hasUserKey k) |>.Sublist
        ((firstSeen st.user_comparator_ st.rs_ st.lastSeen
          (it.entries.drop it.pos)).filter (Entry.hasUserKey k)) :=
      (List.take_sublist _ _).filter _
    have hle := hsub.length_le
    rw [hfilter k] at hle
    refine le_trans hle ?_
    split
    · simp
    · split <;> simp
  · intro e he
    rw [hdrive] at he
    have hmem := List.mem_of_mem_take he
    obtain ⟨h1, h2⟩ := mem_firstSeen _ _ _ _ e hmem
    refine ⟨h1, h2, fun k hk x hx hxk => ?_⟩
    have hef : e ∈ (firstSeen st.user_comparator_ st.rs_ st.lastSeen
        (it.entries.drop it.pos)).filter (Entry.hasUserKey k) :=
      List.mem_filter.2 ⟨hmem, hk⟩
    rw [hfilter k] at hef
    cases hrec : (it.entries.drop it.pos).filter (Entry.hasUserKey k) with
    | nil => rw [hrec] at hef; simp at hef
    | cons e0 rest =>
      rw [hrec] at hef
      have he0 : e = e0 := by
        dsimp only at hef
        split at hef
        · simpa using hef
        · simp at hef
      subst he0
      have hnew := first_of_key_is_newest _ k hzero _ hsorted e rest hrec
      have hxm : x ∈ e :: rest := by
        rw [← hrec]
        exact List.mem_filter.2 ⟨hx, hxk⟩
      rcases List.mem_cons.1 hxm with rfl | hxr
      · exact le_refl _
      · exact Nat.le_of_lt (hnew x hxr)

/-- C16 on the stage of `bufferAKZ`, window `[0, 5)`, driven by `Valid()`,
`Next()`, `Valid()`, `Valid()`, `Next()`: the user key `"z"` is handed out at
most once. -/
theorem stage_emits_each_key_once_witness :
    ((stageAKZ.driveMixed [false, true, false, false, true]).filter
      (Entry.hasUserKey [122])).length ≤ 1 ∧
    ∀ e ∈ stageAKZ.driveMixed [false, true, false, false, true],
      e ∈ bufferAKZ.entries.drop 0 ∧ e.shownIn stageAKZ.rs_ = true ∧
      ∀ k, e.hasUserKey k = true → ∀ x ∈ bufferAKZ.entries.drop 0, x.hasUserKey k = true →
        x.sequence ≤ e.sequence :=
  have h := stage_emits_each_key_once [true, false, false, true] stageAKZ
    { entries := bufferAKZ.entries, pos := 0, status_ := Status.OK } rfl rfl rfl
    BytewiseCompare_zero BytewiseCompare_asymm
    (List.Pairwise.imp (fun hab => InternalKeyOrder_of_ordered hab) (by decide))
  ⟨h.1 [122], h.2⟩

/-! ## C7: reference balance -/

/-- C7. Reference balance: for an iterator built by the constructor and driven
by any sequence of `Valid()`, `Next()` and `enqueue` calls that returns, (1) the
`Ref()` calls made on each buffer equal its `Unref()` calls plus its
occurrences as the current stage's buffer and in the pending queue; (2) the
`Ref()` calls made on a buffer are one for each of its entries, through the
constructor or through `enqueue`; (3) `cleanup()` appends to the record of the
calls made so far, makes no `Ref()` call, and makes one `Unref()` call for each
occurrence of the buffer as the current stage's buffer and in the pending
queue; so that (4) after `cleanup()` the iterator holds no buffer and the
`Ref()` calls made on each buffer equal the `Unref()` calls made on it, both
being the number of its entries. -/
theorem reference_balance (cmp : Comparator) (iter : Option Iterator) (m : Option MemTable)
    (s : SequenceNumber) (cs : List Call) (st0 st : ReplayIteratorImpl) (id : Nat)
    (h0 : ReplayIteratorImpl.new cmp iter m s = .ok st0) (h : st0.calls cs = .ok st) :
    refCalls id st.refLog = unrefCalls id st.refLog + st.held id ∧
    refCalls id st.refLog = entered id m cs ∧
    (∃ released, (cleanup st).refLog = st.refLog ++ released) ∧
    refCalls id (cleanup st).refLog = refCalls id st.refLog ∧
    unrefCalls id (cleanup st).refLog = unrefCalls id st.refLog + st.held id ∧
    (cleanup st).held id = 0 ∧
    refCalls id (cleanup st).refLog = unrefCalls id (cleanup st).refLog ∧
    refCalls id (cleanup st).refLog = entered id m cs ∧
    unrefCalls id (cleanup st).refLog = entered id m cs := by
  have hB : st.Balanced :=
    calls_preserves Balanced
      (fun st st' h1 _ _ h4 h5 hP => Balanced_frame st st' h1 h4 h5 hP)
      Balanced_endStage Balanced_enqueue cs st0 st h (Balanced_new cmp iter m s st0 h0)
  have hbal := hB id
  have hent : refCalls id st.refLog = entered id m cs := by
    rw [calls_refCalls id cs st0 st h, refCalls_new id cmp iter m s st0 h0]
    simp [entered]
  have href : refCalls id (cleanup st).refLog = refCalls id st.refLog := by
    simp only [cleanup]
    rw [refCalls_append, refCalls_append, refCalls_unrefEvents, refCalls_drain]
    rfl
  have hunref : unrefCalls id (cleanup st).refLog = unrefCalls id st.refLog + st.held id := by
    simp only [cleanup, held]
    rw [unrefCalls_append, unrefCalls_append, unrefCalls_unrefEvents, unrefCalls_drain]
    omega
  refine ⟨hbal, hent, ⟨unrefEvents st.rs_.mem_ ++
      (st.mems_.map (fun r => unrefEvents r.mem_)).flatten, by simp [cleanup]⟩,
    href, hunref, by simp [cleanup, held, ReplayState.holds], ?_, ?_, ?_⟩
  · rw [href, hunref, ← hbal]
  · rw [href, hent]
  · rw [hunref, ← hbal, hent]

/-- C7 on a run: construction on `bufferAB`, `Valid()`, two `Next()`,
`enqueue(bufferC, 3)`, `Valid()` (which releases `bufferAB` and adopts
`bufferC`), then `cleanup()`, which releases `bufferC`: `bufferC` has entered
once, is held once before `cleanup()` with no `Unref()` made, and has one
`Ref()` and one `Unref()` after it. -/
theorem reference_balance_witness :
    ReplayIteratorImpl.new BytewiseCompare (some noRecords) (some bufferAB) 0 = .ok startAB ∧
    startAB.calls [Call.Valid [5], Call.Next [5], Call.Next [5],
      Call.enqueue (some bufferC) 3, Call.Valid [7]] = .ok onC ∧
    onC.held 4 = 1 ∧ unrefCalls 4 onC.refLog = 0 ∧
    (cleanup onC).refLog =
      [RefEvent.Ref 1, RefEvent.Ref 4, RefEvent.Unref 1, RefEvent.Unref 4] ∧
    entered 4 (some bufferAB) [Call.Valid [5], Call.Next [5], Call.Next [5],
      Call.enqueue (some bufferC) 3, Call.Valid [7]] = 1 ∧
    (refCalls 4 onC.refLog = unrefCalls 4 onC.refLog + onC.held 4 ∧
      refCalls 4 onC.refLog = entered 4 (some bufferAB) [Call.Valid [5], Call.Next [5],
        Call.Next [5], Call.enqueue (some bufferC) 3, Call.Valid [7]] ∧
      (∃ released, (cleanup onC).refLog = onC.refLog ++ released) ∧
      refCalls 4 (cleanup onC).refLog = refCalls 4 onC.refLog ∧
      unrefCalls 4 (cleanup onC).refLog = unrefCalls 4 onC.refLog + onC.held 4 ∧
      (cleanup onC).held 4 = 0 ∧
      refCalls 4 (cleanup onC).refLog = unrefCalls 4 (cleanup onC).refLog ∧
      refCalls 4 (cleanup onC).refLog = entered 4 (some bufferAB) [Call.Valid [5],
        Call.Next [5], Call.Next [5], Call.enqueue (some bufferC) 3, Call.Valid [7]] ∧
      unrefCalls 4 (cleanup onC).refLog = entered 4 (some bufferAB) [Call.Valid [5],
        Call.Next [5], Call.Next [5], Call.enqueue (some bufferC) 3, Call.Valid [7]]) :=
  have hrun : startAB.calls [Call.Valid [5], Call.Next [5], Call.Next [5],
      Call.enqueue (some bufferC) 3, Call.Valid [7]] = .ok onC :=
    by
      rw [calls_cons_of_ok (Call.Valid [5]) _ startAB onA rfl,
        calls_cons_of_ok (Call.Next [5]) _ onA onB rfl,
        calls_cons_of_ok (Call.Next [5]) _ onB caughtUpAB rfl,
        calls_cons_of_ok (Call.enqueue (some bufferC) 3) _ caughtUpAB queuedC rfl,
        calls_cons_of_ok (Call.Valid [7]) _ queuedC onC rfl]
      rfl
  ⟨rfl, hrun, by decide, by decide, rfl, by decide,
    reference_balance BytewiseCompare (some noRecords) (some bufferAB) 0
      [Call.Valid [5], Call.Next [5], Call.Next [5], Call.enqueue (some bufferC) 3,
        Call.Valid [7]] startAB onC 4 rfl hrun⟩

/-! ## C8: corruption on parse failure -/

/-- C8. Corruption on parse failure, from a state with ok status.  (1) If the
scan of the current raw iterator reaches a record whose composite key does not
parse before any record that would be handed out (the first-seen-wins selection
picks none of the records before it), `Valid()` returns false and `status()`
then returns the Corruption recorded locally, whatever the raw iterator's own
status.  (2) If the scan reaches a record that is handed out before it reaches
any record that does not parse, `Valid()` returns true on that record and the
local status stays ok, whatever records follow.  (3) Whenever `Prime` returns,
the local status is ok unless a parse failure or a raw-iterator error has been
met: it is ok, or it is the Corruption and the cursor is on a record that does
not parse, or it is the error of the raw iterator, which is used up and reports
that error; in the last two cases the iterator is not valid.  (4) In
particular, if all records of the raw iterator and of the buffers parse and the
raw iterator has no error, the local status is ok when `Prime` returns. -/
theorem parse_failure_is_corruption (db : List SequenceNumber) (st : ReplayIteratorImpl)
    (it : Iterator) (hs : st.status_.ok = true) (hi : st.rs_.iter_ = some it) :
    (∀ skipped e rest, it.entries.drop it.pos = skipped ++ e :: rest →
      (∀ x ∈ skipped, ParseInternalKey x.key ≠ none) →
      firstSeen st.user_comparator_ st.rs_ st.lastSeen skipped = [] →
      ParseInternalKey e.key = none →
      ∃ st', Valid db st = .ok (false, st') ∧
        st'.status_ = Status.Corruption "corrupted internal key in ReplayIteratorImpl" ∧
        st'.status = .ok (Status.Corruption "corrupted internal key in ReplayIteratorImpl")) ∧
    (∀ skipped e rest, it.entries.drop it.pos = skipped ++ e :: rest →
      firstSeen st.user_comparator_ st.rs_ st.lastSeen skipped = [] →
      firstSeen st.user_comparator_ st.rs_ st.lastSeen (skipped ++ [e]) = [e] →
      ∃ st', Valid db st = .ok (true, st') ∧ st'.status_ = st.status_ ∧
        st'.cursor = some e) ∧
    (∀ st', Prime db st = .ok st' →
      st'.status_.ok = true ∨
      (st'.valid_ = false ∧
        st'.status_ = Status.Corruption "corrupted internal key in ReplayIteratorImpl" ∧
        ∃ e, st'.cursor = some e ∧ ParseInternalKey e.key = none) ∨
      (st'.valid_ = false ∧
        ∃ it', st'.rs_.iter_ = some it' ∧ it'.current = none ∧ it'.status.ok = false ∧
          st'.status_ = it'.status)) ∧
    ((∀ x ∈ it.entries, ParseInternalKey x.key ≠ none) → it.status_.ok = true →
      st.buffersParse → ∀ st', Prime db st = .ok st' → st'.status_.ok = true) := by
  refine ⟨?_, ?_, ?_, ?_⟩
  · intro skipped e rest hdrop hparse hnone he
    have hlen : skipped.length + 1 ≤ it.entries.length - it.pos := by
      have := congrArg List.length hdrop
      simp only [List.length_drop, List.length_append, List.length_cons] at this
      omega
    have hsc := scanLoop_corrupt_after (it.entries.length - it.pos) { st with valid_ := false } it
      skipped e rest hdrop hparse hnone he hlen
    have hP := primeLoop_returned db { st with valid_ := false } it hi hsc.1
    refine ⟨(scanAll { st with valid_ := false } it).1.withIter
      (scanAll { st with valid_ := false } it).2.1, ?_, hsc.2.1, ?_⟩
    · have hv : ((scanAll { st with valid_ := false } it).1.withIter
          (scanAll { st with valid_ := false } it).2.1).valid_ = false := hsc.2.2
      simp only [Valid, Prime_eq_primeLoop db st hs, hP, hv]
    · have hst : ((scanAll { st with valid_ := false } it).1.withIter
          (scanAll { st with valid_ := false } it).2.1).status_ =
          Status.Corruption "corrupted internal key in ReplayIteratorImpl" := hsc.2.1
      simp only [status, hst]
      rfl
  · intro skipped e rest hdrop hnone hpick
    have hlen : skipped.length + 1 ≤ it.entries.length - it.pos := by
      have := congrArg List.length hdrop
      simp only [List.length_drop, List.length_append, List.length_cons] at this
      omega
    have hsc := scanLoop_emit_after (it.entries.length - it.pos) { st with valid_ := false } it
      skipped e rest hdrop hnone hpick hlen
    have hP := primeLoop_returned db { st with valid_ := false } it hi hsc.1
    refine ⟨(scanAll { st with valid_ := false } it).1.withIter
      (scanAll { st with valid_ := false } it).2.1, ?_, hsc.2.1, ?_⟩
    · have hv : ((scanAll { st with valid_ := false } it).1.withIter
          (scanAll { st with valid_ := false } it).2.1).valid_ = true := hsc.2.2.1
      simp only [Valid, Prime_eq_primeLoop db st hs, hP, hv]
    · simp only [cursor, withIter]
      exact hsc.2.2.2
  · intro st' h
    rw [Prime_eq_primeLoop db st hs] at h
    exact primeLoop_failure db { st with valid_ := false } st' rfl hs h
  · intro hit hist hb st' h
    rw [Prime_eq_primeLoop db st hs] at h
    have := primeLoop_status_ok db { st with valid_ := false } st' it hi hit hist hb h
    rw [this]
    exact hs

/-- C8 at concrete inputs.  Over the records `("a", 9, Value)`, outside the
window `[0, 5)`, and a malformed one, `Valid()` returns false and `status()` the
local Corruption, although the raw iterator reports an error of its own.  Over
`("a", 1, Value)`, inside the window, and a malformed one, `Valid()` returns
true on `("a", 1, Value)` and the status stays ok.  The first `Valid()` of the
iterator built on `bufferBad` leaves the Corruption with the cursor on the
malformed record.  Over `bufferAB`, whose records all parse, the status is ok
after `Prime`. -/
theorem parse_failure_is_corruption_witness :
    (∃ st', Valid [5] stageHiddenBad = .ok (false, st') ∧
      st'.status_ = Status.Corruption "corrupted internal key in ReplayIteratorImpl" ∧
      st'.status = .ok (Status.Corruption "corrupted internal key in ReplayIteratorImpl")) ∧
    (∃ st', Valid [5] stageVisibleBad = .ok (true, st') ∧
      st'.status_ = stageVisibleBad.status_ ∧ st'.cursor = some (putRecord [97] 1 [1])) ∧
    (Prime [5] startBad = .ok failedBad ∧
      (failedBad.status_.ok = true ∨
        (failedBad.valid_ = false ∧
          failedBad.status_ =
            Status.Corruption "corrupted internal key in ReplayIteratorImpl" ∧
          ∃ e, failedBad.cursor = some e ∧ ParseInternalKey e.key = none) ∨
        (failedBad.valid_ = false ∧
          ∃ it', failedBad.rs_.iter_ = some it' ∧ it'.current = none ∧
            it'.status.ok = false ∧ failedBad.status_ = it'.status))) ∧
    (Prime [5] startAB = .ok onA ∧ onA.status_.ok = true) :=
  ⟨(parse_failure_is_corruption [5] stageHiddenBad
      { entries := bufferHiddenBad.entries, pos := 0, status_ := Status.IOError "read failed" }
      rfl rfl).1 [putRecord [97] 9 [1]] { key := InternalKey.malformed [1, 2, 3], value := [] } []
      rfl (fun x hx => by
        have hx' : x = putRecord [97] 9 [1] := by simpa using hx
        subst hx'
        simp [putRecord, ParseInternalKey]) (by decide) rfl,
   (parse_failure_is_corruption [5] stageVisibleBad
      { entries := bufferVisibleBad.entries, pos := 0, status_ := Status.OK }
      rfl rfl).2.1 [] (putRecord [97] 1 [1])
      [{ key := InternalKey.malformed [1, 2, 3], value := [] }] rfl (by decide) (by decide),
   ⟨rfl, (parse_failure_is_corruption [5] startBad noRecords rfl rfl).2.2.1 failedBad rfl⟩,
   rfl,
   (parse_failure_is_corruption [5] startAB noRecords rfl rfl).2.2.2
      (fun x hx => by simp [noRecords] at hx) rfl
      ⟨fun m hm => by simp [startAB] at hm,
       fun r hr m hm x hx => by
        have hr' : r = { mem_ := some bufferAB, iter_ := none, seq_start_ := 0, seq_limit_ := 0 } := by
          simpa [startAB] using hr
        subst hr'
        have hm' : m = bufferAB := by simpa using hm.symm
        subst hm'
        have hx' : x = putRecord [97] 1 [1] ∨ x = putRecord [98] 2 [2] := by
          simpa [bufferAB] using hx
        rcases hx' with rfl | rfl <;> simp [putRecord, ParseInternalKey]⟩
      onA rfl⟩

/-! ## C6: terminal failure -/

/-- C6, as stated, fails for a sequence with a `Next()` after an error copied
from the raw iterator: the first `Valid()` of the iterator built on a raw
iterator that has no record and reports a read error returns false with that
error recorded; the raw iterator is not positioned on a record, and `Next()`
calls its `Next()` all the same, outside its precondition, so that the
sequence `Next()`, `Valid()` does not come to the `Valid()`.  After the
Corruption on the only record of `bufferBad` the first `Next()` moves the raw
iterator off that record and the second does the same. -/
theorem Next_after_failure_is_unguarded :
    ReplayIteratorImpl.new BytewiseCompare (some brokenRecords) (some bufferAB) 0
      = .ok startBroken ∧
    Valid [5] startBroken = .ok (false, failedBroken) ∧
    failedBroken.status = .ok (Status.IOError "read failed") ∧
    failedBroken.rs_.iter_ = some brokenRecords ∧ brokenRecords.Valid = false ∧
    Next [5] failedBroken = .error Fault.rawNotValid ∧
    failedBroken.calls [Call.Next [5], Call.Valid [5]] = .error Fault.rawNotValid ∧
    Valid [5] startBad = .ok (false, failedBad) ∧
    failedBad.calls [Call.Next [5], Call.Next [5], Call.Valid [5]]
      = .error Fault.rawNotValid :=
  ⟨rfl, rfl, rfl, rfl, rfl, rfl, rfl, rfl, rfl⟩

/-- C6 (amended). Terminal failure: from a state whose local status is not ok,
a sequence of `Valid()` and `Next()` calls (and of `enqueue` calls with a
buffer) returns if and only if it has at most as many `Next()` calls as the raw
iterator has records from its cursor on; one `Next()` more calls the raw
iterator's `Next()` while it is not positioned on a record.  When the sequence
returns, every `Valid()` in it returns false with `status()` returning the
recorded error afterwards, the recorded status is the same error at the end,
`status()` returns it, every further `Valid()` returns false, and the raw
iterator has moved one record forward for each `Next()`. -/
theorem failure_is_terminal (st : ReplayIteratorImpl) (it : Iterator) (cs : List Call)
    (hs : st.status_.ok = false) (hi : st.rs_.iter_ = some it)
    (hcs : ∀ c ∈ cs, ∀ s, c ≠ Call.enqueue none s) :
    (nextCalls cs ≤ it.entries.length - it.pos →
      ∃ st', st.calls cs = .ok st' ∧
        st'.status_ = st.status_ ∧ st'.status = .ok st.status_ ∧
        st'.rs_.iter_ = some { it with pos := it.pos + nextCalls cs } ∧
        (∀ pre db post, cs = pre ++ Call.Valid db :: post →
          ∃ s1 s2, st.calls pre = .ok s1 ∧ Valid db s1 = .ok (false, s2) ∧
            s2.status_ = st.status_ ∧ s2.status = .ok st.status_) ∧
        ∀ db, ∃ st'', Valid db st' = .ok (false, st'') ∧ st''.status_ = st.status_ ∧
          st''.status = .ok st.status_) ∧
    (it.entries.length - it.pos < nextCalls cs → st.calls cs = .error Fault.rawNotValid) := by
  have hvalid : ∀ (s1 : ReplayIteratorImpl) db, s1.status_ = st.status_ →
      ∃ s2, Valid db s1 = .ok (false, s2) ∧ s2.status_ = st.status_ ∧
        s2.status = .ok st.status_ := by
    intro s1 db h1
    have hs1 : s1.status_.ok = false := by rw [h1]; exact hs
    refine ⟨{ s1 with valid_ := false }, ?_, h1, ?_⟩
    · simp [Valid, Prime_failed db s1 hs1]
    · simp [status, h1, hs]
  refine ⟨fun h => ?_, (calls_after_failure cs st it hs hi hcs).2⟩
  obtain ⟨st', hrun, hs', hi'⟩ := (calls_after_failure cs st it hs hi hcs).1 h
  refine ⟨st', hrun, hs', by simp [status, hs', hs], hi', ?_, fun db => hvalid st' db hs'⟩
  intro pre db post hsplit
  have hpre : ∀ c ∈ pre, ∀ s, c ≠ Call.enqueue none s := fun c hc =>
    hcs c (by rw [hsplit]; exact List.mem_append_left _ hc)
  have hle : nextCalls pre ≤ it.entries.length - it.pos := by
    have : nextCalls cs = nextCalls pre + nextCalls (Call.Valid db :: post) := by
      rw [hsplit, nextCalls_append]
    omega
  obtain ⟨s1, hrun1, hs1, _⟩ := (calls_after_failure pre st it hs hi hpre).1 hle
  obtain ⟨s2, h2⟩ := hvalid s1 db hs1
  exact ⟨s1, s2, hrun1, h2⟩

/-- C6 (amended) on the spec's scenario 3: the iterator that failed on the
malformed record of `bufferBad`, its raw iterator on that one record, stays
failed through `Valid()`, `Next()`, `Valid()`, both `Valid()` returning false;
with a second `Next()` the sequence does not return. -/
theorem failure_is_terminal_witness :
    Valid [5] startBad = .ok (false, failedBad) ∧ failedBad.status_.ok = false ∧
    failedBad.calls [Call.Valid [5], Call.Next [5], Call.Valid [5]] = .ok failedBadOff ∧
    (∃ st', failedBad.calls [Call.Valid [5], Call.Next [5], Call.Valid [5]] = .ok st' ∧
        st'.status_ = failedBad.status_ ∧ st'.status = .ok failedBad.status_ ∧
        st'.rs_.iter_ = some { entries := bufferBad.entries,
                               pos := 0 + nextCalls [Call.Valid [5], Call.Next [5], Call.Valid [5]],
                               status_ := Status.OK } ∧
        (∀ pre db post, [Call.Valid [5], Call.Next [5], Call.Valid [5]]
            = pre ++ Call.Valid db :: post →
          ∃ s1 s2, failedBad.calls pre = .ok s1 ∧ Valid db s1 = .ok (false, s2) ∧
            s2.status_ = failedBad.status_ ∧ s2.status = .ok failedBad.status_) ∧
        ∀ db, ∃ st'', Valid db st' = .ok (false, st'') ∧ st''.status_ = failedBad.status_ ∧
          st''.status = .ok failedBad.status_) ∧
    failedBad.calls [Call.Valid [5], Call.Next [5], Call.Next [5], Call.Valid [5]]
      = .error Fault.rawNotValid :=
  ⟨rfl, rfl, rfl,
    (failure_is_terminal failedBad
      { entries := bufferBad.entries, pos := 0, status_ := Status.OK }
      [Call.Valid [5], Call.Next [5], Call.Valid [5]] rfl rfl
      (fun c hc s => by
        simp only [List.mem_cons, List.mem_singleton, List.not_mem_nil, or_false] at hc
        rcases hc with rfl | rfl | rfl <;> simp)).1 (by decide),
    (failure_is_terminal failedBad
      { entries := bufferBad.entries, pos := 0, status_ := Status.OK }
      [Call.Valid [5], Call.Next [5], Call.Next [5], Call.Valid [5]] rfl rfl
      (fun c hc s => by
        simp only [List.mem_cons, List.mem_singleton, List.not_mem_nil, or_false] at hc
        rcases hc with rfl | rfl | rfl | rfl <;> simp)).2 (by decide)⟩

/-! ## C9: `Next()` while not valid -/

/-- C9 (counterexample). `parkedEmpty` is the caught-up state over the empty
buffer: the last `Valid()` was false and the raw iterator is positioned on no
record; `Next()` calls the raw iterator's `Next()` all the same.  `queuedC` is
a caught-up state (not valid, status ok) with a buffer pending: `Next()`
reports no error and changes the state, landing on the record of the pending
buffer. -/
theorem Next_while_not_valid_is_unguarded :
    Valid [5, 5] startEmpty = .ok (false, parkedEmpty) ∧
    parkedEmpty.rs_.iter_ = some { entries := [], pos := 0, status_ := Status.OK } ∧
    Iterator.Valid { entries := [], pos := 0, status_ := Status.OK } = false ∧
    Next [5] parkedEmpty = .error Fault.rawNotValid ∧
    queuedC.valid_ = false ∧ queuedC.status = .ok Status.OK ∧
    Next [7] queuedC = .ok onC ∧ onC.valid_ = true ∧ onC.status = .ok Status.OK ∧
    onC.rs_.mem_ ≠ queuedC.rs_.mem_ :=
  ⟨rfl, rfl, rfl, rfl, rfl, rfl, rfl, rfl, rfl, by decide⟩

/-- C9 (amended). `Next()` has no guard: it calls the raw iterator's `Next()`
first and then runs `Prime`, whatever `valid_` is.  (1) When the raw iterator is
not positioned on a record, its `Next()` is called outside its precondition.
(2) In a failed state whose raw iterator is positioned on a record, `Next()`
moves the raw iterator one record forward and changes nothing else: `valid_`
stays false and the recorded status stays.  (3) In a caught-up state (status ok,
no last-seen key, window `[L, L)`, raw iterator parked on the last record of a
buffer that has records) whose pending queue is empty or has a head that starts
above `L`, under host max `L`, `Next()` leaves the state as it is.  (4) In such
a state with a buffer pending whose start is at most the current start,
`Next()` under host max `last` releases the current buffer and adopts the head
of the queue with the window `[its start, last)`; it parks on the adopted
buffer if that window is empty and scans it as `Prime` does otherwise. -/
theorem Next_while_not_valid (db : List SequenceNumber) (st : ReplayIteratorImpl)
    (it : Iterator) (hi : st.rs_.iter_ = some it) (hv : st.valid_ = false) :
    (it.Valid = false → Next db st = .error Fault.rawNotValid) ∧
    (it.Valid = true → st.status_.ok = false →
      Next db st = .ok (st.withIter it.Next) ∧ (st.withIter it.Next).valid_ = false ∧
      (st.withIter it.Next).status_ = st.status_) ∧
    (∀ L m, st.status_.ok = true → st.has_current_user_key_ = false → st.seesGap = true →
      st.rs_.mem_ = some m → m.entries ≠ [] →
      it = m.NewIterator.SeekToFirst.SeekToLast →
      st.rs_.seq_start_ = L → st.rs_.seq_limit_ = L →
      Next (L :: db) st = .ok st) ∧
    (∀ last m front rest, st.status_.ok = true → st.has_current_user_key_ = false →
      st.mems_ = front :: rest → front.seq_start_ ≤ st.rs_.seq_start_ →
      st.rs_.mem_ = some m → m.entries ≠ [] →
      it = m.NewIterator.SeekToFirst.SeekToLast →
      Next (last :: db) st =
        match front.mem_ with
        | none => .error Fault.nullMemTable
        | some b =>
          if last ≤ front.seq_start_ then
            .ok { st with
                  refLog := st.refLog ++ unrefEvents st.rs_.mem_
                  rs_ := { mem_ := some b
                           iter_ := some b.NewIterator.SeekToFirst.SeekToLast
                           seq_start_ := front.seq_start_, seq_limit_ := last }
                  mems_ := rest }
          else
            primeLoop db
              { st with
                refLog := st.refLog ++ unrefEvents st.rs_.mem_
                rs_ := { mem_ := some b
                         iter_ := some b.NewIterator.SeekToFirst
                         seq_start_ := front.seq_start_, seq_limit_ := last }
                mems_ := rest }) := by
  have hparked : ∀ m : MemTable, m.entries ≠ [] → it = m.NewIterator.SeekToFirst.SeekToLast →
      it.Valid = true ∧ it.Next = (⟨m.entries, m.entries.length, Status.OK⟩ : Iterator) := by
    intro m hne hit
    have hpos : 0 < m.entries.length := List.length_pos.2 hne
    subst hit
    constructor
    · simp only [Iterator.Valid, MemTable.NewIterator, Iterator.SeekToFirst,
        Iterator.SeekToLast, decide_eq_true_eq]
      omega
    · simp only [Iterator.Next, MemTable.NewIterator, Iterator.SeekToFirst,
        Iterator.SeekToLast]
      congr 1
      omega
  refine ⟨?_, ?_, ?_, ?_⟩
  · intro h
    simp [Next, hi, h]
  · intro h hs
    refine ⟨?_, hv, rfl⟩
    have : Next db st = Prime db (st.withIter it.Next) := by
      simp [Next, hi, h, withIter]
    rw [this, Prime_failed db _ (by exact hs)]
    congr 1
    cases st
    simp only [withIter] at hv ⊢
    simp only [hv]
  · intro L m hs hk hg hm hne hit hstart hlimit
    obtain ⟨hval, hnext⟩ := hparked m hne hit
    have hN : Next (L :: db) st = Prime (L :: db) (st.withIter it.Next) := by
      simp [Next, hi, hval, withIter]
    have hlt : ∀ front rest, st.mems_ = front :: rest →
        st.rs_.seq_start_ < front.seq_start_ := by
      intro front rest hq
      simpa [seesGap, hq] using hg
    rw [hN, Prime_eq_primeLoop _ _ (by exact hs), hnext]
    cases st with
    | mk cmp sa v s hc ck rs ms log =>
      cases rs with
      | mk mem iter start limit =>
        simp only at hv hs hk hm hstart hlimit hi hlt
        subst hv hk hm hstart hi
        subst hlimit
        cases ms with
        | nil =>
          simp [primeLoop, withIter, scanLoop, Iterator.status, Status.ok, endStage,
            switchStage, MemTable.NewIterator, Iterator.SeekToFirst, Iterator.SeekToLast, hit]
        | cons front rest =>
          have hlt' := hlt front rest rfl
          simp [primeLoop, withIter, scanLoop, Iterator.status, Status.ok, endStage,
            switchStage, MemTable.NewIterator, Iterator.SeekToFirst, Iterator.SeekToLast, hit,
            hlt']
  · intro last m front rest hs hk hq hle hm hne hit
    obtain ⟨hval, hnext⟩ := hparked m hne hit
    have hN : Next (last :: db) st = Prime (last :: db) (st.withIter it.Next) := by
      simp [Next, hi, hval, withIter]
    rw [hN, Prime_eq_primeLoop _ _ (by exact hs), hnext]
    cases st with
    | mk cmp sa v s hc ck rs ms log =>
      cases rs with
      | mk mem iter start limit =>
        simp only at hv hs hk hm hi hq hle
        subst hv hk hm hi hq
        have hnlt : ¬ start < front.seq_start_ := Nat.not_lt.2 hle
        cases hb : front.mem_ with
        | none =>
          simp [primeLoop, withIter, scanLoop, Iterator.status, Status.ok, endStage,
            switchStage, hnlt, hb]
        | some b =>
          by_cases hw : last ≤ front.seq_start_
          · simp [primeLoop, withIter, scanLoop, Iterator.status, Status.ok, endStage,
              switchStage, hnlt, hb, hw]
          · rw [primeLoop]
            simp [withIter, scanLoop, Iterator.status, Status.ok, endStage,
              switchStage, hnlt, hb, hw]

/-- C9 (amended) at concrete inputs: on the parked raw iterator of the empty
buffer `Next()` breaks the raw iterator's precondition; on the iterator that
failed on the malformed record `Next()` only moves the raw cursor; on the
caught-up iterator of the spec's first scenario `Next()` changes nothing, nor
does it with a buffer pending whose start, 6, is above the current start 5;
with `bufferC` pending with start 3, at most the current start 5, `Next()`
under host max 7 adopts `bufferC` and lands on its record. -/
theorem Next_while_not_valid_witness :
    Next [5] parkedEmpty = .error Fault.rawNotValid ∧
    (Next [5] failedBad = .ok (failedBad.withIter
        (Iterator.Next { entries := bufferBad.entries, pos := 0, status_ := Status.OK })) ∧
      (failedBad.withIter
        (Iterator.Next { entries := bufferBad.entries, pos := 0, status_ := Status.OK })).valid_
          = false ∧
      (failedBad.withIter
        (Iterator.Next { entries := bufferBad.entries, pos := 0, status_ := Status.OK })).status_
          = failedBad.status_) ∧
    Next [5] caughtUpA1 = .ok caughtUpA1 ∧
    Next [5] aheadA1 = .ok aheadA1 ∧
    Next [7] queuedC =
      primeLoop []
        { queuedC with
          refLog := queuedC.refLog ++ unrefEvents queuedC.rs_.mem_
          rs_ := { mem_ := some bufferC
                   iter_ := some bufferC.NewIterator.SeekToFirst
                   seq_start_ := 3, seq_limit_ := 7 }
          mems_ := [] } ∧
    Next [7] queuedC = .ok onC :=
  ⟨(Next_while_not_valid [5] parkedEmpty { entries := [], pos := 0, status_ := Status.OK }
      rfl rfl).1 rfl,
   (Next_while_not_valid [5] failedBad
      { entries := bufferBad.entries, pos := 0, status_ := Status.OK } rfl rfl).2.1 rfl rfl,
   (Next_while_not_valid [] caughtUpA1
      { entries := bufferA1.entries, pos := 1, status_ := Status.OK } rfl rfl).2.2.1
      5 bufferA1 rfl rfl rfl rfl (by decide) rfl rfl rfl,
   (Next_while_not_valid [] aheadA1
      { entries := bufferA1.entries, pos := 1, status_ := Status.OK } rfl rfl).2.2.1
      5 bufferA1 rfl rfl rfl rfl (by decide) rfl rfl rfl,
   (Next_while_not_valid [] queuedC
      { entries := bufferAB.entries, pos := 1, status_ := Status.OK } rfl rfl).2.2.2
      7 bufferAB { mem_ := some bufferC, iter_ := none, seq_start_ := 3, seq_limit_ := 0 } []
      rfl rfl rfl (by decide) rfl (by decide) rfl,
   rfl⟩

end ReplayIteratorImpl

end leveldb
